import Mathlib

/-! Verification of the `combinethread` plugin.

Shallow embedding of `plugins/combinethread.cpp`.

* An item pointer (`df::item_threadst*`) is an address `Nat`; the simulation
  state is a `Heap`, a total map from addresses to thread items.
* A `std::vector<df::item_threadst*>` is a `List Nat` of addresses.  An
  iterator into the vector is the suffix of the vector that starts at the
  iterator's position: `*it` is the head, `++it` the tail, and
  `it == vec.end()` is the empty suffix.  Dereferencing the end iterator has no
  result (`none`).
* `dimension` is an `int32_t` and the counters are `int`; both are embedded as
  `Int`.  The combiner is embedded twice.  `donor_body`, `donor_loop`,
  `combine_threads_in_vector` and the pass built on them compute lines 56-60
  with exact integers; `donor_body_int32`, `donor_loop_int32`,
  `combine_threads_in_vector_int32` and the pass built on them reduce the
  result of every `int32_t` operation of lines 56-60 into the range of
  `int32_t` (`wrap_int32`).  The two agree on fill amounts between `0` and the
  capacity (`combine_int32_eq`, `df_combinethread_int32_eq`) and on groups of
  distinct units with non-negative fills whose total is at most `2147483647`
  (`combine_int32_eq_of_total`); they differ where a sum leaves the range, as
  on the fills `2147483647` and `1`.  The counters start at `0` in the only
  caller and grow by at most one per unit, so they are left exact.
* The capacity constant `thread_full_dim` is passed to the combiner as the
  parameter `full_dim`; the plugin always runs it at `thread_full_dim`.
* What the host functions return is data of the model: the items that
  `Buildings::getStockpileContents` lists are the field `contents` of a
  stockpile, and an item is a `df_item`, which records whether
  `virtual_cast<df::item_threadst>` succeeds and, when it does not, what
  `Items::getContainedItems` lists.  The text the command prints is left out.
-/

namespace CombineThread

/-- The bits of `df::item_flags` that the plugin reads or writes. -/
structure item_flags where
  in_job : Bool
  on_fire : Bool
  melt : Bool
  garbage_collect : Bool
  dump : Bool
  forbid : Bool
  hostile : Bool
  trader : Bool
  artifact : Bool
  artifact_mood : Bool
  spider_web : Bool
deriving DecidableEq, Repr

/-- The part of `df::item_threadst` that the plugin reads or writes.  The
virtual methods `isDyed()`, `getMaterial()` and `getMaterialIndex()` are
declared outside this file; their results are the fields `isDyed`,
`getMaterial` and `getMaterialIndex`. -/
structure item_threadst where
  id : Int
  dimension : Int
  flags : item_flags
  isDyed : Bool
  getMaterial : Int
  getMaterialIndex : Int
deriving DecidableEq, Repr

/-- The simulation state: the thread item stored at each address. -/
abbrev Heap := Nat → item_threadst

/-- The constant `thread_full_dim`. -/
def thread_full_dim : Int := 15000

/-- The constant `cloth_full_dim`. -/
def cloth_full_dim : Int := 10000

/-- The assignment `p->dimension = d`. -/
def set_dimension (heap : Heap) (p : Nat) (d : Int) : Heap :=
  fun q => if q = p then { heap q with dimension := d } else heap q

/-- The assignment `p->flags.bits.garbage_collect = true`. -/
def set_garbage_collect (heap : Heap) (p : Nat) : Heap :=
  fun q => if q = p then { heap q with flags := { (heap q).flags with garbage_collect := true } }
    else heap q

/-- One pass through the body of the first loop (lines 54-60) with the
receiver `*itl = pl` and the donor `*itr = pr`: the heap after the two
assignments, and the value of `filled_up`.  The sums and differences are exact;
`donor_body_int32` is the same pass with `int32_t` results, and the two agree
when both fills are at least `0` and their sum is at most `2147483647`
(`donor_body_int32_eq_of_fit`). -/
def donor_body (full_dim : Int) (heap : Heap) (pl pr : Nat) : Heap × Bool :=
  let left_dim := (heap pl).dimension
  let right_dim := (heap pr).dimension
  let filled_up : Bool := decide (right_dim + left_dim ≥ full_dim)
  let amount_to_combine := if filled_up then full_dim - left_dim else right_dim
  let heap1 := set_dimension heap pl (left_dim + amount_to_combine)
  let heap2 := set_dimension heap1 pr (right_dim - amount_to_combine)
  (heap2, filled_up)

/-- The first loop of `combine_threads_in_vector` (lines 53-65), started with
the donor iterator `itr`, the receiver iterator `itl`, the heap and
`out_stat_filled`.  It returns the final receiver iterator, heap and counter. -/
def donor_loop (full_dim : Int) :
    List Nat → List Nat → Heap → Int → Option (List Nat × Heap × Int)
  | [], itl, heap, out_stat_filled => some (itl, heap, out_stat_filled)
  | _ :: _, [], _, _ => none
  | pr :: itr, pl :: itl, heap, out_stat_filled =>
    let b := donor_body full_dim heap pl pr
    if b.2 then donor_loop full_dim itr itl b.1 (out_stat_filled + 1)
    else donor_loop full_dim itr (pl :: itl) b.1 out_stat_filled

/-- The second loop of `combine_threads_in_vector` (lines 66-71), started with
the receiver iterator `itl`, the heap and `out_stat_emptied`. -/
def mark_loop : List Nat → Heap → Int → Heap × Int
  | [], heap, out_stat_emptied => (heap, out_stat_emptied)
  | p :: itl, heap, out_stat_emptied =>
    if (heap p).dimension = 0 then
      mark_loop itl (set_garbage_collect heap p) (out_stat_emptied + 1)
    else mark_loop itl heap out_stat_emptied

/-- The state `combine_threads_in_vector` leaves behind. -/
structure CombineResult where
  heap : Heap
  out_stat_filled : Int
  out_stat_emptied : Int

/-- The function `combine_threads_in_vector` (lines 50-72). -/
def combine_threads_in_vector (full_dim : Int) (vec : List Nat) (heap : Heap)
    (out_stat_filled out_stat_emptied : Int) : Option CombineResult :=
  if vec.length < 2 then some ⟨heap, out_stat_filled, out_stat_emptied⟩
  else
    match donor_loop full_dim vec.tail vec heap out_stat_filled with
    | none => none
    | some (itl, heap1, filled1) =>
      let r := mark_loop itl heap1 out_stat_emptied
      some ⟨r.1, filled1, r.2⟩

/-- The fill amounts of the units of a group, in group order. -/
def fills (heap : Heap) (vec : List Nat) : List Int :=
  vec.map (fun p => (heap p).dimension)

/-- The removal flags of the units of a group, in group order. -/
def removal_flags (heap : Heap) (vec : List Nat) : List Bool :=
  vec.map (fun p => (heap p).flags.garbage_collect)

/-- A heap in which the unit at address `i` has the `i`-th fill amount of `ds`
(and `0` beyond), no flag set, no dye, and material `(0, 0)`. -/
def heap_of_fills (ds : List Int) : Heap :=
  fun p => ⟨p, ds.getD p 0, ⟨false, false, false, false, false, false, false, false, false,
    false, false⟩, false, 0, 0⟩

/-- Runs the combiner on the group `0, 1, ..., n-1` over `heap_of_fills ds` with
both counters at `0`; returns the fill amounts, removal flags and counters. -/
def run_on_fills (full_dim : Int) (ds : List Int) : Option (List Int × List Bool × Int × Int) :=
  let vec := List.range ds.length
  (combine_threads_in_vector full_dim vec (heap_of_fills ds) 0 0).map
    (fun r => (fills r.heap vec, removal_flags r.heap vec, r.out_stat_filled, r.out_stat_emptied))


/-- Runs the combiner on the group `0, 1, ..., n-1` over `heap_of_fills ds` with
both counters at `0`, then a second time on the state the first run left;
returns the fill amounts, removal flags and counters after each run. -/
def run_twice_on_fills (full_dim : Int) (ds : List Int) :
    Option ((List Int × List Bool × Int × Int) × (List Int × List Bool × Int × Int)) :=
  let vec := List.range ds.length
  match combine_threads_in_vector full_dim vec (heap_of_fills ds) 0 0 with
  | none => none
  | some r1 =>
    match combine_threads_in_vector full_dim vec r1.heap r1.out_stat_filled
        r1.out_stat_emptied with
    | none => none
    | some r2 =>
      some ((fills r1.heap vec, removal_flags r1.heap vec, r1.out_stat_filled,
              r1.out_stat_emptied),
            (fills r2.heap vec, removal_flags r2.heap vec, r2.out_stat_filled,
              r2.out_stat_emptied))

/-- The total fill amount of a group. -/
def total_fill (heap : Heap) (vec : List Nat) : Int :=
  (fills heap vec).sum

/-! ## The grouper -/

/-- The key type `std::tuple<int16_t, int32_t>`: material and material index. -/
abbrev MatKey := Int × Int

/-- The order `operator<` of `std::tuple<int16_t, int32_t>`: lexicographic. -/
def key_lt (a b : MatKey) : Bool :=
  decide (a.1 < b.1) || (decide (a.1 = b.1) && decide (a.2 < b.2))

/-- The type `std::map<std::tuple<int16_t, int32_t>, std::vector<df::item_threadst*>>`:
the entries of the map in iteration order, that is by increasing key. -/
abbrev ThreadMap := List (MatKey × List Nat)

/-- The lookup `my_map.find(key)`: the vector stored under `key`, or `none` for
`my_map.end()`. -/
def map_find (key : MatKey) : ThreadMap → Option (List Nat)
  | [] => none
  | (k, v) :: m => if k = key then some v else map_find key m

/-- The call `my_map.emplace_hint(my_map.begin(), key, v)`: puts the entry
`(key, v)` at its place in key order unless `key` is already present (the hint
does not affect the result). -/
def map_emplace_hint (key : MatKey) (v : List Nat) : ThreadMap → ThreadMap
  | [] => [(key, v)]
  | (k, w) :: m =>
    if k = key then (k, w) :: m
    else if key_lt key k then (key, v) :: (k, w) :: m
    else (k, w) :: map_emplace_hint key v m

/-- The call `map_it->second.push_back(item)` where `map_it` is the entry of
`key`. -/
def map_push_back (key : MatKey) (item : Nat) : ThreadMap → ThreadMap
  | [] => []
  | (k, v) :: m =>
    if k = key then (k, v ++ [item]) :: m else (k, v) :: map_push_back key item m

/-- The lambda `insert_in_map` (lines 104-131) applied to the item at address
`item`; the diagnostic print is left out. -/
def insert_in_map (heap : Heap) (item : Nat) (my_map : ThreadMap) : ThreadMap :=
  if (heap item).isDyed then my_map
  else if (heap item).dimension = thread_full_dim then my_map
  else if ((heap item).flags.in_job ||
      (heap item).flags.on_fire ||
      (heap item).flags.melt ||
      (heap item).flags.garbage_collect ||
      (heap item).flags.dump ||
      (heap item).flags.forbid ||
      (heap item).flags.hostile ||
      (heap item).flags.trader ||
      (heap item).flags.artifact ||
      (heap item).flags.artifact_mood ||
      (heap item).flags.spider_web) then my_map
  else
    let key : MatKey := ((heap item).getMaterial, (heap item).getMaterialIndex)
    let my_map1 :=
      match map_find key my_map with
      | none => map_emplace_hint key [] my_map
      | some _ => my_map
    map_push_back key item my_map1

/-- The group stored under `key` (empty when the key is absent). -/
def group_of (my_map : ThreadMap) (key : MatKey) : List Nat :=
  (map_find key my_map).getD []

/-- The eligibility predicate in the words of the specification: not dyed, fill
amount different from the thread capacity, none of the eleven exclusion flags
set. -/
def thread_eligible (it : item_threadst) : Prop :=
  it.isDyed = false ∧ it.dimension ≠ thread_full_dim ∧
  it.flags.in_job = false ∧ it.flags.on_fire = false ∧ it.flags.melt = false ∧
  it.flags.garbage_collect = false ∧ it.flags.dump = false ∧ it.flags.forbid = false ∧
  it.flags.hostile = false ∧ it.flags.trader = false ∧ it.flags.artifact = false ∧
  it.flags.artifact_mood = false ∧ it.flags.spider_web = false

instance (it : item_threadst) : Decidable (thread_eligible it) := by
  unfold thread_eligible
  infer_instance

/-! ## The pairwise combiner of the specification (section 4.2) -/

/-- A resource unit as the combiner of the specification sees it: its fill
amount and its marked-for-removal flag. -/
structure SpecUnit where
  fill_amount : Int
  marked_for_removal : Bool
deriving DecidableEq, Repr

/-- The state of the specified donor loop: the units of the group, the position
of the receiver cursor, and the `filled` counter. -/
structure SpecState where
  units : List SpecUnit
  receiver : Nat
  filled : Int
deriving DecidableEq, Repr

/-- Step 1b of the specification: `would_fill = available + receiver.fill_amount >= capacity`
for the donor at position `donor`. -/
def spec_would_fill (capacity : Int) (s : SpecState) (donor : Nat) : Bool :=
  match s.units[s.receiver]?, s.units[donor]? with
  | some r, some d => decide (d.fill_amount + r.fill_amount ≥ capacity)
  | _, _ => false

/-- Steps 1a-1f of the specification for the donor at position `donor`; on
`would_fill` the receiver cursor moves to the donor's position. -/
def spec_donor_step (capacity : Int) (s : SpecState) (donor : Nat) : SpecState :=
  match s.units[s.receiver]?, s.units[donor]? with
  | some r, some d =>
    let space := capacity - r.fill_amount
    let available := d.fill_amount
    let would_fill : Bool := decide (available + r.fill_amount ≥ capacity)
    let transfer := if would_fill then space else available
    let units1 := s.units.set s.receiver { r with fill_amount := r.fill_amount + transfer }
    let units2 := units1.set donor { d with fill_amount := d.fill_amount - transfer }
    if would_fill then { units := units2, receiver := donor, filled := s.filled + 1 }
    else { units := units2, receiver := s.receiver, filled := s.filled }
  | _, _ => s

/-- The result of the specified combiner. -/
structure SpecResult where
  units : List SpecUnit
  filled : Int
  emptied : Int
deriving DecidableEq, Repr

/-- Step 2 of the specification: every unit from position `receiver` to the end
whose fill amount is `0` is marked for removal and counted in `emptied`. -/
def spec_mark_trailing (units : List SpecUnit) (receiver : Nat) (filled emptied : Int) :
    SpecResult :=
  { units := units.take receiver ++ (units.drop receiver).map
      (fun u => if u.fill_amount = 0 then { u with marked_for_removal := true } else u),
    filled := filled,
    emptied := emptied +
      (((units.drop receiver).countP (fun u => decide (u.fill_amount = 0)) : Nat) : Int) }

/-- The pairwise combiner as section 4.2 of the specification words it: a group
under size 2 is returned unchanged; otherwise the receiver cursor starts at the
first unit, the donor cursor runs over positions `1, ..., n-1`, and the trailing
scan follows. -/
def spec_combiner (capacity : Int) (units : List SpecUnit) (filled emptied : Int) : SpecResult :=
  if units.length < 2 then { units := units, filled := filled, emptied := emptied }
  else
    let s := (List.range' 1 (units.length - 1)).foldl (spec_donor_step capacity)
      { units := units, receiver := 0, filled := filled }
    spec_mark_trailing s.units s.receiver s.filled emptied

/-- In the run of the specified donor loop from state `s` over the donor
positions `donors`, every donor that tops off the receiver stands directly
after it. -/
def spec_tops_off_adjacent (capacity : Int) : SpecState → List Nat → Bool
  | _, [] => true
  | s, donor :: donors =>
    (!(spec_would_fill capacity s donor) || decide (donor = s.receiver + 1)) &&
      spec_tops_off_adjacent capacity (spec_donor_step capacity s donor) donors

/-- The units of a group as the specification sees them: fill amount and removal
flag of each, in group order. -/
def read_group (heap : Heap) (vec : List Nat) : List SpecUnit :=
  vec.map (fun p => { fill_amount := (heap p).dimension,
                      marked_for_removal := (heap p).flags.garbage_collect })

/-- In the run of the specified combiner on the group `vec`, every donor that
tops off the receiver stands directly after it. -/
def tops_off_adjacent (capacity : Int) (heap : Heap) (vec : List Nat) : Bool :=
  spec_tops_off_adjacent capacity { units := read_group heap vec, receiver := 0, filled := 0 }
    (List.range' 1 (vec.length - 1))

/-- Runs the specified combiner on fresh units with the fill amounts `ds` and
both counters at `0`; returns the fill amounts, removal marks and counters. -/
def spec_run_on_fills (capacity : Int) (ds : List Int) : List Int × List Bool × Int × Int :=
  let r := spec_combiner capacity (ds.map (fun d => ⟨d, false⟩)) 0 0
  (r.units.map (fun u => u.fill_amount), r.units.map (fun u => u.marked_for_removal),
    r.filled, r.emptied)

/-! ## The stockpile pass -/

/-- The value of the local variable `amount_to_combine` (line 57) in a pass of
the loop body with the receiver `*itl = pl` and the donor `*itr = pr`, in exact
arithmetic; `amount_to_combine_int32` is the same value with `int32_t`
results. -/
def amount_to_combine (full_dim : Int) (heap : Heap) (pl pr : Nat) : Int :=
  let left_dim := (heap pl).dimension
  let right_dim := (heap pr).dimension
  let filled_up : Bool := decide (right_dim + left_dim ≥ full_dim)
  if filled_up then full_dim - left_dim else right_dim

/-- The state at the head of the first loop: the receiver iterator, the donor
iterator and the heap. -/
structure IterState where
  itl : List Nat
  itr : List Nat
  heap : Heap

/-- The first loop of `combine_threads_in_vector` (lines 53-65) again, now
recording the state each time the loop condition `itr != vec.end()` is
evaluated; the last state recorded is the one in which the loop ends (or in
which `*itl` has no result). -/
def donor_loop_trace (full_dim : Int) : List Nat → List Nat → Heap → List IterState
  | [], itl, heap => [⟨itl, [], heap⟩]
  | pr :: itr, [], heap => [⟨[], pr :: itr, heap⟩]
  | pr :: itr, pl :: itl, heap =>
    let b := donor_body full_dim heap pl pr
    ⟨pl :: itl, pr :: itr, heap⟩ ::
      (if b.2 then donor_loop_trace full_dim itr itl b.1
       else donor_loop_trace full_dim itr (pl :: itl) b.1)

/-- An item of a stockpile as the pass sees it: either `virtual_cast<df::item_threadst>`
succeeds and gives the thread at address `p`, or it fails and
`Items::getContainedItems` lists the contained items, each of them again a
thread at some address (`some p`) or not a thread (`none`). -/
inductive df_item where
  | thread (p : Nat)
  | other (contained : List (Option Nat))
deriving DecidableEq, Repr

/-- The part of `df::building_stockpilest` that the pass reads: the id, the four
thread vectors of `settings.cloth` (each a `std::vector<char>`), and the items
that `Buildings::getStockpileContents` lists for it. -/
structure building_stockpilest where
  id : Int
  thread_plant : List Int
  thread_silk : List Int
  thread_yarn : List Int
  thread_metal : List Int
  contents : List df_item
deriving DecidableEq, Repr

/-- The lambda `has_allowed` (lines 89-93): some entry of the vector converts to
`true`. -/
def has_allowed (vec : List Int) : Bool :=
  vec.any (fun c => decide (c ≠ 0))

/-- The inner loop over `contained_items` (lines 149-152). -/
def insert_contained (heap : Heap) : List (Option Nat) → ThreadMap → ThreadMap
  | [], threads_by_mat => threads_by_mat
  | some item_thread :: rest, threads_by_mat =>
    insert_contained heap rest (insert_in_map heap item_thread threads_by_mat)
  | none :: rest, threads_by_mat => insert_contained heap rest threads_by_mat

/-- The loop over `sp_contents` (lines 136-155). -/
def insert_contents (heap : Heap) : List df_item → ThreadMap → ThreadMap
  | [], threads_by_mat => threads_by_mat
  | df_item.thread sp_thread :: rest, threads_by_mat =>
    insert_contents heap rest (insert_in_map heap sp_thread threads_by_mat)
  | df_item.other contained_items :: rest, threads_by_mat =>
    insert_contents heap rest (insert_contained heap contained_items threads_by_mat)

/-- The loop over `threads_by_mat` (lines 157-159), in key order. -/
def combine_groups : ThreadMap → Heap → Int → Int → Option CombineResult
  | [], heap, filled_count, emptied_count => some ⟨heap, filled_count, emptied_count⟩
  | (_, vec) :: rest, heap, filled_count, emptied_count =>
    match combine_threads_in_vector thread_full_dim vec heap filled_count emptied_count with
    | none => none
    | some r => combine_groups rest r.heap r.out_stat_filled r.out_stat_emptied

/-- The body of the loop over the stockpiles (lines 87-160) for the stockpile
`sp`, started in the state `st`. -/
def process_stockpile (sp : building_stockpilest) (st : CombineResult) : Option CombineResult :=
  if !has_allowed sp.thread_plant &&
      !has_allowed sp.thread_silk &&
      !has_allowed sp.thread_yarn &&
      !has_allowed sp.thread_metal then some st
  else
    let threads_by_mat := insert_contents st.heap sp.contents []
    combine_groups threads_by_mat st.heap st.out_stat_filled st.out_stat_emptied

/-- The loop over `world->buildings.other.STOCKPILE` (lines 86-161). -/
def process_stockpiles : List building_stockpilest → CombineResult → Option CombineResult
  | [], st => some st
  | sp :: rest, st =>
    match process_stockpile sp st with
    | none => none
    | some st1 => process_stockpiles rest st1

/-- The command `df_combinethread` (lines 74-166) on the stockpiles of the world
and the heap: the final heap, `filled_count` and `emptied_count`; the printed
text is left out. -/
def df_combinethread (stockpiles : List building_stockpilest) (heap : Heap) :
    Option CombineResult :=
  process_stockpiles stockpiles ⟨heap, 0, 0⟩

/-- The key `(getMaterial(), getMaterialIndex())` of the item at address `p`. -/
def key_of (heap : Heap) (p : Nat) : MatKey :=
  ((heap p).getMaterial, (heap p).getMaterialIndex)

/-- The thread units that one item of a stockpile brings: the item itself when
it is a thread, otherwise its contained threads in list order. -/
def item_threads : df_item → List Nat
  | df_item.thread p => [p]
  | df_item.other contained => contained.filterMap id

/-- The thread units of a stockpile in the order in which they are
encountered. -/
def stockpile_threads (contents : List df_item) : List Nat :=
  contents.flatMap item_threads

/-- The contents of a stockpile with the thread at address `q` taken out. -/
def contents_without (q : Nat) : List df_item → List df_item
  | [] => []
  | df_item.thread p :: rest =>
    if p = q then contents_without q rest else df_item.thread p :: contents_without q rest
  | df_item.other contained :: rest =>
    df_item.other (contained.filter (fun c => decide (c ≠ some q))) :: contents_without q rest

/-- The stockpile `sp` with the thread at address `q` taken out of its
contents. -/
def stockpile_without (q : Nat) (sp : building_stockpilest) : building_stockpilest :=
  { sp with contents := contents_without q sp.contents }

/-- A heap like `heap_of_fills ds` in which the unit at address `i` has the
material index `i`-th entry of `ms` (and `0` beyond). -/
def heap_of_fills_mats (ds : List Int) (ms : List Int) : Heap :=
  fun p => ⟨p, ds.getD p 0, ⟨false, false, false, false, false, false, false, false, false,
    false, false⟩, false, 0, ms.getD p 0⟩

/-- Runs `df_combinethread` and returns the fill amounts and removal flags of
the units at the addresses `vec` together with both counters. -/
def run_pass (stockpiles : List building_stockpilest) (heap : Heap) (vec : List Nat) :
    Option (List Int × List Bool × Int × Int) :=
  (df_combinethread stockpiles heap).map
    (fun r => (fills r.heap vec, removal_flags r.heap vec, r.out_stat_filled, r.out_stat_emptied))

/-! ## The combiner with the machine's `int32_t` arithmetic

The definitions above compute with exact integers.  The definitions of this
section are the same code with the result of every `int32_t` operation of
lines 56-60 reduced modulo `2^32` into the range of `int32_t`, the value the
compiled plugin stores; the two agree whenever no operation leaves that range
(`donor_body_int32_eq_of_fit`), in particular on fill amounts between `0` and a
capacity of at most `2^30 - 1`, and on distinct units with non-negative fills
whose total is at most `2^31 - 1`. -/

/-- The value an `int32_t` holds for the exact result `x`: `x` reduced modulo
`2^32` into the range from `-2147483648` to `2147483647`. -/
def wrap_int32 (x : Int) : Int :=
  (x + 2147483648) % 4294967296 - 2147483648

/-- The value of the local variable `amount_to_combine` (line 57) with
`int32_t` arithmetic. -/
def amount_to_combine_int32 (full_dim : Int) (heap : Heap) (pl pr : Nat) : Int :=
  let left_dim := (heap pl).dimension
  let right_dim := (heap pr).dimension
  let filled_up : Bool := decide (wrap_int32 (right_dim + left_dim) ≥ full_dim)
  if filled_up then wrap_int32 (full_dim - left_dim) else right_dim

/-- One pass through the body of the first loop (lines 54-60) with `int32_t`
arithmetic. -/
def donor_body_int32 (full_dim : Int) (heap : Heap) (pl pr : Nat) : Heap × Bool :=
  let left_dim := (heap pl).dimension
  let right_dim := (heap pr).dimension
  let filled_up : Bool := decide (wrap_int32 (right_dim + left_dim) ≥ full_dim)
  let amount_to_combine := if filled_up then wrap_int32 (full_dim - left_dim) else right_dim
  let heap1 := set_dimension heap pl (wrap_int32 (left_dim + amount_to_combine))
  let heap2 := set_dimension heap1 pr (wrap_int32 (right_dim - amount_to_combine))
  (heap2, filled_up)

/-- The first loop of `combine_threads_in_vector` (lines 53-65) with `int32_t`
arithmetic. -/
def donor_loop_int32 (full_dim : Int) :
    List Nat → List Nat → Heap → Int → Option (List Nat × Heap × Int)
  | [], itl, heap, out_stat_filled => some (itl, heap, out_stat_filled)
  | _ :: _, [], _, _ => none
  | pr :: itr, pl :: itl, heap, out_stat_filled =>
    let b := donor_body_int32 full_dim heap pl pr
    if b.2 then donor_loop_int32 full_dim itr itl b.1 (out_stat_filled + 1)
    else donor_loop_int32 full_dim itr (pl :: itl) b.1 out_stat_filled

/-- The function `combine_threads_in_vector` (lines 50-72) with `int32_t`
arithmetic. -/
def combine_threads_in_vector_int32 (full_dim : Int) (vec : List Nat) (heap : Heap)
    (out_stat_filled out_stat_emptied : Int) : Option CombineResult :=
  if vec.length < 2 then some ⟨heap, out_stat_filled, out_stat_emptied⟩
  else
    match donor_loop_int32 full_dim vec.tail vec heap out_stat_filled with
    | none => none
    | some (itl, heap1, filled1) =>
      let r := mark_loop itl heap1 out_stat_emptied
      some ⟨r.1, filled1, r.2⟩

/-- The loop over `threads_by_mat` (lines 157-159) with `int32_t` arithmetic. -/
def combine_groups_int32 : ThreadMap → Heap → Int → Int → Option CombineResult
  | [], heap, filled_count, emptied_count => some ⟨heap, filled_count, emptied_count⟩
  | (_, vec) :: rest, heap, filled_count, emptied_count =>
    match combine_threads_in_vector_int32 thread_full_dim vec heap filled_count
        emptied_count with
    | none => none
    | some r => combine_groups_int32 rest r.heap r.out_stat_filled r.out_stat_emptied

/-- The body of the loop over the stockpiles (lines 87-160) with `int32_t`
arithmetic. -/
def process_stockpile_int32 (sp : building_stockpilest) (st : CombineResult) :
    Option CombineResult :=
  if !has_allowed sp.thread_plant &&
      !has_allowed sp.thread_silk &&
      !has_allowed sp.thread_yarn &&
      !has_allowed sp.thread_metal then some st
  else
    let threads_by_mat := insert_contents st.heap sp.contents []
    combine_groups_int32 threads_by_mat st.heap st.out_stat_filled st.out_stat_emptied

/-- The loop over `world->buildings.other.STOCKPILE` (lines 86-161) with
`int32_t` arithmetic. -/
def process_stockpiles_int32 : List building_stockpilest → CombineResult → Option CombineResult
  | [], st => some st
  | sp :: rest, st =>
    match process_stockpile_int32 sp st with
    | none => none
    | some st1 => process_stockpiles_int32 rest st1

/-- The command `df_combinethread` (lines 74-166) with `int32_t` arithmetic. -/
def df_combinethread_int32 (stockpiles : List building_stockpilest) (heap : Heap) :
    Option CombineResult :=
  process_stockpiles_int32 stockpiles ⟨heap, 0, 0⟩

/-- Runs `combine_threads_in_vector_int32` on the group `0, 1, ..., n-1` over
`heap_of_fills ds` with both counters at `0`; returns the fill amounts, removal
flags and counters. -/
def run_on_fills_int32 (full_dim : Int) (ds : List Int) :
    Option (List Int × List Bool × Int × Int) :=
  let vec := List.range ds.length
  (combine_threads_in_vector_int32 full_dim vec (heap_of_fills ds) 0 0).map
    (fun r => (fills r.heap vec, removal_flags r.heap vec, r.out_stat_filled, r.out_stat_emptied))

/-- Runs `df_combinethread_int32` and returns the fill amounts and removal
flags of the units at the addresses `vec` together with both counters. -/
def run_pass_int32 (stockpiles : List building_stockpilest) (heap : Heap) (vec : List Nat) :
    Option (List Int × List Bool × Int × Int) :=
  (df_combinethread_int32 stockpiles heap).map
    (fun r => (fills r.heap vec, removal_flags r.heap vec, r.out_stat_filled, r.out_stat_emptied))

/-! ## Heap updates -/

theorem set_dimension_same (heap : Heap) (p : Nat) (d : Int) :
    (set_dimension heap p d p).dimension = d := by
  simp [set_dimension]

theorem set_dimension_other (heap : Heap) (p q : Nat) (d : Int) (h : q ≠ p) :
    set_dimension heap p d q = heap q := by
  simp [set_dimension, h]

theorem set_dimension_flags (heap : Heap) (p q : Nat) (d : Int) :
    (set_dimension heap p d q).flags = (heap q).flags := by
  unfold set_dimension; split <;> rfl

theorem set_garbage_collect_dimension (heap : Heap) (p q : Nat) :
    (set_garbage_collect heap p q).dimension = (heap q).dimension := by
  unfold set_garbage_collect; split <;> rfl

theorem set_garbage_collect_same (heap : Heap) (p : Nat) :
    (set_garbage_collect heap p p).flags.garbage_collect = true := by
  simp [set_garbage_collect]

theorem set_garbage_collect_other (heap : Heap) (p q : Nat) (h : q ≠ p) :
    set_garbage_collect heap p q = heap q := by
  simp [set_garbage_collect, h]

theorem total_fill_set_not_mem (heap : Heap) (p : Nat) (d : Int) (vec : List Nat)
    (h : p ∉ vec) : total_fill (set_dimension heap p d) vec = total_fill heap vec := by
  induction vec with
  | nil => rfl
  | cons q vec ih =>
    have hq : q ≠ p := fun e => h (by simp [e])
    have hv : p ∉ vec := fun e => h (by simp [e])
    simp only [total_fill, fills, List.map_cons, List.sum_cons] at ih ⊢
    rw [ih hv, set_dimension_other heap p q d hq]

theorem total_fill_set_mem (heap : Heap) (p : Nat) (d : Int) (vec : List Nat)
    (hnd : vec.Nodup) (h : p ∈ vec) :
    total_fill (set_dimension heap p d) vec = total_fill heap vec - (heap p).dimension + d := by
  induction vec with
  | nil => simp at h
  | cons q vec ih =>
    have hq : q ∉ vec := (List.nodup_cons.mp hnd).1
    have hv : vec.Nodup := (List.nodup_cons.mp hnd).2
    by_cases e : p = q
    · subst e
      have := total_fill_set_not_mem heap p d vec hq
      simp only [total_fill, fills, List.map_cons, List.sum_cons] at this ⊢
      rw [this, set_dimension_same]; ring
    · have hp : p ∈ vec := by
        rcases List.mem_cons.mp h with h1 | h1
        · exact absurd h1 e
        · exact h1
      have := ih hv hp
      simp only [total_fill, fills, List.map_cons, List.sum_cons] at this ⊢
      rw [this, set_dimension_other heap p q d (fun e2 => e e2.symm)]; ring

/-! ## The body of the donor loop -/

theorem donor_body_filled_up (cap : Int) (heap : Heap) (pl pr : Nat) :
    (donor_body cap heap pl pr).2 = decide (cap ≤ (heap pr).dimension + (heap pl).dimension) := by
  simp [donor_body]

theorem donor_body_right (cap : Int) (heap : Heap) (pl pr : Nat) :
    ((donor_body cap heap pl pr).1 pr).dimension =
      if cap ≤ (heap pr).dimension + (heap pl).dimension
      then (heap pr).dimension + (heap pl).dimension - cap else 0 := by
  by_cases e : pr = pl
  · subst e
    simp only [donor_body, set_dimension_same]
    simp only [set_dimension, if_true, decide_eq_true_eq, ge_iff_le]
    split <;> ring
  · simp only [donor_body, set_dimension_same, set_dimension_other _ pl pr _ e]
    simp only [decide_eq_true_eq, ge_iff_le]
    split <;> ring

theorem donor_body_left (cap : Int) (heap : Heap) (pl pr : Nat) (h : pl ≠ pr) :
    ((donor_body cap heap pl pr).1 pl).dimension =
      if cap ≤ (heap pr).dimension + (heap pl).dimension
      then cap else (heap pl).dimension + (heap pr).dimension := by
  simp only [donor_body, set_dimension_other _ pr pl _ h, set_dimension_same]
  simp only [decide_eq_true_eq, ge_iff_le]
  split <;> ring

theorem donor_body_other (cap : Int) (heap : Heap) (pl pr q : Nat) (hl : q ≠ pl) (hr : q ≠ pr) :
    (donor_body cap heap pl pr).1 q = heap q := by
  simp only [donor_body, set_dimension_other _ pr q _ hr, set_dimension_other _ pl q _ hl]

theorem donor_body_flags (cap : Int) (heap : Heap) (pl pr q : Nat) :
    ((donor_body cap heap pl pr).1 q).flags = (heap q).flags := by
  simp only [donor_body, set_dimension_flags]

theorem donor_body_total (cap : Int) (heap : Heap) (pl pr : Nat) (vec : List Nat)
    (hnd : vec.Nodup) (hl : pl ∈ vec) (hr : pr ∈ vec) (h : pl ≠ pr) :
    total_fill (donor_body cap heap pl pr).1 vec = total_fill heap vec := by
  simp only [donor_body]
  rw [total_fill_set_mem _ pr _ vec hnd hr, total_fill_set_mem _ pl _ vec hnd hl,
    set_dimension_other _ pl pr _ (fun e => h e.symm)]
  ring

/-! ## The donor loop

At the head of every iteration the group splits as `done ++ front ++ itr`:
`done` are the units before the receiver iterator, `front` (never empty) the
units from the receiver up to the donor, and `itr` the donor iterator. -/

theorem nodup_split_facts {done f rest : List Nat} {pl pr : Nat}
    (h : (done ++ (pl :: f) ++ pr :: rest).Nodup) :
    pl ≠ pr ∧ pl ∉ done ∧ pr ∉ done ∧ pl ∉ f ∧ pl ∉ rest ∧ pr ∉ f ∧ pr ∉ rest := by
  simp only [List.nodup_append, List.nodup_cons, List.disjoint_cons_left, List.disjoint_cons_right,
    List.mem_append, List.mem_cons, not_or, List.disjoint_append_left] at h
  tauto

theorem donor_loop_inv (cap : Int) (vec : List Nat) (hnd : vec.Nodup) :
    ∀ (itr front done : List Nat) (heap : Heap) (filled : Int),
      front ≠ [] → done ++ front ++ itr = vec →
      (∀ p ∈ done, (heap p).dimension = cap) →
      (∀ p ∈ front ++ itr, 0 ≤ (heap p).dimension ∧ (heap p).dimension ≤ cap) →
      ∃ (done1 itl1 : List Nat) (heap1 : Heap),
        donor_loop cap itr (front ++ itr) heap filled
          = some (itl1, heap1, filled + ((done1.length : Int) - (done.length : Int))) ∧
        done1 ++ itl1 = vec ∧ itl1 ≠ [] ∧ done.length ≤ done1.length ∧
        (∀ p ∈ done1, (heap1 p).dimension = cap) ∧
        (∀ p ∈ itl1, 0 ≤ (heap1 p).dimension ∧ (heap1 p).dimension ≤ cap) ∧
        ((∀ p ∈ front ++ itr, (heap p).dimension < cap) →
          ∀ p ∈ itl1, (heap1 p).dimension < cap) ∧
        total_fill heap1 vec = total_fill heap vec ∧
        (∀ q, (heap1 q).flags = (heap q).flags) ∧
        (∀ q, q ∉ vec → heap1 q = heap q) := by
  intro itr
  induction itr with
  | nil =>
    intro front done heap filled hne hv hfull hb
    refine ⟨done, front, heap, ?_, ?_, hne, le_refl _, hfull, ?_, ?_, rfl, fun _ => rfl,
      fun _ _ => rfl⟩
    · simp [donor_loop]
    · simpa using hv
    · simpa using hb
    · intro h; simpa using h
  | cons pr rest ih =>
    intro front done heap filled hne hv hfull hb
    obtain ⟨pl, f, rfl⟩ := List.exists_cons_of_ne_nil hne
    have hnd1 : (done ++ (pl :: f) ++ pr :: rest).Nodup := hv ▸ hnd
    obtain ⟨hplpr, hpl_done, hpr_done, hpl_f, hpl_rest, hpr_f, hpr_rest⟩ := nodup_split_facts hnd1
    have hplv : pl ∈ vec := by rw [← hv]; simp
    have hprv : pr ∈ vec := by rw [← hv]; simp
    have hbl := hb pl (by simp)
    have hbr := hb pr (by simp)
    have htot := donor_body_total cap heap pl pr vec hnd hplv hprv hplpr
    have hL := donor_body_left cap heap pl pr hplpr
    have hR := donor_body_right cap heap pl pr
    have hO := donor_body_other cap heap pl pr
    have hF := donor_body_flags cap heap pl pr
    have hB := donor_body_filled_up cap heap pl pr
    by_cases hfill : cap ≤ (heap pr).dimension + (heap pl).dimension
    · -- the donor tops off the receiver
      rw [if_pos hfill] at hL hR
      have hb2 : (donor_body cap heap pl pr).2 = true := by rw [hB]; simpa using hfill
      have hv2 : (done ++ [pl]) ++ (f ++ [pr]) ++ rest = vec := by rw [← hv]; simp
      obtain ⟨done1, itl1, heap1, hrun, hsplit, hne1, hlen, hfull1, hb1, hs1, htot1, hfl1, hfr1⟩ :=
        ih (f ++ [pr]) (done ++ [pl]) (donor_body cap heap pl pr).1 (filled + 1) (by simp) hv2
          (by
            intro p hp
            rcases List.mem_append.mp hp with h1 | h1
            · rw [hO p (fun e => hpl_done (e ▸ h1)) (fun e => hpr_done (e ▸ h1))]
              exact hfull p h1
            · have : p = pl := by simpa using h1
              rw [this, hL])
          (by
            intro p hp
            have hp2 : p ∈ f ∨ p = pr ∨ p ∈ rest := by simpa [or_assoc] using hp
            by_cases e : p = pr
            · rw [e, hR]; constructor <;> omega
            · have e2 : p ≠ pl := by
                intro e2; subst e2
                rcases hp2 with h1 | h1 | h1
                · exact hpl_f h1
                · exact e h1
                · exact hpl_rest h1
              rw [hO p e2 e]
              apply hb
              rcases hp2 with h1 | h1 | h1
              · simp [h1]
              · exact absurd h1 e
              · simp [h1])
      refine ⟨done1, itl1, heap1, ?_, hsplit, hne1, ?_, hfull1, hb1, ?_, ?_, ?_, ?_⟩
      · have hcall : donor_loop cap (pr :: rest) (pl :: f ++ pr :: rest) heap filled
            = donor_loop cap rest (f ++ [pr] ++ rest) (donor_body cap heap pl pr).1 (filled + 1) := by
          simp [donor_loop, hb2]
        rw [hcall, hrun]
        simp only [List.length_append, List.length_singleton, Nat.cast_add, Nat.cast_one]
        congr 3; ring
      · simp only [List.length_append, List.length_singleton] at hlen; omega
      · intro hs
        apply hs1
        intro p hp
        have hp2 : p ∈ f ∨ p = pr ∨ p ∈ rest := by simpa [or_assoc] using hp
        have hsl := hs pl (by simp)
        have hsr := hs pr (by simp)
        by_cases e : p = pr
        · rw [e, hR]; omega
        · have e2 : p ≠ pl := by
            intro e2; subst e2
            rcases hp2 with h1 | h1 | h1
            · exact hpl_f h1
            · exact e h1
            · exact hpl_rest h1
          rw [hO p e2 e]
          apply hs
          rcases hp2 with h1 | h1 | h1
          · simp [h1]
          · exact absurd h1 e
          · simp [h1]
      · rw [htot1, htot]
      · intro q; rw [hfl1, hF]
      · intro q hq
        rw [hfr1 q hq]
        exact hO q (fun e => hq (e ▸ hplv)) (fun e => hq (e ▸ hprv))
    · -- the donor is drained into the receiver
      rw [if_neg hfill] at hL hR
      have hb2 : (donor_body cap heap pl pr).2 = false := by rw [hB]; simpa using hfill
      have hv2 : done ++ (pl :: f ++ [pr]) ++ rest = vec := by rw [← hv]; simp
      obtain ⟨done1, itl1, heap1, hrun, hsplit, hne1, hlen, hfull1, hb1, hs1, htot1, hfl1, hfr1⟩ :=
        ih (pl :: f ++ [pr]) done (donor_body cap heap pl pr).1 filled (by simp) hv2
          (by
            intro p h1
            rw [hO p (fun e => hpl_done (e ▸ h1)) (fun e => hpr_done (e ▸ h1))]
            exact hfull p h1)
          (by
            intro p hp
            have hp2 : p = pl ∨ p ∈ f ∨ p = pr ∨ p ∈ rest := by simpa [or_assoc] using hp
            by_cases e : p = pr
            · rw [e, hR]; constructor <;> omega
            · by_cases e2 : p = pl
              · rw [e2, hL]; constructor <;> omega
              · rw [hO p e2 e]
                apply hb
                rcases hp2 with h1 | h1 | h1 | h1
                · exact absurd h1 e2
                · simp [h1]
                · exact absurd h1 e
                · simp [h1])
      refine ⟨done1, itl1, heap1, ?_, hsplit, hne1, hlen, hfull1, hb1, ?_, ?_, ?_, ?_⟩
      · have hcall : donor_loop cap (pr :: rest) (pl :: f ++ pr :: rest) heap filled
            = donor_loop cap rest (pl :: f ++ [pr] ++ rest) (donor_body cap heap pl pr).1 filled := by
          simp [donor_loop, hb2]
        rw [hcall, hrun]
      · intro hs
        apply hs1
        intro p hp
        have hp2 : p = pl ∨ p ∈ f ∨ p = pr ∨ p ∈ rest := by simpa [or_assoc] using hp
        have hsl := hs pl (by simp)
        have hsr := hs pr (by simp)
        by_cases e : p = pr
        · rw [e, hR]; omega
        · by_cases e2 : p = pl
          · rw [e2, hL]; omega
          · rw [hO p e2 e]
            apply hs
            rcases hp2 with h1 | h1 | h1 | h1
            · exact absurd h1 e2
            · simp [h1]
            · exact absurd h1 e
            · simp [h1]
      · rw [htot1, htot]
      · intro q; rw [hfl1, hF]
      · intro q hq
        rw [hfr1 q hq]
        exact hO q (fun e => hq (e ▸ hplv)) (fun e => hq (e ▸ hprv))

/-! ## The marking loop -/

theorem mark_loop_dimension (itl : List Nat) :
    ∀ (heap : Heap) (e : Int) (q : Nat),
      ((mark_loop itl heap e).1 q).dimension = (heap q).dimension := by
  induction itl with
  | nil => intro heap e q; rfl
  | cons p itl ih =>
    intro heap e q
    simp only [mark_loop]
    split
    · rw [ih, set_garbage_collect_dimension]
    · rw [ih]

theorem mark_loop_frame (itl : List Nat) :
    ∀ (heap : Heap) (e : Int) (q : Nat), q ∉ itl → (mark_loop itl heap e).1 q = heap q := by
  induction itl with
  | nil => intro heap e q _; rfl
  | cons p itl ih =>
    intro heap e q hq
    have h1 : q ≠ p := fun h => hq (by simp [h])
    have h2 : q ∉ itl := fun h => hq (by simp [h])
    simp only [mark_loop]
    split
    · rw [ih _ _ _ h2, set_garbage_collect_other _ _ _ h1]
    · rw [ih _ _ _ h2]

theorem mark_loop_flag (itl : List Nat) :
    ∀ (heap : Heap) (e : Int) (q : Nat),
      ((mark_loop itl heap e).1 q).flags.garbage_collect = true ↔
        ((heap q).flags.garbage_collect = true ∨ (q ∈ itl ∧ (heap q).dimension = 0)) := by
  induction itl with
  | nil => intro heap e q; simp [mark_loop]
  | cons p itl ih =>
    intro heap e q
    simp only [mark_loop]
    split
    · rename_i hz
      rw [ih, set_garbage_collect_dimension]
      by_cases hqp : q = p
      · subst hqp
        simp [set_garbage_collect_same, hz]
      · rw [set_garbage_collect_other _ _ _ hqp]
        simp [hqp]
    · rename_i hz
      rw [ih]
      by_cases hqp : q = p
      · subst hqp
        simp [hz]
      · simp [hqp]

theorem mark_loop_emptied (itl : List Nat) :
    ∀ (heap : Heap) (e : Int),
      (mark_loop itl heap e).2
        = e + ((itl.countP (fun p => decide ((heap p).dimension = 0)) : Nat) : Int) := by
  induction itl with
  | nil => intro heap e; simp [mark_loop]
  | cons p itl ih =>
    intro heap e
    simp only [mark_loop]
    split
    · rename_i hz
      rw [ih]
      simp only [set_garbage_collect_dimension]
      rw [List.countP_cons_of_pos _ _ (by simpa using hz)]
      push_cast; ring
    · rename_i hz
      rw [ih, List.countP_cons_of_neg _ _ (by simpa using hz)]

/-! ## The combiner on a group of at least two distinct units -/

theorem combine_run (cap : Int) (vec : List Nat) (heap : Heap) (f e : Int)
    (hnd : vec.Nodup) (hlen : 2 ≤ vec.length)
    (hb : ∀ p ∈ vec, 0 ≤ (heap p).dimension ∧ (heap p).dimension ≤ cap) :
    ∃ (done1 itl1 : List Nat) (heap1 : Heap) (r : CombineResult),
      combine_threads_in_vector cap vec heap f e = some r ∧
      r.heap = (mark_loop itl1 heap1 e).1 ∧
      r.out_stat_filled = f + (done1.length : Int) ∧
      r.out_stat_emptied = (mark_loop itl1 heap1 e).2 ∧
      done1 ++ itl1 = vec ∧ itl1 ≠ [] ∧
      (∀ p ∈ done1, (heap1 p).dimension = cap) ∧
      (∀ p ∈ itl1, 0 ≤ (heap1 p).dimension ∧ (heap1 p).dimension ≤ cap) ∧
      ((∀ p ∈ vec, (heap p).dimension < cap) → ∀ p ∈ itl1, (heap1 p).dimension < cap) ∧
      total_fill heap1 vec = total_fill heap vec ∧
      (∀ q, (heap1 q).flags = (heap q).flags) ∧
      (∀ q, q ∉ vec → heap1 q = heap q) := by
  obtain ⟨p0, rest, rfl⟩ : ∃ p0 rest, vec = p0 :: rest := by
    cases vec with
    | nil => simp at hlen
    | cons a l => exact ⟨a, l, rfl⟩
  obtain ⟨done1, itl1, heap1, hrun, hsplit, hne1, _, hfull1, hb1, hs1, htot1, hfl1, hfr1⟩ :=
    donor_loop_inv cap (p0 :: rest) hnd rest [p0] [] heap f (by simp) (by simp)
      (by simp) (by simpa using hb)
  refine ⟨done1, itl1, heap1, ⟨(mark_loop itl1 heap1 e).1, f + (done1.length : Int),
    (mark_loop itl1 heap1 e).2⟩, ?_, rfl, rfl, rfl, hsplit, hne1, hfull1, hb1, ?_, htot1, hfl1, hfr1⟩
  · have hl : ¬ (p0 :: rest).length < 2 := by omega
    simp only [combine_threads_in_vector, hl, if_false, List.tail_cons]
    have : donor_loop cap rest (p0 :: rest) heap f
        = some (itl1, heap1, f + (done1.length : Int)) := by
      simpa using hrun
    rw [this]
  · intro hs
    exact hs1 (by simpa using hs)

theorem fills_mark_loop (itl : List Nat) (heap : Heap) (e : Int) (vec : List Nat) :
    fills (mark_loop itl heap e).1 vec = fills heap vec := by
  simp only [fills]
  exact List.map_congr_left (fun p _ => mark_loop_dimension itl heap e p)

theorem donor_loop_bounded (cap : Int) (S : Nat → Prop) :
    ∀ (itr itl : List Nat) (heap : Heap) (filled : Int),
      itr.length < itl.length → (∀ p ∈ itr, S p) → (∀ p ∈ itl, S p) →
      (∀ q, S q → 0 ≤ (heap q).dimension ∧ (heap q).dimension ≤ cap) →
      ∃ (itl1 : List Nat) (heap1 : Heap) (f1 : Int),
        donor_loop cap itr itl heap filled = some (itl1, heap1, f1) ∧
        (∀ q, S q → 0 ≤ (heap1 q).dimension ∧ (heap1 q).dimension ≤ cap) := by
  intro itr
  induction itr with
  | nil =>
    intro itl heap filled _ _ _ hb
    exact ⟨itl, heap, filled, by simp [donor_loop], hb⟩
  | cons pr rest ih =>
    intro itl heap filled hlen hr hl hb
    cases itl with
    | nil => simp at hlen
    | cons pl tl =>
      have hSl : S pl := hl pl (by simp)
      have hSr : S pr := hr pr (by simp)
      have hbl := hb pl hSl
      have hbr := hb pr hSr
      have hR := donor_body_right cap heap pl pr
      have hb2 : ∀ q, S q → 0 ≤ ((donor_body cap heap pl pr).1 q).dimension ∧
          ((donor_body cap heap pl pr).1 q).dimension ≤ cap := by
        intro q hq
        by_cases e : q = pr
        · rw [e, hR]; split <;> constructor <;> omega
        · by_cases e2 : q = pl
          · have hL := donor_body_left cap heap pl pr (fun h => e (e2.trans h))
            rw [e2, hL]; split <;> constructor <;> omega
          · rw [donor_body_other cap heap pl pr q e2 e]; exact hb q hq
      simp only [donor_loop]
      split
      · exact ih tl _ _ (by simp only [List.length_cons] at hlen; omega)
          (fun p hp => hr p (by simp [hp])) (fun p hp => hl p (by simp [hp])) hb2
      · exact ih (pl :: tl) _ _ (by simp only [List.length_cons] at hlen ⊢; omega)
          (fun p hp => hr p (by simp [hp])) hl hb2

/-! ## Conservation, boundedness, removal marking -/

/-- C1 (conservation): for a group of distinct units whose fill amounts lie
between `0` and the capacity, `combine_threads_in_vector` returns, and the sum
of the fill amounts of the group after it equals the sum before it. -/
theorem conservation (cap : Int) (vec : List Nat) (heap : Heap) (f e : Int)
    (hnd : vec.Nodup)
    (hb : ∀ p ∈ vec, 0 ≤ (heap p).dimension ∧ (heap p).dimension ≤ cap) :
    ∃ r, combine_threads_in_vector cap vec heap f e = some r ∧
      (fills r.heap vec).sum = (fills heap vec).sum := by
  by_cases hlen : vec.length < 2
  · exact ⟨⟨heap, f, e⟩, by simp [combine_threads_in_vector, hlen], rfl⟩
  · obtain ⟨done1, itl1, heap1, r, hrun, hheap, _, _, _, _, _, _, _, htot, _, _⟩ :=
      combine_run cap vec heap f e hnd (by omega) hb
    refine ⟨r, hrun, ?_⟩
    rw [hheap, fills_mark_loop]
    exact htot

theorem conservation_witness :
    [0, 1, 2, 3].Nodup ∧
    (∀ p ∈ [0, 1, 2, 3], 0 ≤ (heap_of_fills [3000, 4000, 13000, 1000] p).dimension ∧
      (heap_of_fills [3000, 4000, 13000, 1000] p).dimension ≤ thread_full_dim) ∧
    ∃ r, combine_threads_in_vector thread_full_dim [0, 1, 2, 3]
        (heap_of_fills [3000, 4000, 13000, 1000]) 0 0 = some r ∧
      (fills r.heap [0, 1, 2, 3]).sum
        = (fills (heap_of_fills [3000, 4000, 13000, 1000]) [0, 1, 2, 3]).sum :=
  ⟨by decide, by decide,
    conservation thread_full_dim [0, 1, 2, 3] (heap_of_fills [3000, 4000, 13000, 1000]) 0 0
      (by decide) (by decide)⟩

/-- C2 (boundedness): for a group in which every unit has a fill amount between
`0` and the capacity, `combine_threads_in_vector` returns, and afterwards every
unit of the group has a fill amount between `0` and the capacity. -/
theorem boundedness (cap : Int) (vec : List Nat) (heap : Heap) (f e : Int)
    (hb : ∀ p ∈ vec, 0 ≤ (heap p).dimension ∧ (heap p).dimension ≤ cap) :
    ∃ r, combine_threads_in_vector cap vec heap f e = some r ∧
      ∀ p ∈ vec, 0 ≤ (r.heap p).dimension ∧ (r.heap p).dimension ≤ cap := by
  by_cases hlen : vec.length < 2
  · exact ⟨⟨heap, f, e⟩, by simp [combine_threads_in_vector, hlen], hb⟩
  · obtain ⟨itl1, heap1, f1, hrun, hb1⟩ :=
      donor_loop_bounded cap (fun p => p ∈ vec) vec.tail vec heap f
        (by cases vec with
          | nil => simp at hlen
          | cons a l => simp)
        (fun p hp => List.mem_of_mem_tail hp) (fun p hp => hp) hb
    refine ⟨⟨(mark_loop itl1 heap1 e).1, f1, (mark_loop itl1 heap1 e).2⟩, ?_, ?_⟩
    · simp only [combine_threads_in_vector, hlen, if_false, hrun]
    · intro p hp
      simp only [mark_loop_dimension]
      exact hb1 p hp

theorem boundedness_witness :
    (∀ p ∈ [0, 1, 2, 3], 0 ≤ (heap_of_fills [3000, 4000, 13000, 15000] p).dimension ∧
      (heap_of_fills [3000, 4000, 13000, 15000] p).dimension ≤ thread_full_dim) ∧
    ∃ r, combine_threads_in_vector thread_full_dim [0, 1, 2, 3]
        (heap_of_fills [3000, 4000, 13000, 15000]) 0 0 = some r ∧
      ∀ p ∈ [0, 1, 2, 3], 0 ≤ (r.heap p).dimension ∧ (r.heap p).dimension ≤ thread_full_dim :=
  ⟨by decide,
    boundedness thread_full_dim [0, 1, 2, 3] (heap_of_fills [3000, 4000, 13000, 15000]) 0 0
      (by decide)⟩

/-- C6 (removal marking): for a group of at least two distinct eligible units
(fill amount at least `0` and below the capacity, removal flag clear), after
`combine_threads_in_vector` a unit of the group carries the removal flag
exactly when its final fill amount is `0`, wherever it stands in the group, and
`out_stat_emptied` has grown by the number of such units. -/
theorem removal_marking (cap : Int) (vec : List Nat) (heap : Heap) (f e : Int)
    (hnd : vec.Nodup) (hlen : 2 ≤ vec.length)
    (hel : ∀ p ∈ vec, 0 ≤ (heap p).dimension ∧ (heap p).dimension < cap ∧
      (heap p).flags.garbage_collect = false) :
    ∃ r, combine_threads_in_vector cap vec heap f e = some r ∧
      (∀ p ∈ vec, (r.heap p).flags.garbage_collect = true ↔ (r.heap p).dimension = 0) ∧
      r.out_stat_emptied
        = e + ((vec.countP (fun p => decide ((r.heap p).dimension = 0)) : Nat) : Int) := by
  obtain ⟨done1, itl1, heap1, r, hrun, hheap, _, hemp, hsplit, hne1, hfull1, _, _, _, hfl1, _⟩ :=
    combine_run cap vec heap f e hnd hlen (fun p hp => ⟨(hel p hp).1, le_of_lt (hel p hp).2.1⟩)
  have hcap : 0 < cap := by
    cases vec with
    | nil => simp at hlen
    | cons a l => have := hel a (by simp); omega
  refine ⟨r, hrun, ?_, ?_⟩
  · intro p hp
    rw [hheap, mark_loop_flag, mark_loop_dimension, hfl1, (hel p hp).2.2]
    constructor
    · rintro (h | h)
      · exact absurd h (by simp)
      · exact h.2
    · intro hz
      refine Or.inr ⟨?_, hz⟩
      rw [← hsplit] at hp
      rcases List.mem_append.mp hp with h1 | h1
      · have := hfull1 p h1; omega
      · exact h1
  · rw [hemp, mark_loop_emptied, hheap, ← hsplit, List.countP_append]
    have h0 : done1.countP
        (fun p => decide (((mark_loop itl1 heap1 e).1 p).dimension = 0)) = 0 := by
      rw [List.countP_eq_zero]
      intro p hp
      have := hfull1 p hp
      simp only [mark_loop_dimension, decide_eq_true_eq]
      omega
    rw [h0, Nat.zero_add]
    simp only [mark_loop_dimension]

theorem removal_marking_witness :
    [0, 1, 2, 3].Nodup ∧ 2 ≤ [0, 1, 2, 3].length ∧
    (∀ p ∈ [0, 1, 2, 3], 0 ≤ (heap_of_fills [3000, 4000, 0, 13000] p).dimension ∧
      (heap_of_fills [3000, 4000, 0, 13000] p).dimension < thread_full_dim ∧
      (heap_of_fills [3000, 4000, 0, 13000] p).flags.garbage_collect = false) ∧
    ∃ r, combine_threads_in_vector thread_full_dim [0, 1, 2, 3]
        (heap_of_fills [3000, 4000, 0, 13000]) 0 0 = some r ∧
      (∀ p ∈ [0, 1, 2, 3],
        (r.heap p).flags.garbage_collect = true ↔ (r.heap p).dimension = 0) ∧
      r.out_stat_emptied
        = 0 + (([0, 1, 2, 3].countP (fun p => decide ((r.heap p).dimension = 0)) : Nat) : Int) :=
  ⟨by decide, by decide, by decide,
    removal_marking thread_full_dim [0, 1, 2, 3] (heap_of_fills [3000, 4000, 0, 13000]) 0 0
      (by decide) (by decide) (by decide)⟩

/-- C3 (complete consolidation), evaluated: on four eligible spools holding
3000, 4000, 13000 and 1000 at capacity 15000 the combiner leaves
15000, 1000, 5000, 0, so two units (1000 and 5000) stay strictly between `0`
and the capacity. -/
theorem consolidation_leaves_two_leftovers :
    run_on_fills thread_full_dim [3000, 4000, 13000, 1000]
      = some ([15000, 1000, 5000, 0], [false, false, false, true], 1, 1) := by
  decide

/-- C9 (multiple of capacity), evaluated: four eligible spools holding
3000, 4000, 13000 and 10000 sum to `2 * 15000`, yet the combiner leaves
15000, 10000, 5000, 0 with `out_stat_filled` grown by `1`: one unit at
capacity, not two. -/
theorem multiple_of_capacity_one_full :
    run_on_fills thread_full_dim [3000, 4000, 13000, 10000]
      = some ([15000, 10000, 5000, 0], [false, false, false, true], 1, 1) := by
  decide

/-! ## Runs in which no donor tops off the receiver -/

theorem total_fill_nonneg (heap : Heap) (vec : List Nat)
    (h : ∀ p ∈ vec, 0 ≤ (heap p).dimension) : 0 ≤ total_fill heap vec := by
  induction vec with
  | nil => simp [total_fill, fills]
  | cons q vec ih =>
    have h1 := h q (by simp)
    have h2 := ih (fun p hp => h p (by simp [hp]))
    simp only [total_fill, fills, List.map_cons, List.sum_cons] at h2 ⊢
    omega

theorem total_fill_congr (heap heap1 : Heap) (vec : List Nat)
    (h : ∀ p ∈ vec, (heap1 p).dimension = (heap p).dimension) :
    total_fill heap1 vec = total_fill heap vec := by
  simp only [total_fill, fills]
  rw [List.map_congr_left h]

theorem donor_loop_drain (cap : Int) :
    ∀ (itr : List Nat) (pl : Nat) (tl : List Nat) (heap : Heap) (filled : Int),
      pl ∉ itr → itr.Nodup → (∀ p ∈ itr, 0 ≤ (heap p).dimension) →
      (heap pl).dimension + total_fill heap itr < cap →
      ∃ heap1 : Heap,
        donor_loop cap itr (pl :: tl) heap filled = some (pl :: tl, heap1, filled) ∧
        (heap1 pl).dimension = (heap pl).dimension + total_fill heap itr ∧
        (∀ p ∈ itr, (heap1 p).dimension = 0) ∧
        (∀ q, q ≠ pl → q ∉ itr → heap1 q = heap q) ∧
        (∀ q, (heap1 q).flags = (heap q).flags) := by
  intro itr
  induction itr with
  | nil =>
    intro pl tl heap filled _ _ _ _
    exact ⟨heap, by simp [donor_loop], by simp [total_fill, fills], by simp,
      fun _ _ _ => rfl, fun _ => rfl⟩
  | cons pr rest ih =>
    intro pl tl heap filled hpl hnd hnn hsum
    have hplpr : pl ≠ pr := fun e => hpl (by simp [e])
    have hpl_rest : pl ∉ rest := fun e => hpl (by simp [e])
    have hpr_rest : pr ∉ rest := (List.nodup_cons.mp hnd).1
    have hnd_rest : rest.Nodup := (List.nodup_cons.mp hnd).2
    have hrest_nn := total_fill_nonneg heap rest (fun p hp => hnn p (by simp [hp]))
    have hsplit : total_fill heap (pr :: rest) = (heap pr).dimension + total_fill heap rest := by
      simp [total_fill, fills]
    rw [hsplit] at hsum
    have hnf : ¬ cap ≤ (heap pr).dimension + (heap pl).dimension := by omega
    have hL := donor_body_left cap heap pl pr hplpr
    have hR := donor_body_right cap heap pl pr
    have hO := donor_body_other cap heap pl pr
    have hF := donor_body_flags cap heap pl pr
    have hB := donor_body_filled_up cap heap pl pr
    rw [if_neg hnf] at hL hR
    have hb2 : (donor_body cap heap pl pr).2 = false := by rw [hB]; simpa using hnf
    have hsame : ∀ p ∈ rest,
        ((donor_body cap heap pl pr).1 p).dimension = (heap p).dimension := by
      intro p hp
      rw [hO p (fun e => hpl_rest (e ▸ hp)) (fun e => hpr_rest (e ▸ hp))]
    have htc := total_fill_congr heap (donor_body cap heap pl pr).1 rest hsame
    obtain ⟨heap1, hrun, hsum1, hzero1, hfr1, hfl1⟩ :=
      ih pl tl (donor_body cap heap pl pr).1 filled hpl_rest hnd_rest
        (fun p hp => by rw [hsame p hp]; exact hnn p (by simp [hp]))
        (by rw [hL, htc]; omega)
    refine ⟨heap1, ?_, ?_, ?_, ?_, ?_⟩
    · simp only [donor_loop, hb2]
      exact hrun
    · rw [hsum1, hL, htc, hsplit]; ring
    · intro p hp
      rcases List.mem_cons.mp hp with h1 | h1
      · rw [h1, hfr1 pr (fun e => hplpr e.symm) hpr_rest, hR]
      · exact hzero1 p h1
    · intro q hq1 hq2
      have hqpr : q ≠ pr := fun e => hq2 (by simp [e])
      have hqrest : q ∉ rest := fun e => hq2 (by simp [e])
      rw [hfr1 q hq1 hqrest, hO q hq1 hqpr]
    · intro q; rw [hfl1, hF]

/-- C10 (collapse below one capacity): for a group `p0 :: rest` of at least two
distinct units with non-negative fill amounts whose sum is below the capacity,
`combine_threads_in_vector` returns; afterwards the first unit holds the whole
sum, every other unit holds `0` and carries the removal flag,
`out_stat_filled` is unchanged, and `out_stat_emptied` has grown by the number
of other units (plus one when the sum itself is `0`). -/
theorem collapse_below_capacity (cap : Int) (p0 : Nat) (rest : List Nat) (heap : Heap)
    (f e : Int) (hnd : (p0 :: rest).Nodup) (hlen : 2 ≤ (p0 :: rest).length)
    (hnn : ∀ p ∈ p0 :: rest, 0 ≤ (heap p).dimension)
    (hsum : (fills heap (p0 :: rest)).sum < cap) :
    ∃ r, combine_threads_in_vector cap (p0 :: rest) heap f e = some r ∧
      (r.heap p0).dimension = (fills heap (p0 :: rest)).sum ∧
      (∀ p ∈ rest, (r.heap p).dimension = 0 ∧ (r.heap p).flags.garbage_collect = true) ∧
      r.out_stat_filled = f ∧
      r.out_stat_emptied
        = e + (rest.length : Int) + (if (fills heap (p0 :: rest)).sum = 0 then 1 else 0) := by
  have hp0 : p0 ∉ rest := (List.nodup_cons.mp hnd).1
  have hndr : rest.Nodup := (List.nodup_cons.mp hnd).2
  have hsplit : (fills heap (p0 :: rest)).sum = (heap p0).dimension + total_fill heap rest := by
    simp [total_fill, fills]
  obtain ⟨heap1, hrun, hsum1, hzero1, _, _⟩ :=
    donor_loop_drain cap rest p0 rest heap f hp0 hndr (fun p hp => hnn p (by simp [hp]))
      (by rw [← hsplit]; exact hsum)
  have hl : ¬ (p0 :: rest).length < 2 := by omega
  refine ⟨⟨(mark_loop (p0 :: rest) heap1 e).1, f, (mark_loop (p0 :: rest) heap1 e).2⟩,
    ?_, ?_, ?_, rfl, ?_⟩
  · simp only [combine_threads_in_vector, hl, if_false, List.tail_cons, hrun]
  · simp only [mark_loop_dimension]
    rw [hsum1, hsplit]
  · intro p hp
    refine ⟨by simp only [mark_loop_dimension]; exact hzero1 p hp, ?_⟩
    rw [mark_loop_flag]
    exact Or.inr ⟨by simp [hp], hzero1 p hp⟩
  · simp only [mark_loop_emptied]
    have hc : rest.countP (fun p => decide ((heap1 p).dimension = 0)) = rest.length := by
      rw [List.countP_eq_length]
      intro p hp
      simpa using hzero1 p hp
    rw [List.countP_cons, hc, hsum1, ← hsplit]
    by_cases hz : (fills heap (p0 :: rest)).sum = 0
    · simp only [hz, decide_True, if_true, Nat.cast_add, Nat.cast_one]; ring
    · simp [hz]

theorem collapse_below_capacity_witness :
    [0, 1].Nodup ∧ 2 ≤ [0, 1].length ∧
    (∀ p ∈ [0, 1], 0 ≤ (heap_of_fills [20, 30] p).dimension) ∧
    (fills (heap_of_fills [20, 30]) [0, 1]).sum < 100 ∧
    ∃ r, combine_threads_in_vector 100 [0, 1] (heap_of_fills [20, 30]) 0 0 = some r ∧
      (r.heap 0).dimension = 50 ∧
      (∀ p ∈ [1], (r.heap p).dimension = 0 ∧ (r.heap p).flags.garbage_collect = true) ∧
      r.out_stat_filled = 0 ∧
      r.out_stat_emptied = 1 :=
  ⟨by decide, by decide, by decide, by decide,
    collapse_below_capacity 100 0 [1] (heap_of_fills [20, 30]) 0 0
      (by decide) (by decide) (by decide) (by decide)⟩

/-! ## The grouper -/

theorem map_find_push_back (key : MatKey) (item : Nat) (m : ThreadMap) :
    map_find key (map_push_back key item m) = (map_find key m).map (fun v => v ++ [item]) := by
  induction m with
  | nil => rfl
  | cons kv m ih =>
    obtain ⟨k, v⟩ := kv
    by_cases h : k = key
    · simp [map_push_back, map_find, h]
    · simp [map_push_back, map_find, h, ih]

theorem map_find_push_back_other (key k2 : MatKey) (item : Nat) (m : ThreadMap) (h2 : k2 ≠ key) :
    map_find k2 (map_push_back key item m) = map_find k2 m := by
  induction m with
  | nil => rfl
  | cons kv m ih =>
    obtain ⟨k, v⟩ := kv
    by_cases h : k = key
    · subst h
      simp [map_push_back, map_find, Ne.symm h2]
    · by_cases h3 : k = k2
      · subst h3
        simp [map_push_back, map_find, h]
      · simp [map_push_back, map_find, h, h3, ih]

theorem map_find_emplace_hint (key : MatKey) (v : List Nat) (m : ThreadMap)
    (h : map_find key m = none) : map_find key (map_emplace_hint key v m) = some v := by
  induction m with
  | nil => simp [map_emplace_hint, map_find]
  | cons kv m ih =>
    obtain ⟨k, w⟩ := kv
    by_cases hk : k = key
    · simp [map_find, hk] at h
    · have h2 : map_find key m = none := by simpa [map_find, hk] using h
      by_cases hlt : key_lt key k = true
      · simp [map_emplace_hint, map_find, hk, hlt]
      · simp [map_emplace_hint, map_find, hk, hlt, ih h2]

theorem map_find_emplace_hint_other (key k2 : MatKey) (v : List Nat) (m : ThreadMap)
    (h2 : k2 ≠ key) : map_find k2 (map_emplace_hint key v m) = map_find k2 m := by
  induction m with
  | nil => simp [map_emplace_hint, map_find, Ne.symm h2]
  | cons kv m ih =>
    obtain ⟨k, w⟩ := kv
    by_cases hk : k = key
    · simp [map_emplace_hint, hk]
    · by_cases hlt : key_lt key k = true
      · simp [map_emplace_hint, map_find, hk, hlt, Ne.symm h2]
      · by_cases h3 : k = k2
        · subst h3
          simp [map_emplace_hint, map_find, hk, hlt]
        · simp [map_emplace_hint, map_find, hk, hlt, h3, ih]

theorem insert_in_map_ineligible (heap : Heap) (item : Nat) (m : ThreadMap)
    (h : ¬ thread_eligible (heap item)) : insert_in_map heap item m = m := by
  unfold insert_in_map
  split
  · rfl
  · split
    · rfl
    · split
      · rfl
      · rename_i h1 h2 h3
        exfalso
        apply h
        simp only [Bool.or_eq_true, not_or, Bool.not_eq_true] at h3
        simp only [Bool.not_eq_true] at h1
        unfold thread_eligible
        tauto

theorem insert_in_map_eligible (heap : Heap) (item : Nat) (m : ThreadMap)
    (h : thread_eligible (heap item)) :
    insert_in_map heap item m =
      map_push_back ((heap item).getMaterial, (heap item).getMaterialIndex) item
        (match map_find ((heap item).getMaterial, (heap item).getMaterialIndex) m with
          | none => map_emplace_hint ((heap item).getMaterial, (heap item).getMaterialIndex) [] m
          | some _ => m) := by
  obtain ⟨h1, h2, h3, h4, h5, h6, h7, h8, h9, h10, h11, h12, h13⟩ := h
  unfold insert_in_map
  simp [h1, h2, h3, h4, h5, h6, h7, h8, h9, h10, h11, h12, h13]

theorem group_of_insert_eligible (heap : Heap) (item : Nat) (m : ThreadMap)
    (h : thread_eligible (heap item)) :
    group_of (insert_in_map heap item m) ((heap item).getMaterial, (heap item).getMaterialIndex)
      = group_of m ((heap item).getMaterial, (heap item).getMaterialIndex) ++ [item] := by
  rw [insert_in_map_eligible heap item m h]
  unfold group_of
  rw [map_find_push_back]
  cases hf : map_find ((heap item).getMaterial, (heap item).getMaterialIndex) m with
  | none => simp [map_find_emplace_hint _ _ _ hf]
  | some v => simp [hf]

/-- C5 (eligibility): `insert_in_map` appends the unit to a group, the group of
its own key `(getMaterial, getMaterialIndex)`, exactly when the unit is not
dyed, its dimension differs from `thread_full_dim = 15000` and none of the
eleven exclusion flags is set; and it leaves the map as it was exactly when
one of these conditions fails. -/
theorem eligibility (heap : Heap) (item : Nat) (m : ThreadMap) :
    (group_of (insert_in_map heap item m) ((heap item).getMaterial, (heap item).getMaterialIndex)
        = group_of m ((heap item).getMaterial, (heap item).getMaterialIndex) ++ [item] ↔
      ((heap item).isDyed = false ∧ (heap item).dimension ≠ 15000 ∧
       (heap item).flags.in_job = false ∧ (heap item).flags.on_fire = false ∧
       (heap item).flags.melt = false ∧ (heap item).flags.garbage_collect = false ∧
       (heap item).flags.dump = false ∧ (heap item).flags.forbid = false ∧
       (heap item).flags.hostile = false ∧ (heap item).flags.trader = false ∧
       (heap item).flags.artifact = false ∧ (heap item).flags.artifact_mood = false ∧
       (heap item).flags.spider_web = false)) ∧
    (insert_in_map heap item m = m ↔
      ¬ ((heap item).isDyed = false ∧ (heap item).dimension ≠ 15000 ∧
       (heap item).flags.in_job = false ∧ (heap item).flags.on_fire = false ∧
       (heap item).flags.melt = false ∧ (heap item).flags.garbage_collect = false ∧
       (heap item).flags.dump = false ∧ (heap item).flags.forbid = false ∧
       (heap item).flags.hostile = false ∧ (heap item).flags.trader = false ∧
       (heap item).flags.artifact = false ∧ (heap item).flags.artifact_mood = false ∧
       (heap item).flags.spider_web = false)) := by
  have hdef : thread_eligible (heap item) ↔
      ((heap item).isDyed = false ∧ (heap item).dimension ≠ 15000 ∧
       (heap item).flags.in_job = false ∧ (heap item).flags.on_fire = false ∧
       (heap item).flags.melt = false ∧ (heap item).flags.garbage_collect = false ∧
       (heap item).flags.dump = false ∧ (heap item).flags.forbid = false ∧
       (heap item).flags.hostile = false ∧ (heap item).flags.trader = false ∧
       (heap item).flags.artifact = false ∧ (heap item).flags.artifact_mood = false ∧
       (heap item).flags.spider_web = false) := by
    unfold thread_eligible thread_full_dim; exact Iff.rfl
  rw [← hdef]
  have hgrow : ∀ (l : List Nat), l ≠ l ++ [item] := by
    intro l h
    have := congrArg List.length h
    simp at this
  constructor
  · constructor
    · intro hk
      by_contra hne
      rw [insert_in_map_ineligible heap item m hne] at hk
      exact hgrow _ hk
    · exact group_of_insert_eligible heap item m
  · constructor
    · intro hm hel
      have hk := group_of_insert_eligible heap item m hel
      rw [hm] at hk
      exact hgrow _ hk
    · exact insert_in_map_ineligible heap item m

/-! ## Three units, the third tops off the first -/

/-- Three distinct units in exact arithmetic: with fills `a`, `b`, `c` and
`a + b < capacity ≤ a + b + c` the first unit ends at the capacity, the second
at `0` and marked, the third at the remainder `a + b + c - capacity`. -/
theorem three_units_exact (cap : Int) (pa pb pc : Nat) (heap : Heap) (f e : Int)
    (hnd : [pa, pb, pc].Nodup)
    (h1 : (heap pa).dimension + (heap pb).dimension < cap)
    (h2 : cap ≤ (heap pa).dimension + (heap pb).dimension + (heap pc).dimension) :
    ∃ r, combine_threads_in_vector cap [pa, pb, pc] heap f e = some r ∧
      (r.heap pa).dimension = cap ∧ (r.heap pa).flags = (heap pa).flags ∧
      (r.heap pb).dimension = 0 ∧ (r.heap pb).flags.garbage_collect = true ∧
      (r.heap pc).dimension
        = (heap pa).dimension + (heap pb).dimension + (heap pc).dimension - cap ∧
      ((r.heap pc).flags.garbage_collect = true ↔
        ((heap pc).flags.garbage_collect = true ∨
          (heap pa).dimension + (heap pb).dimension + (heap pc).dimension = cap)) ∧
      r.out_stat_filled = f + 1 ∧
      r.out_stat_emptied = e + 1 +
        (if (heap pa).dimension + (heap pb).dimension + (heap pc).dimension = cap
          then 1 else 0) := by
  have hab : pa ≠ pb := by intro h; simp [h] at hnd
  have hac : pa ≠ pc := by intro h; simp [h] at hnd
  have hbc : pb ≠ pc := by intro h; simp [h] at hnd
  -- first pass: B is drained into A
  have hnf : ¬ cap ≤ (heap pb).dimension + (heap pa).dimension := by omega
  have hB1 := donor_body_filled_up cap heap pa pb
  have hL1 := donor_body_left cap heap pa pb hab
  have hR1 := donor_body_right cap heap pa pb
  have hO1 := donor_body_other cap heap pa pb pc (Ne.symm hac) (Ne.symm hbc)
  rw [if_neg hnf] at hL1 hR1
  have hb1 : (donor_body cap heap pa pb).2 = false := by rw [hB1]; simpa using hnf
  -- second pass: C tops off A
  have hf2 : cap ≤ ((donor_body cap heap pa pb).1 pc).dimension
      + ((donor_body cap heap pa pb).1 pa).dimension := by rw [hO1, hL1]; omega
  have hB2 := donor_body_filled_up cap (donor_body cap heap pa pb).1 pa pc
  have hL2 := donor_body_left cap (donor_body cap heap pa pb).1 pa pc hac
  have hR2 := donor_body_right cap (donor_body cap heap pa pb).1 pa pc
  have hO2 := donor_body_other cap (donor_body cap heap pa pb).1 pa pc pb (Ne.symm hab) hbc
  rw [if_pos hf2] at hL2 hR2
  have hb2 : (donor_body cap (donor_body cap heap pa pb).1 pa pc).2 = true := by
    rw [hB2]; simpa using hf2
  have hrun : donor_loop cap [pb, pc] [pa, pb, pc] heap f
      = some ([pb, pc], (donor_body cap (donor_body cap heap pa pb).1 pa pc).1, f + 1) := by
    simp [donor_loop, hb1, hb2]
  have hflags : ∀ q, ((donor_body cap (donor_body cap heap pa pb).1 pa pc).1 q).flags
      = (heap q).flags := by
    intro q; rw [donor_body_flags, donor_body_flags]
  have hdb : ((donor_body cap (donor_body cap heap pa pb).1 pa pc).1 pb).dimension = 0 := by
    rw [hO2, hR1]
  have hdc : ((donor_body cap (donor_body cap heap pa pb).1 pa pc).1 pc).dimension
      = (heap pa).dimension + (heap pb).dimension + (heap pc).dimension - cap := by
    rw [hR2, hO1, hL1]; ring
  refine ⟨⟨(mark_loop [pb, pc] (donor_body cap (donor_body cap heap pa pb).1 pa pc).1 e).1,
    f + 1, (mark_loop [pb, pc] (donor_body cap (donor_body cap heap pa pb).1 pa pc).1 e).2⟩,
    ?_, ?_, ?_, ?_, ?_, ?_, ?_, rfl, ?_⟩
  · simp only [combine_threads_in_vector, List.length_cons, List.length_nil, List.tail_cons, hrun]
    rfl
  · simp only [mark_loop_dimension]; exact hL2
  · have hpa : pa ∉ [pb, pc] := by simp [hab, hac]
    show ((mark_loop [pb, pc] (donor_body cap (donor_body cap heap pa pb).1 pa pc).1 e).1 pa).flags
      = (heap pa).flags
    rw [mark_loop_frame _ _ _ _ hpa, hflags]
  · simp only [mark_loop_dimension]; exact hdb
  · rw [mark_loop_flag]; exact Or.inr ⟨by simp, hdb⟩
  · simp only [mark_loop_dimension]; exact hdc
  · rw [mark_loop_flag, hflags, hdc]
    constructor
    · rintro (h | h)
      · exact Or.inl h
      · exact Or.inr (by omega)
    · rintro (h | h)
      · exact Or.inl h
      · exact Or.inr ⟨by simp, by omega⟩
  · simp only [mark_loop_emptied]
    rw [List.countP_cons_of_pos _ _ (by simpa using hdb)]
    by_cases hz : (heap pa).dimension + (heap pb).dimension + (heap pc).dimension = cap
    · rw [List.countP_cons_of_pos _ _ (by rw [hdc]; simp; omega), if_pos hz]
      simp
      ring
    · rw [List.countP_cons_of_neg _ _ (by rw [hdc]; simp; omega), if_neg hz]
      simp

/-- C7 refuted as stated: on the scenario 30, 40, 50 at capacity 100 the
combiner leaves `[100, 0, 20]` with the second unit marked for removal, not
`[100, 20, 0]` with the third unit marked; likewise 3000, 4000, 13000 at the
plugin's capacity 15000 become `[15000, 0, 5000]`. -/
theorem scenario_one_remainder_stays_in_donor :
    run_on_fills 100 [30, 40, 50] = some ([100, 0, 20], [false, true, false], 1, 1) ∧
    (run_on_fills 100 [30, 40, 50]).map Prod.fst ≠ some [100, 20, 0] ∧
    run_on_fills thread_full_dim [3000, 4000, 13000]
      = some ([15000, 0, 5000], [false, true, false], 1, 1) := by
  decide


/-! ## The code against the combiner of the specification -/

theorem getElem?_at_split {α : Type} (A B : List α) (p : α) :
    (A ++ p :: B)[A.length]? = some p := by
  rw [List.getElem?_append_right (le_refl _)]
  simp

theorem read_group_congr (heap heap1 : Heap) (vec : List Nat)
    (h : ∀ p ∈ vec, (heap1 p).dimension = (heap p).dimension ∧
      (heap1 p).flags.garbage_collect = (heap p).flags.garbage_collect) :
    read_group heap1 vec = read_group heap vec := by
  simp only [read_group]
  apply List.map_congr_left
  intro p hp
  rw [(h p hp).1, (h p hp).2]

theorem read_group_set_dimension (heap : Heap) (p : Nat) (x : Int) :
    ∀ (A B : List Nat), p ∉ A → p ∉ B →
      read_group (set_dimension heap p x) (A ++ p :: B)
        = (read_group heap (A ++ p :: B)).set A.length
            { fill_amount := x, marked_for_removal := (heap p).flags.garbage_collect } := by
  intro A
  induction A with
  | nil =>
    intro B _ hB
    have hB2 : read_group (set_dimension heap p x) B = read_group heap B :=
      read_group_congr _ _ _ (fun q hq => by
        rw [set_dimension_other heap p q x (fun e => hB (e ▸ hq))]; exact ⟨rfl, rfl⟩)
    simp only [read_group, List.nil_append, List.map_cons, List.length_nil, List.set_cons_zero,
      set_dimension_same, set_dimension_flags] at hB2 ⊢
    rw [hB2]
  | cons a A ih =>
    intro B hA hB
    have ha : a ≠ p := fun e => hA (by simp [e])
    have hA2 : p ∉ A := fun e => hA (by simp [e])
    have := ih B hA2 hB
    simp only [read_group, List.cons_append, List.map_cons, List.length_cons, List.set_cons_succ,
      set_dimension_other heap p a x ha] at this ⊢
    rw [this]

theorem step_sim (cap : Int) (heap : Heap) (filled : Int) (done f rest : List Nat) (pl pr : Nat)
    (hnd : (done ++ (pl :: f) ++ pr :: rest).Nodup) :
    spec_would_fill cap ⟨read_group heap (done ++ (pl :: f) ++ pr :: rest), done.length, filled⟩
        (done.length + (f.length + 1)) = (donor_body cap heap pl pr).2 ∧
    spec_donor_step cap ⟨read_group heap (done ++ (pl :: f) ++ pr :: rest), done.length, filled⟩
        (done.length + (f.length + 1))
      = if (donor_body cap heap pl pr).2 then
          ⟨read_group (donor_body cap heap pl pr).1 (done ++ (pl :: f) ++ pr :: rest),
            done.length + (f.length + 1), filled + 1⟩
        else
          ⟨read_group (donor_body cap heap pl pr).1 (done ++ (pl :: f) ++ pr :: rest),
            done.length, filled⟩ := by
  obtain ⟨hplpr, hpl_done, hpr_done, hpl_f, hpl_rest, hpr_f, hpr_rest⟩ := nodup_split_facts hnd
  have hlen : (done ++ pl :: f).length = done.length + (f.length + 1) := by simp
  have hgl : (read_group heap (done ++ (pl :: f) ++ pr :: rest))[done.length]?
      = some ⟨(heap pl).dimension, (heap pl).flags.garbage_collect⟩ := by
    have : done ++ (pl :: f) ++ pr :: rest = done ++ pl :: (f ++ pr :: rest) := by simp
    rw [this]
    simp only [read_group, List.getElem?_map, getElem?_at_split, Option.map_some']
  have hgr : (read_group heap (done ++ (pl :: f) ++ pr :: rest))[done.length + (f.length + 1)]?
      = some ⟨(heap pr).dimension, (heap pr).flags.garbage_collect⟩ := by
    rw [← hlen]
    simp only [read_group, List.getElem?_map, getElem?_at_split, Option.map_some']
  have hr1 : read_group (set_dimension heap pl
        ((heap pl).dimension + (if cap ≤ (heap pr).dimension + (heap pl).dimension
          then cap - (heap pl).dimension else (heap pr).dimension)))
        (done ++ (pl :: f) ++ pr :: rest)
      = (read_group heap (done ++ (pl :: f) ++ pr :: rest)).set done.length
          ⟨(heap pl).dimension + (if cap ≤ (heap pr).dimension + (heap pl).dimension
            then cap - (heap pl).dimension else (heap pr).dimension),
            (heap pl).flags.garbage_collect⟩ := by
    have : done ++ (pl :: f) ++ pr :: rest = done ++ pl :: (f ++ pr :: rest) := by simp
    rw [this]
    exact read_group_set_dimension heap pl _ done (f ++ pr :: rest) hpl_done
      (by simp [hpl_f, hplpr, hpl_rest])
  have hr2 : ∀ (h1 : Heap) (y : Int), read_group (set_dimension h1 pr y)
        (done ++ (pl :: f) ++ pr :: rest)
      = (read_group h1 (done ++ (pl :: f) ++ pr :: rest)).set (done.length + (f.length + 1))
          ⟨y, (h1 pr).flags.garbage_collect⟩ := by
    intro h1 y
    rw [← hlen]
    exact read_group_set_dimension h1 pr y (done ++ pl :: f) rest
      (by simp [hpr_done, hpr_f, Ne.symm hplpr]) hpr_rest
  constructor
  · simp only [spec_would_fill, hgl, hgr, donor_body]
  · simp only [spec_donor_step, hgl, hgr, donor_body, decide_eq_true_eq, ge_iff_le]
    by_cases hfill : cap ≤ (heap pr).dimension + (heap pl).dimension
    · simp only [hfill, if_true] at hr1 ⊢
      rw [hr2, hr1, set_dimension_flags]
    · simp only [hfill, if_false] at hr1 ⊢
      rw [hr2, hr1, set_dimension_flags]

theorem loop_sim (cap : Int) :
    ∀ (itr front done : List Nat) (heap : Heap) (filled : Int),
      front ≠ [] → (done ++ front ++ itr).Nodup →
      spec_tops_off_adjacent cap ⟨read_group heap (done ++ front ++ itr), done.length, filled⟩
        (List.range' (done.length + front.length) itr.length) = true →
      ∃ (done1 itl1 : List Nat) (heap1 : Heap) (f1 : Int),
        donor_loop cap itr (front ++ itr) heap filled = some (itl1, heap1, f1) ∧
        done1 ++ itl1 = done ++ front ++ itr ∧
        (List.range' (done.length + front.length) itr.length).foldl (spec_donor_step cap)
            ⟨read_group heap (done ++ front ++ itr), done.length, filled⟩
          = ⟨read_group heap1 (done ++ front ++ itr), done1.length, f1⟩ := by
  intro itr
  induction itr with
  | nil =>
    intro front done heap filled _ _ _
    exact ⟨done, front, heap, filled, by simp [donor_loop], by simp, by simp⟩
  | cons pr rest ih =>
    intro front done heap filled hne hnd hadj
    obtain ⟨pl, f, rfl⟩ := List.exists_cons_of_ne_nil hne
    obtain ⟨hwf, hstep⟩ := step_sim cap heap filled done f rest pl pr hnd
    simp only [List.length_cons, List.range'_succ, spec_tops_off_adjacent, Bool.and_eq_true,
      Bool.or_eq_true, Bool.not_eq_true', decide_eq_true_eq, List.foldl_cons] at hadj ⊢
    rw [hwf] at hadj
    rw [hstep]
    rw [hstep] at hadj
    obtain ⟨hadj1, hadj2⟩ := hadj
    by_cases hb : (donor_body cap heap pl pr).2 = true
    · -- the donor tops off the receiver, so it stands directly after it
      have hf : f = [] := by
        rcases hadj1 with h | h
        · rw [hb] at h; exact absurd h (by simp)
        · apply List.eq_nil_of_length_eq_zero; omega
      subst hf
      simp only [hb, if_true, List.length_nil, Nat.zero_add] at hadj2 ⊢
      have hl : (done ++ [pl] ++ [pr] ++ rest) = (done ++ [pl] ++ pr :: rest) := by simp
      obtain ⟨done1, itl1, heap1, f1, hrun, hsplit, hfold⟩ :=
        ih [pr] (done ++ [pl]) (donor_body cap heap pl pr).1 (filled + 1) (by simp)
          (by rw [hl]; exact hnd)
          (by
            rw [hl]
            simpa using hadj2)
      refine ⟨done1, itl1, heap1, f1, ?_, ?_, ?_⟩
      · simpa [donor_loop, hb] using hrun
      · rw [hsplit, hl]
      · rw [hl] at hfold
        simpa using hfold
    · -- the donor is drained into the receiver
      have hb2 : (donor_body cap heap pl pr).2 = false := by simpa using hb
      simp only [hb2, Bool.false_eq_true, if_false] at hadj2 ⊢
      have hl : (done ++ (pl :: f ++ [pr]) ++ rest) = (done ++ pl :: f ++ pr :: rest) := by simp
      obtain ⟨done1, itl1, heap1, f1, hrun, hsplit, hfold⟩ :=
        ih (pl :: f ++ [pr]) done (donor_body cap heap pl pr).1 filled (by simp)
          (by rw [hl]; exact hnd)
          (by
            rw [hl]
            simpa [Nat.add_assoc] using hadj2)
      refine ⟨done1, itl1, heap1, f1, ?_, ?_, ?_⟩
      · simpa [donor_loop, hb2] using hrun
      · rw [hsplit, hl]
      · rw [hl] at hfold
        simpa [Nat.add_assoc] using hfold

theorem spec_tops_off_adjacent_filled (cap : Int) :
    ∀ (donors : List Nat) (units : List SpecUnit) (receiver : Nat) (f1 f2 : Int),
      spec_tops_off_adjacent cap ⟨units, receiver, f1⟩ donors
        = spec_tops_off_adjacent cap ⟨units, receiver, f2⟩ donors := by
  intro donors
  induction donors with
  | nil => intro _ _ _ _; rfl
  | cons d ds ih =>
    intro units receiver f1 f2
    simp only [spec_tops_off_adjacent, spec_would_fill, spec_donor_step]
    cases units[receiver]? with
    | none => simp only [ih units receiver f1 f2]
    | some r =>
      cases units[d]? with
      | none => simp only [ih units receiver f1 f2]
      | some u =>
        simp only
        split
        · rw [ih _ _ (f1 + 1) (f2 + 1)]
        · rw [ih _ _ f1 f2]

theorem mark_sim (done1 itl1 : List Nat) (heap1 : Heap) (f e : Int)
    (hnd : (done1 ++ itl1).Nodup) :
    read_group (mark_loop itl1 heap1 e).1 (done1 ++ itl1)
        = (spec_mark_trailing (read_group heap1 (done1 ++ itl1)) done1.length f e).units ∧
    (mark_loop itl1 heap1 e).2
        = (spec_mark_trailing (read_group heap1 (done1 ++ itl1)) done1.length f e).emptied := by
  have hdisj : ∀ p ∈ done1, p ∉ itl1 := fun p hp hq =>
    (List.nodup_append.mp hnd).2.2 hp hq
  have htake : (read_group heap1 (done1 ++ itl1)).take done1.length = read_group heap1 done1 := by
    simp only [read_group, List.map_append]
    exact List.take_left' (by simp)
  have hdrop : (read_group heap1 (done1 ++ itl1)).drop done1.length = read_group heap1 itl1 := by
    simp only [read_group, List.map_append]
    exact List.drop_left' (by simp)
  constructor
  · simp only [spec_mark_trailing, htake, hdrop]
    have h1 : read_group (mark_loop itl1 heap1 e).1 done1 = read_group heap1 done1 :=
      read_group_congr _ _ _ (fun p hp => by
        rw [mark_loop_frame itl1 heap1 e p (hdisj p hp)]; exact ⟨rfl, rfl⟩)
    have h2 : read_group (mark_loop itl1 heap1 e).1 itl1
        = (read_group heap1 itl1).map
            (fun u => if u.fill_amount = 0 then { u with marked_for_removal := true } else u) := by
      simp only [read_group, List.map_map]
      apply List.map_congr_left
      intro p hp
      have hfl := mark_loop_flag itl1 heap1 e p
      simp only [Function.comp, mark_loop_dimension]
      by_cases hz : (heap1 p).dimension = 0
      · simp only [hz, if_true]
        rw [hfl.mpr (Or.inr ⟨hp, hz⟩)]
      · simp only [hz, if_false]
        congr 1
        cases hg : (heap1 p).flags.garbage_collect with
        | true => exact hfl.mpr (Or.inl hg)
        | false =>
          cases hg2 : ((mark_loop itl1 heap1 e).1 p).flags.garbage_collect with
          | false => rfl
          | true =>
            rcases hfl.mp hg2 with h | h
            · rw [hg] at h; exact absurd h (by simp)
            · exact absurd h.2 hz
    have h3 : read_group (mark_loop itl1 heap1 e).1 (done1 ++ itl1)
        = read_group (mark_loop itl1 heap1 e).1 done1
          ++ read_group (mark_loop itl1 heap1 e).1 itl1 := by
      simp only [read_group, List.map_append]
    rw [h3, h1, h2]
  · simp only [spec_mark_trailing, mark_loop_emptied]
    rw [hdrop]
    simp only [read_group, List.countP_map]
    rfl

/-- In exact arithmetic, on a group of distinct units in whose specified run
every donor that tops off the receiver stands directly after it, the combiner
of the code and the combiner of the specification leave the same units and
counters. -/
theorem receiver_advance_exact (cap : Int) (vec : List Nat) (heap : Heap) (f e : Int)
    (hnd : vec.Nodup) (hadj : tops_off_adjacent cap heap vec = true) :
    ∃ r, combine_threads_in_vector cap vec heap f e = some r ∧
      read_group r.heap vec = (spec_combiner cap (read_group heap vec) f e).units ∧
      r.out_stat_filled = (spec_combiner cap (read_group heap vec) f e).filled ∧
      r.out_stat_emptied = (spec_combiner cap (read_group heap vec) f e).emptied := by
  by_cases hlen : vec.length < 2
  · have hlen2 : (read_group heap vec).length < 2 := by simpa [read_group] using hlen
    exact ⟨⟨heap, f, e⟩, by simp [combine_threads_in_vector, hlen],
      by simp [spec_combiner, hlen2], by simp [spec_combiner, hlen2],
      by simp [spec_combiner, hlen2]⟩
  · obtain ⟨p0, rest, rfl⟩ : ∃ p0 rest, vec = p0 :: rest := by
      cases vec with
      | nil => simp at hlen
      | cons a l => exact ⟨a, l, rfl⟩
    have hadj2 : spec_tops_off_adjacent cap ⟨read_group heap ([] ++ [p0] ++ rest), 0, f⟩
        (List.range' (0 + 1) rest.length) = true := by
      rw [spec_tops_off_adjacent_filled cap _ _ _ f 0]
      simpa [tops_off_adjacent] using hadj
    obtain ⟨done1, itl1, heap1, f1, hrun, hsplit, hfold⟩ :=
      loop_sim cap rest [p0] [] heap f (by simp) (by simpa using hnd) hadj2
    have hsplit2 : done1 ++ itl1 = p0 :: rest := by simpa using hsplit
    have hlen2 : ¬ (read_group heap (p0 :: rest)).length < 2 := by simpa [read_group] using hlen
    have hfold2 : (List.range' 1 ((read_group heap (p0 :: rest)).length - 1)).foldl
        (spec_donor_step cap) ⟨read_group heap (p0 :: rest), 0, f⟩
        = ⟨read_group heap1 (done1 ++ itl1), done1.length, f1⟩ := by
      rw [hsplit2]
      simpa [read_group] using hfold
    obtain ⟨hm1, hm2⟩ := mark_sim done1 itl1 heap1 f1 e (by rw [hsplit2]; exact hnd)
    refine ⟨⟨(mark_loop itl1 heap1 e).1, f1, (mark_loop itl1 heap1 e).2⟩, ?_, ?_, ?_, ?_⟩
    · have hrun2 : donor_loop cap rest (p0 :: rest) heap f = some (itl1, heap1, f1) := by
        simpa using hrun
      simp only [combine_threads_in_vector, hlen, if_false, List.tail_cons, hrun2]
    · simp only [spec_combiner, hlen2, if_false, hfold2]
      rw [← hsplit2]
      exact hm1
    · simp only [spec_combiner, hlen2, if_false, hfold2]
      rfl
    · simp only [spec_combiner, hlen2, if_false, hfold2]
      exact hm2

/-- C8 refuted as stated: on four spools holding 3000, 4000, 13000 and 1000 at
capacity 15000 the result of the code differs from the result of the specified
algorithm, which moves the receiver cursor to the donor's position: the code
leaves the fills `[15000, 1000, 5000, 0]`, the specified algorithm
`[15000, 0, 6000, 0]`.  On 3000, 4000, 13000 the fills agree but the code marks
the drained second unit and counts it, the specified algorithm does not. -/
theorem receiver_advance_differs :
    run_on_fills thread_full_dim [3000, 4000, 13000, 1000]
      ≠ some (spec_run_on_fills thread_full_dim [3000, 4000, 13000, 1000]) ∧
    run_on_fills thread_full_dim [3000, 4000, 13000, 1000]
      = some ([15000, 1000, 5000, 0], [false, false, false, true], 1, 1) ∧
    spec_run_on_fills thread_full_dim [3000, 4000, 13000, 1000]
      = ([15000, 0, 6000, 0], [false, false, false, true], 1, 1) ∧
    run_on_fills thread_full_dim [3000, 4000, 13000]
      = some ([15000, 0, 5000], [false, true, false], 1, 1) ∧
    spec_run_on_fills thread_full_dim [3000, 4000, 13000]
      = ([15000, 0, 5000], [false, false, false], 1, 0) := by
  have h1 : run_on_fills thread_full_dim [3000, 4000, 13000, 1000]
      = some ([15000, 1000, 5000, 0], [false, false, false, true], 1, 1) := rfl
  have h2 : spec_run_on_fills thread_full_dim [3000, 4000, 13000, 1000]
      = ([15000, 0, 6000, 0], [false, false, false, true], 1, 1) := rfl
  refine ⟨?_, h1, h2, rfl, rfl⟩
  rw [h1, h2]
  intro h
  have h3 := (Prod.mk.inj (Option.some.inj h)).1
  exact absurd h3 (by decide)

/-! ## A second run on the output of a first run -/

theorem set_dimension_self (heap : Heap) (p : Nat) (d : Int) (h : (heap p).dimension = d) :
    set_dimension heap p d = heap := by
  funext q
  unfold set_dimension
  split
  · rename_i e
    subst e
    rw [← h]
  · rfl

theorem set_garbage_collect_self (heap : Heap) (p : Nat)
    (h : (heap p).flags.garbage_collect = true) : set_garbage_collect heap p = heap := by
  funext q
  unfold set_garbage_collect
  split
  · rename_i e
    subst e
    rw [← h]
  · rfl

theorem donor_body_full_receiver (cap : Int) (heap : Heap) (pl pr : Nat)
    (hl : (heap pl).dimension = cap) (hr : 0 ≤ (heap pr).dimension) :
    donor_body cap heap pl pr = (heap, true) := by
  have hfill : cap ≤ (heap pr).dimension + (heap pl).dimension := by omega
  have h1 : set_dimension heap pl ((heap pl).dimension + (cap - (heap pl).dimension)) = heap :=
    set_dimension_self heap pl _ (by omega)
  have h2 : set_dimension heap pr ((heap pr).dimension - (cap - (heap pl).dimension)) = heap :=
    set_dimension_self heap pr _ (by omega)
  simp only [donor_body, ge_iff_le, hfill, decide_True, if_true, h1, h2]

theorem donor_body_empty_donor (cap : Int) (heap : Heap) (pl pr : Nat)
    (hl : (heap pl).dimension < cap) (hr : (heap pr).dimension = 0) :
    donor_body cap heap pl pr = (heap, false) := by
  have hfill : ¬ cap ≤ (heap pr).dimension + (heap pl).dimension := by omega
  have h1 : set_dimension heap pl ((heap pl).dimension + (heap pr).dimension) = heap :=
    set_dimension_self heap pl _ (by omega)
  have h2 : set_dimension heap pr ((heap pr).dimension - (heap pr).dimension) = heap :=
    set_dimension_self heap pr _ (by omega)
  simp only [donor_body, ge_iff_le, hfill, decide_False, Bool.false_eq_true, if_false, h1, h2]

theorem donor_loop_full_run (cap : Int) (heap : Heap) (q : Nat) (zs : List Nat)
    (hq : 0 ≤ (heap q).dimension) (hcap : 0 ≤ cap) :
    ∀ (ds : List Nat) (d0 : Nat) (f : Int),
      (∀ p ∈ d0 :: ds, (heap p).dimension = cap) →
      donor_loop cap (ds ++ q :: zs) (d0 :: ds ++ q :: zs) heap f
        = donor_loop cap zs (q :: zs) heap (f + ((ds.length : Int) + 1)) := by
  intro ds
  induction ds with
  | nil =>
    intro d0 f hfull
    have hb := donor_body_full_receiver cap heap d0 q (hfull d0 (by simp)) hq
    simp [donor_loop, hb]
  | cons d1 ds ih =>
    intro d0 f hfull
    have h1 := hfull d1 (by simp)
    have hb := donor_body_full_receiver cap heap d0 d1 (hfull d0 (by simp)) (by omega)
    have := ih d1 (f + 1) (fun p hp => hfull p (by simp at hp ⊢; tauto))
    have hstep : donor_loop cap ((d1 :: ds) ++ q :: zs) (d0 :: (d1 :: ds) ++ q :: zs) heap f
        = donor_loop cap (ds ++ q :: zs) (d1 :: ds ++ q :: zs) heap (f + 1) := by
      simp [donor_loop, hb]
    rw [hstep, this]
    simp only [List.length_cons, Nat.cast_add, Nat.cast_one]
    congr 1; ring

theorem donor_loop_empty_donors (cap : Int) (heap : Heap) (q : Nat) (tl : List Nat)
    (hq : (heap q).dimension < cap) :
    ∀ (zs : List Nat) (f : Int), (∀ p ∈ zs, (heap p).dimension = 0) →
      donor_loop cap zs (q :: tl) heap f = some (q :: tl, heap, f) := by
  intro zs
  induction zs with
  | nil => intro f _; simp [donor_loop]
  | cons z zs ih =>
    intro f hz
    have hb := donor_body_empty_donor cap heap q z hq (hz z (by simp))
    simp only [donor_loop, hb, Bool.false_eq_true, if_false]
    exact ih f (fun p hp => hz p (by simp [hp]))

theorem mark_loop_marked (itl : List Nat) :
    ∀ (heap : Heap) (e : Int),
      (∀ p ∈ itl, (heap p).dimension = 0 → (heap p).flags.garbage_collect = true) →
      (mark_loop itl heap e).1 = heap := by
  induction itl with
  | nil => intro heap e _; rfl
  | cons p itl ih =>
    intro heap e h
    simp only [mark_loop]
    split
    · rename_i hz
      rw [set_garbage_collect_self heap p (h p (by simp) hz)]
      exact ih heap _ (fun q hq => h q (by simp [hq]))
    · exact ih heap _ (fun q hq => h q (by simp [hq]))

/-- C4 (idempotence), as far as the code goes: take a group of at least two
distinct eligible units which the first run leaves as `m` full units, then one
unit holding `x < capacity`, then `z` units holding `0`.  Running
`combine_threads_in_vector` a second time on that output changes nothing in the
heap (no fill amount, no flag); it increments `out_stat_filled` again by `m`
and `out_stat_emptied` again by the number of units holding `0`. -/
theorem second_run_when_consolidated (cap : Int) (vec : List Nat) (heap : Heap) (f e : Int)
    (m z : Nat) (x : Int)
    (hnd : vec.Nodup) (hlen : 2 ≤ vec.length)
    (hel : ∀ p ∈ vec, 0 ≤ (heap p).dimension ∧ (heap p).dimension < cap ∧
      (heap p).flags.garbage_collect = false)
    (hshape : (combine_threads_in_vector cap vec heap f e).map (fun r => fills r.heap vec)
      = some (List.replicate m cap ++ x :: List.replicate z 0))
    (hx : x < cap) :
    ∃ r1 r2, combine_threads_in_vector cap vec heap f e = some r1 ∧
      combine_threads_in_vector cap vec r1.heap r1.out_stat_filled r1.out_stat_emptied
        = some r2 ∧
      r2.heap = r1.heap ∧
      r2.out_stat_filled = r1.out_stat_filled + (m : Int) ∧
      r2.out_stat_emptied = r1.out_stat_emptied + (z : Int) + (if x = 0 then 1 else 0) := by
  obtain ⟨done1, itl1, heap1, r1, hrun, hheap, _, _, hsplit, _, hfull1, hb1, _, _, hfl1, _⟩ :=
    combine_run cap vec heap f e hnd hlen (fun p hp => ⟨(hel p hp).1, le_of_lt (hel p hp).2.1⟩)
  have hcap : 0 < cap := by
    cases vec with
    | nil => simp at hlen
    | cons a l => have := hel a (by simp); omega
  -- after the first run every unit of the group is bounded and every unit holding 0 is marked
  have hbound : ∀ p ∈ vec, 0 ≤ (r1.heap p).dimension := by
    intro p hp
    rw [hheap, mark_loop_dimension]
    rw [← hsplit] at hp
    rcases List.mem_append.mp hp with h | h
    · rw [hfull1 p h]; omega
    · exact (hb1 p h).1
  have hmarked : ∀ p ∈ vec, (r1.heap p).dimension = 0 →
      (r1.heap p).flags.garbage_collect = true := by
    intro p hp hz
    rw [hheap, mark_loop_dimension] at hz
    rw [hheap, mark_loop_flag]
    refine Or.inr ⟨?_, hz⟩
    rw [← hsplit] at hp
    rcases List.mem_append.mp hp with h | h
    · have := hfull1 p h; omega
    · exact h
  -- the shape of the output
  rw [hrun] at hshape
  have hshape2 : fills r1.heap vec = List.replicate m cap ++ x :: List.replicate z 0 := by
    simpa using hshape
  obtain ⟨ds, tl, hvec, hds, htl⟩ := List.map_eq_append_iff.mp hshape2
  obtain ⟨q, zs, htl2, hqx, hzs⟩ := List.map_eq_cons_iff.mp htl
  subst htl2
  have hdsfull : ∀ p ∈ ds, (r1.heap p).dimension = cap := by
    intro p hp
    have := (List.eq_replicate_iff.mp hds).2 _ (List.mem_map_of_mem _ hp)
    exact this
  have hdslen : ds.length = m := by
    have := (List.eq_replicate_iff.mp hds).1
    simpa using this
  have hzszero : ∀ p ∈ zs, (r1.heap p).dimension = 0 := by
    intro p hp
    have := (List.eq_replicate_iff.mp hzs).2 _ (List.mem_map_of_mem _ hp)
    exact this
  have hzslen : zs.length = z := by
    have := (List.eq_replicate_iff.mp hzs).1
    simpa using this
  have hq0 : 0 ≤ (r1.heap q).dimension := hbound q (by rw [hvec]; simp)
  have hqlt : (r1.heap q).dimension < cap := by rw [hqx]; exact hx
  -- the donor loop of the second run
  have hloop : donor_loop cap vec.tail vec r1.heap r1.out_stat_filled
      = some (q :: zs, r1.heap, r1.out_stat_filled + (m : Int)) := by
    cases ds with
    | nil =>
      have hm : m = 0 := by simpa using hdslen.symm
      rw [hvec, hm]
      simp only [List.nil_append, List.tail_cons, Nat.cast_zero, add_zero]
      exact donor_loop_empty_donors cap r1.heap q zs hqlt zs _ hzszero
    | cons d0 ds =>
      rw [hvec]
      simp only [List.cons_append, List.tail_cons]
      have := donor_loop_full_run cap r1.heap q zs hq0 (le_of_lt hcap) ds d0
        r1.out_stat_filled hdsfull
      simp only [List.cons_append] at this
      rw [this, donor_loop_empty_donors cap r1.heap q zs hqlt zs _ hzszero]
      simp only [List.length_cons] at hdslen
      rw [← hdslen]
      simp
  have hmark : (mark_loop (q :: zs) r1.heap r1.out_stat_emptied).1 = r1.heap :=
    mark_loop_marked (q :: zs) r1.heap _ (fun p hp hz =>
      hmarked p (by rw [hvec]; simp at hp ⊢; tauto) hz)
  have hl : ¬ vec.length < 2 := by omega
  refine ⟨r1, ⟨(mark_loop (q :: zs) r1.heap r1.out_stat_emptied).1,
    r1.out_stat_filled + (m : Int), (mark_loop (q :: zs) r1.heap r1.out_stat_emptied).2⟩,
    hrun, ?_, hmark, rfl, ?_⟩
  · simp only [combine_threads_in_vector, hl, if_false, hloop]
  · simp only [mark_loop_emptied]
    have hc : zs.countP (fun p => decide ((r1.heap p).dimension = 0)) = zs.length := by
      rw [List.countP_eq_length]
      intro p hp
      simpa using hzszero p hp
    rw [List.countP_cons, hc, hzslen, hqx]
    by_cases hz : x = 0
    · simp only [hz, decide_True, if_true, Nat.cast_add, Nat.cast_one]; ring
    · simp [hz]

theorem second_run_when_consolidated_witness :
    [0, 1, 2].Nodup ∧ 2 ≤ [0, 1, 2].length ∧
    (∀ p ∈ [0, 1, 2], 0 ≤ (heap_of_fills [9000, 6000, 3000] p).dimension ∧
      (heap_of_fills [9000, 6000, 3000] p).dimension < thread_full_dim ∧
      (heap_of_fills [9000, 6000, 3000] p).flags.garbage_collect = false) ∧
    (combine_threads_in_vector thread_full_dim [0, 1, 2] (heap_of_fills [9000, 6000, 3000])
        0 0).map (fun r => fills r.heap [0, 1, 2])
      = some (List.replicate 1 thread_full_dim ++ 3000 :: List.replicate 1 0) ∧
    (3000 : Int) < thread_full_dim ∧
    ∃ r1 r2, combine_threads_in_vector thread_full_dim [0, 1, 2]
        (heap_of_fills [9000, 6000, 3000]) 0 0 = some r1 ∧
      combine_threads_in_vector thread_full_dim [0, 1, 2] r1.heap r1.out_stat_filled
        r1.out_stat_emptied = some r2 ∧
      r2.heap = r1.heap ∧
      r2.out_stat_filled = r1.out_stat_filled + ((1 : Nat) : Int) ∧
      r2.out_stat_emptied = r1.out_stat_emptied + ((1 : Nat) : Int)
        + (if (3000 : Int) = 0 then 1 else 0) :=
  ⟨by decide, by decide, by decide, by decide, by decide,
    second_run_when_consolidated thread_full_dim [0, 1, 2] (heap_of_fills [9000, 6000, 3000])
      0 0 1 1 3000 (by decide) (by decide) (by decide) (by decide) (by decide)⟩

/-- C4 refuted as stated: at capacity 15000 the state after a second run is
not the state after the first run.  Over 9000, 6000 the second run keeps the
fills `[15000, 0]` but raises both counters from 1 to 2; over 3000, 4000, 13000
the first run leaves `[15000, 0, 5000]` and the second run changes it to
`[15000, 5000, 0]`, sets the removal flag of the third unit and raises both
counters from 1 to 2. -/
theorem second_run_changes_state :
    (¬ ∃ x, run_twice_on_fills thread_full_dim [9000, 6000] = some (x, x)) ∧
    (¬ ∃ x, run_twice_on_fills thread_full_dim [3000, 4000, 13000] = some (x, x)) ∧
    run_twice_on_fills thread_full_dim [9000, 6000]
      = some (([15000, 0], [false, true], 1, 1), ([15000, 0], [false, true], 2, 2)) ∧
    run_twice_on_fills thread_full_dim [3000, 4000, 13000]
      = some (([15000, 0, 5000], [false, true, false], 1, 1),
              ([15000, 5000, 0], [false, true, true], 2, 2)) := by
  have h1 : run_twice_on_fills thread_full_dim [9000, 6000]
      = some (([15000, 0], [false, true], 1, 1), ([15000, 0], [false, true], 2, 2)) := rfl
  have h2 : run_twice_on_fills thread_full_dim [3000, 4000, 13000]
      = some (([15000, 0, 5000], [false, true, false], 1, 1),
              ([15000, 5000, 0], [false, true, true], 2, 2)) := rfl
  refine ⟨?_, ?_, h1, h2⟩
  · rintro ⟨x, hx⟩
    rw [h1] at hx
    have h3 := Option.some.inj hx
    have h4 := (Prod.mk.inj ((Prod.mk.inj h3).1.trans (Prod.mk.inj h3).2.symm)).2
    have h5 := (Prod.mk.inj (Prod.mk.inj h4).2).1
    exact absurd h5 (by decide)
  · rintro ⟨x, hx⟩
    rw [h2] at hx
    have h3 := Option.some.inj hx
    have h4 := (Prod.mk.inj ((Prod.mk.inj h3).1.trans (Prod.mk.inj h3).2.symm)).2
    have h5 := (Prod.mk.inj (Prod.mk.inj h4).2).1
    exact absurd h5 (by decide)


/-! ## Small groups and the transferred amount -/

/-- C15 (small groups are a no-op): for a group of size 0 or 1,
`combine_threads_in_vector` returns with the heap (every fill amount, every
flag) and both counters unchanged. -/
theorem small_group_noop (cap : Int) (vec : List Nat) (heap : Heap) (f e : Int)
    (h : vec.length < 2) :
    ∃ r, combine_threads_in_vector cap vec heap f e = some r ∧
      r.heap = heap ∧ r.out_stat_filled = f ∧ r.out_stat_emptied = e := by
  refine ⟨⟨heap, f, e⟩, ?_, rfl, rfl, rfl⟩
  unfold combine_threads_in_vector
  rw [if_pos h]

theorem small_group_noop_witness :
    [0].length < 2 ∧
    ∃ r, combine_threads_in_vector 100 [0] (heap_of_fills [70]) 0 0 = some r ∧
      r.heap = heap_of_fills [70] ∧ r.out_stat_filled = 0 ∧ r.out_stat_emptied = 0 :=
  ⟨by decide, small_group_noop 100 [0] (heap_of_fills [70]) 0 0 (by decide)⟩

theorem donor_body_amount (cap : Int) (heap : Heap) (pl pr : Nat) :
    donor_body cap heap pl pr
      = (set_dimension
          (set_dimension heap pl ((heap pl).dimension + amount_to_combine cap heap pl pr))
          pr ((heap pr).dimension - amount_to_combine cap heap pl pr),
         decide ((heap pr).dimension + (heap pl).dimension ≥ cap)) := rfl

/-- In exact arithmetic the amount of one pass of the loop body is the minimum
of the receiver's free space and the donor's fill, when the receiver holds at
most the capacity and the donor at least `0`. -/
theorem transfer_amount_exact (cap : Int) (heap : Heap) (pl pr : Nat)
    (hl1 : (heap pl).dimension ≤ cap) (hr0 : 0 ≤ (heap pr).dimension) :
    (donor_body cap heap pl pr).1
      = set_dimension
          (set_dimension heap pl ((heap pl).dimension + amount_to_combine cap heap pl pr))
          pr ((heap pr).dimension - amount_to_combine cap heap pl pr) ∧
    amount_to_combine cap heap pl pr = min (cap - (heap pl).dimension) (heap pr).dimension ∧
    0 ≤ amount_to_combine cap heap pl pr ∧
    amount_to_combine cap heap pl pr ≤ (heap pr).dimension ∧
    amount_to_combine cap heap pl pr ≤ cap - (heap pl).dimension := by
  have hmin : amount_to_combine cap heap pl pr
      = min (cap - (heap pl).dimension) (heap pr).dimension := by
    simp only [amount_to_combine, ge_iff_le, decide_eq_true_eq]
    by_cases h : cap ≤ (heap pr).dimension + (heap pl).dimension
    · rw [if_pos h, min_eq_left (by omega)]
    · rw [if_neg h, min_eq_right (by omega)]
  refine ⟨by rw [donor_body_amount], hmin, ?_, ?_, ?_⟩
  · rw [hmin]; exact le_min (by omega) hr0
  · rw [hmin]; exact min_le_right _ _
  · rw [hmin]; exact min_le_left _ _

/-! ## The groups that the grouper builds -/

theorem insert_contained_eq_foldl (heap : Heap) :
    ∀ (contained : List (Option Nat)) (m : ThreadMap),
      insert_contained heap contained m
        = (contained.filterMap id).foldl (fun m p => insert_in_map heap p m) m := by
  intro contained
  induction contained with
  | nil => intro m; rfl
  | cons c rest ih =>
    intro m
    cases c with
    | none => simp [insert_contained, ih]
    | some p => simp [insert_contained, ih]

theorem insert_contents_eq_foldl (heap : Heap) :
    ∀ (contents : List df_item) (m : ThreadMap),
      insert_contents heap contents m
        = (stockpile_threads contents).foldl (fun m p => insert_in_map heap p m) m := by
  intro contents
  induction contents with
  | nil => intro m; rfl
  | cons it rest ih =>
    intro m
    cases it with
    | thread p =>
      simp [insert_contents, stockpile_threads, item_threads, ih]
    | other contained =>
      simp [insert_contents, stockpile_threads, item_threads, ih, insert_contained_eq_foldl,
        List.foldl_append]

theorem group_of_insert_other (heap : Heap) (item : Nat) (m : ThreadMap) (key : MatKey)
    (hkey : key ≠ key_of heap item) :
    group_of (insert_in_map heap item m) key = group_of m key := by
  by_cases hel : thread_eligible (heap item)
  · rw [insert_in_map_eligible heap item m hel]
    unfold group_of
    have hkey2 : key ≠ ((heap item).getMaterial, (heap item).getMaterialIndex) := hkey
    rw [map_find_push_back_other _ _ _ _ hkey2]
    cases hf : map_find ((heap item).getMaterial, (heap item).getMaterialIndex) m with
    | none => simp [map_find_emplace_hint_other _ _ _ _ hkey2]
    | some v => simp
  · rw [insert_in_map_ineligible heap item m hel]

theorem group_of_insert (heap : Heap) (item : Nat) (m : ThreadMap) (key : MatKey) :
    group_of (insert_in_map heap item m) key
      = group_of m key ++
        (if thread_eligible (heap item) ∧ key_of heap item = key then [item] else []) := by
  by_cases hel : thread_eligible (heap item)
  · by_cases hk : key_of heap item = key
    · rw [if_pos ⟨hel, hk⟩, ← hk]
      exact group_of_insert_eligible heap item m hel
    · rw [if_neg (fun h => hk h.2), List.append_nil]
      exact group_of_insert_other heap item m key (fun h => hk h.symm)
  · rw [if_neg (fun h => hel h.1), List.append_nil, insert_in_map_ineligible heap item m hel]

theorem group_of_foldl (heap : Heap) (key : MatKey) :
    ∀ (T : List Nat) (m : ThreadMap),
      group_of (T.foldl (fun m p => insert_in_map heap p m) m) key
        = group_of m key ++
          T.filter (fun p => decide (thread_eligible (heap p) ∧ key_of heap p = key)) := by
  intro T
  induction T with
  | nil => intro m; simp
  | cons p T ih =>
    intro m
    rw [List.foldl_cons, ih, group_of_insert]
    by_cases h : thread_eligible (heap p) ∧ key_of heap p = key
    · rw [if_pos h, List.filter_cons_of_pos (by simpa using h)]
      simp
    · rw [if_neg h, List.filter_cons_of_neg (by simpa using h)]
      simp

/-- C14 (grouping order): for every key, the group that the loop over
`sp_contents` builds under that key is the list of the stockpile's eligible
thread units with that key, in the order in which they are encountered (each
directly held thread, and for an item that is not a thread its contained
threads, in list order). -/
theorem grouping_order (heap : Heap) (contents : List df_item) (key : MatKey) :
    group_of (insert_contents heap contents []) key
      = (stockpile_threads contents).filter
          (fun p => decide (thread_eligible (heap p) ∧ key_of heap p = key)) := by
  rw [insert_contents_eq_foldl, group_of_foldl]
  simp [group_of, map_find]

/-! ## Frame of the combiner: what it never touches -/

theorem set_dimension_key (heap : Heap) (p q : Nat) (d : Int) :
    key_of (set_dimension heap p d) q = key_of heap q ∧
    (set_dimension heap p d q).isDyed = (heap q).isDyed := by
  unfold key_of set_dimension
  split <;> exact ⟨rfl, rfl⟩

theorem set_garbage_collect_key (heap : Heap) (p q : Nat) :
    key_of (set_garbage_collect heap p) q = key_of heap q ∧
    (set_garbage_collect heap p q).isDyed = (heap q).isDyed := by
  unfold key_of set_garbage_collect
  split <;> exact ⟨rfl, rfl⟩

theorem donor_body_key (cap : Int) (heap : Heap) (pl pr q : Nat) :
    key_of (donor_body cap heap pl pr).1 q = key_of heap q := by
  simp only [donor_body, (set_dimension_key _ _ _ _).1]

theorem donor_loop_frame (cap : Int) :
    ∀ (itr itl : List Nat) (heap : Heap) (filled : Int),
      itr.length < itl.length →
      ∃ (itl1 : List Nat) (heap1 : Heap) (f1 : Int),
        donor_loop cap itr itl heap filled = some (itl1, heap1, f1) ∧
        (∀ p ∈ itl1, p ∈ itl) ∧
        (∀ q, q ∉ itl → q ∉ itr → heap1 q = heap q) ∧
        (∀ q, key_of heap1 q = key_of heap q) := by
  intro itr
  induction itr with
  | nil =>
    intro itl heap filled _
    exact ⟨itl, heap, filled, by simp [donor_loop], fun _ h => h, fun _ _ _ => rfl, fun _ => rfl⟩
  | cons pr rest ih =>
    intro itl heap filled hlen
    cases itl with
    | nil => simp at hlen
    | cons pl tl =>
      simp only [List.length_cons] at hlen
      simp only [donor_loop]
      split
      · obtain ⟨itl1, heap1, f1, hrun, hsub, hfr, hk⟩ :=
          ih tl (donor_body cap heap pl pr).1 (filled + 1) (by omega)
        refine ⟨itl1, heap1, f1, hrun, fun p hp => by simp [hsub p hp], ?_, ?_⟩
        · intro q hq1 hq2
          have h1 : q ≠ pl := fun e => hq1 (by simp [e])
          have h2 : q ∉ tl := fun e => hq1 (by simp [e])
          have h3 : q ≠ pr := fun e => hq2 (by simp [e])
          have h4 : q ∉ rest := fun e => hq2 (by simp [e])
          rw [hfr q h2 h4, donor_body_other cap heap pl pr q h1 h3]
        · intro q; rw [hk, donor_body_key]
      · obtain ⟨itl1, heap1, f1, hrun, hsub, hfr, hk⟩ :=
          ih (pl :: tl) (donor_body cap heap pl pr).1 filled
            (by simp only [List.length_cons]; omega)
        refine ⟨itl1, heap1, f1, hrun, hsub, ?_, ?_⟩
        · intro q hq1 hq2
          have h1 : q ≠ pl := fun e => hq1 (by simp [e])
          have h3 : q ≠ pr := fun e => hq2 (by simp [e])
          have h4 : q ∉ rest := fun e => hq2 (by simp [e])
          rw [hfr q hq1 h4, donor_body_other cap heap pl pr q h1 h3]
        · intro q; rw [hk, donor_body_key]

theorem mark_loop_key (itl : List Nat) :
    ∀ (heap : Heap) (e : Int) (q : Nat),
      key_of (mark_loop itl heap e).1 q = key_of heap q := by
  induction itl with
  | nil => intro heap e q; rfl
  | cons p itl ih =>
    intro heap e q
    simp only [mark_loop]
    split
    · rw [ih, (set_garbage_collect_key _ _ _).1]
    · rw [ih]

theorem combine_frame (cap : Int) (vec : List Nat) (heap : Heap) (f e : Int) :
    ∃ r, combine_threads_in_vector cap vec heap f e = some r ∧
      (∀ q, q ∉ vec → r.heap q = heap q) ∧
      (∀ q, key_of r.heap q = key_of heap q) := by
  by_cases hlen : vec.length < 2
  · exact ⟨⟨heap, f, e⟩, by simp [combine_threads_in_vector, hlen], fun _ _ => rfl, fun _ => rfl⟩
  · obtain ⟨itl1, heap1, f1, hrun, hsub, hfr, hk⟩ :=
      donor_loop_frame cap vec.tail vec heap f (by
        cases vec with
        | nil => simp at hlen
        | cons a l => simp)
    refine ⟨⟨(mark_loop itl1 heap1 e).1, f1, (mark_loop itl1 heap1 e).2⟩, ?_, ?_, ?_⟩
    · simp only [combine_threads_in_vector, hlen, if_false, hrun]
    · intro q hq
      show (mark_loop itl1 heap1 e).1 q = heap q
      rw [mark_loop_frame itl1 heap1 e q (fun h => hq (hsub q h)),
        hfr q hq (fun h => hq (List.mem_of_mem_tail h))]
    · intro q
      show key_of (mark_loop itl1 heap1 e).1 q = key_of heap q
      rw [mark_loop_key, hk]

theorem combine_groups_frame :
    ∀ (m : ThreadMap) (heap : Heap) (f e : Int),
      ∃ r, combine_groups m heap f e = some r ∧
        (∀ q, (∀ entry ∈ m, q ∉ entry.2) → r.heap q = heap q) ∧
        (∀ q, key_of r.heap q = key_of heap q) := by
  intro m
  induction m with
  | nil =>
    intro heap f e
    exact ⟨⟨heap, f, e⟩, rfl, fun _ _ => rfl, fun _ => rfl⟩
  | cons kv m ih =>
    intro heap f e
    obtain ⟨k, vec⟩ := kv
    obtain ⟨r1, hr1, hfr1, hk1⟩ := combine_frame thread_full_dim vec heap f e
    obtain ⟨r, hr, hfr, hk⟩ := ih r1.heap r1.out_stat_filled r1.out_stat_emptied
    refine ⟨r, by simp only [combine_groups, hr1, hr], ?_, ?_⟩
    · intro q hq
      rw [hfr q (fun entry he => hq entry (by simp [he])), hfr1 q (hq (k, vec) (by simp))]
    · intro q; rw [hk, hk1]

/-! ## The keys of the map stay distinct -/

theorem map_find_none_iff (key : MatKey) (m : ThreadMap) :
    map_find key m = none ↔ key ∉ m.map Prod.fst := by
  induction m with
  | nil => simp [map_find]
  | cons kv m ih =>
    obtain ⟨k, v⟩ := kv
    by_cases h : k = key
    · simp [map_find, h]
    · simp [map_find, h, ih, Ne.symm h]

theorem map_find_of_mem (m : ThreadMap) (hk : (m.map Prod.fst).Nodup) (k : MatKey)
    (v : List Nat) (h : (k, v) ∈ m) : map_find k m = some v := by
  induction m with
  | nil => simp at h
  | cons kv m ih =>
    obtain ⟨k0, v0⟩ := kv
    simp only [List.map_cons, List.nodup_cons] at hk
    rcases List.mem_cons.mp h with h1 | h1
    · have e1 : k = k0 := (Prod.mk.inj h1).1
      have e2 : v = v0 := (Prod.mk.inj h1).2
      simp [map_find, e1, e2]
    · have hne : k0 ≠ k := by
        intro e
        apply hk.1
        rw [e]
        exact List.mem_map_of_mem Prod.fst h1
      simp [map_find, hne, ih hk.2 h1]

theorem keys_push_back (key : MatKey) (item : Nat) (m : ThreadMap) :
    (map_push_back key item m).map Prod.fst = m.map Prod.fst := by
  induction m with
  | nil => rfl
  | cons kv m ih =>
    obtain ⟨k, v⟩ := kv
    by_cases h : k = key
    · simp [map_push_back, h]
    · simp [map_push_back, h, ih]

theorem keys_emplace_hint_mem (key : MatKey) (v : List Nat) (m : ThreadMap) (k : MatKey)
    (h : k ∈ (map_emplace_hint key v m).map Prod.fst) : k = key ∨ k ∈ m.map Prod.fst := by
  induction m with
  | nil => simpa [map_emplace_hint] using h
  | cons kv m ih =>
    obtain ⟨k0, v0⟩ := kv
    by_cases h0 : k0 = key
    · right; simpa [map_emplace_hint, h0] using h
    · by_cases hlt : key_lt key k0 = true
      · simpa [map_emplace_hint, h0, hlt] using h
      · simp only [map_emplace_hint, h0, hlt, if_false, Bool.false_eq_true, List.map_cons,
          List.mem_cons] at h
        rcases h with h1 | h1
        · right; simp [h1]
        · rcases ih h1 with h2 | h2
          · exact Or.inl h2
          · right; simp [h2]

theorem keys_emplace_hint_nodup (key : MatKey) (v : List Nat) (m : ThreadMap)
    (hk : (m.map Prod.fst).Nodup) (hnew : key ∉ m.map Prod.fst) :
    ((map_emplace_hint key v m).map Prod.fst).Nodup := by
  induction m with
  | nil => simp [map_emplace_hint]
  | cons kv m ih =>
    obtain ⟨k0, v0⟩ := kv
    simp only [List.map_cons, List.nodup_cons, List.mem_cons, not_or] at hk hnew
    by_cases h0 : k0 = key
    · exact absurd h0.symm hnew.1
    · by_cases hlt : key_lt key k0 = true
      · simp only [map_emplace_hint, h0, hlt, if_false, if_true, List.map_cons, List.nodup_cons,
          List.mem_cons, not_or]
        exact ⟨⟨hnew.1, hnew.2⟩, hk.1, hk.2⟩
      · simp only [map_emplace_hint, h0, hlt, if_false, Bool.false_eq_true, List.map_cons,
          List.nodup_cons]
        refine ⟨?_, ih hk.2 hnew.2⟩
        intro hmem
        rcases keys_emplace_hint_mem key v m k0 hmem with h1 | h1
        · exact h0 h1
        · exact hk.1 h1

theorem insert_in_map_keys_nodup (heap : Heap) (item : Nat) (m : ThreadMap)
    (hk : (m.map Prod.fst).Nodup) : ((insert_in_map heap item m).map Prod.fst).Nodup := by
  by_cases hel : thread_eligible (heap item)
  · rw [insert_in_map_eligible heap item m hel, keys_push_back]
    cases hf : map_find ((heap item).getMaterial, (heap item).getMaterialIndex) m with
    | none => exact keys_emplace_hint_nodup _ _ m hk ((map_find_none_iff _ m).mp hf)
    | some v => exact hk
  · rw [insert_in_map_ineligible heap item m hel]; exact hk

theorem foldl_insert_keys_nodup (heap : Heap) :
    ∀ (T : List Nat) (m : ThreadMap), (m.map Prod.fst).Nodup →
      ((T.foldl (fun m p => insert_in_map heap p m) m).map Prod.fst).Nodup := by
  intro T
  induction T with
  | nil => intro m hk; exact hk
  | cons p T ih =>
    intro m hk
    exact ih _ (insert_in_map_keys_nodup heap p m hk)

theorem entry_of_insert_contents (heap : Heap) (contents : List df_item) (k : MatKey)
    (vec : List Nat) (h : (k, vec) ∈ insert_contents heap contents []) :
    vec = (stockpile_threads contents).filter
      (fun p => decide (thread_eligible (heap p) ∧ key_of heap p = k)) := by
  have hk : ((insert_contents heap contents []).map Prod.fst).Nodup := by
    rw [insert_contents_eq_foldl]
    exact foldl_insert_keys_nodup heap _ [] (by simp)
  have hf := map_find_of_mem _ hk k vec h
  have hg : group_of (insert_contents heap contents []) k = vec := by
    simp [group_of, hf]
  rw [← hg, insert_contents_eq_foldl, group_of_foldl]
  simp [group_of, map_find]

/-! ## Units that fail the eligibility test -/

theorem insert_contained_without (heap : Heap) (q : Nat) (h : ¬ thread_eligible (heap q)) :
    ∀ (contained : List (Option Nat)) (m : ThreadMap),
      insert_contained heap (contained.filter (fun c => decide (c ≠ some q))) m
        = insert_contained heap contained m := by
  intro contained
  induction contained with
  | nil => intro m; rfl
  | cons c rest ih =>
    intro m
    cases c with
    | none =>
      rw [List.filter_cons_of_pos (by simp)]
      simp only [insert_contained]
      exact ih m
    | some p =>
      by_cases e : p = q
      · subst e
        rw [List.filter_cons_of_neg (by simp)]
        simp only [insert_contained]
        rw [insert_in_map_ineligible heap p m h]
        exact ih m
      · rw [List.filter_cons_of_pos (by simp [e])]
        simp only [insert_contained]
        exact ih _

theorem insert_contents_without (heap : Heap) (q : Nat) (h : ¬ thread_eligible (heap q)) :
    ∀ (contents : List df_item) (m : ThreadMap),
      insert_contents heap (contents_without q contents) m = insert_contents heap contents m := by
  intro contents
  induction contents with
  | nil => intro m; rfl
  | cons it rest ih =>
    intro m
    cases it with
    | thread p =>
      by_cases e : p = q
      · subst e
        simp [contents_without, insert_contents, ih, insert_in_map_ineligible heap p m h]
      · simp [contents_without, insert_contents, ih, e]
    | other contained =>
      simp only [contents_without, insert_contents]
      rw [insert_contained_without heap q h, ih]

theorem process_stockpile_ineligible (sp : building_stockpilest) (st : CombineResult) (q : Nat)
    (h : ¬ thread_eligible (st.heap q)) :
    ∃ r, process_stockpile sp st = some r ∧ r.heap q = st.heap q ∧
      process_stockpile (stockpile_without q sp) st = some r := by
  by_cases hg : (!has_allowed sp.thread_plant && !has_allowed sp.thread_silk &&
      !has_allowed sp.thread_yarn && !has_allowed sp.thread_metal) = true
  · exact ⟨st, by simp only [process_stockpile, hg, if_true], rfl,
      by simp only [process_stockpile, stockpile_without, hg, if_true]⟩
  · obtain ⟨r, hr, hfr, _⟩ := combine_groups_frame (insert_contents st.heap sp.contents [])
      st.heap st.out_stat_filled st.out_stat_emptied
    refine ⟨r, by simp only [process_stockpile, hg, if_false]; exact hr, ?_, ?_⟩
    · apply hfr
      intro entry he hq
      have hvec := entry_of_insert_contents st.heap sp.contents entry.1 entry.2 he
      rw [hvec] at hq
      have := (List.mem_filter.mp hq).2
      simp only [decide_eq_true_eq] at this
      exact h this.1
    · simp only [process_stockpile, stockpile_without, hg, if_false,
        insert_contents_without st.heap q h]
      exact hr

theorem process_stockpiles_ineligible (q : Nat) :
    ∀ (stockpiles : List building_stockpilest) (st : CombineResult),
      ¬ thread_eligible (st.heap q) →
      ∃ r, process_stockpiles stockpiles st = some r ∧ r.heap q = st.heap q ∧
        process_stockpiles (stockpiles.map (stockpile_without q)) st = some r := by
  intro stockpiles
  induction stockpiles with
  | nil => intro st _; exact ⟨st, rfl, rfl, rfl⟩
  | cons sp rest ih =>
    intro st h
    obtain ⟨r1, hr1, hq1, hw1⟩ := process_stockpile_ineligible sp st q h
    obtain ⟨r, hr, hq, hw⟩ := ih r1 (by rw [hq1]; exact h)
    refine ⟨r, by simp only [process_stockpiles, hr1, hr], by rw [hq, hq1], ?_⟩
    simp only [List.map_cons, process_stockpiles, hw1, hw]

/-- C12 (untouched ineligible units): whatever the stockpiles hold, the command
`df_combinethread` returns, and a unit that fails the eligibility test on input
(for instance a dyed unit or one whose dimension is `thread_full_dim`) is the
same record afterwards, fill amount and flags included; it adds nothing to the
counts: taking it out of the contents of every stockpile gives the same final
heap and the same `filled_count` and `emptied_count`. -/
theorem ineligible_untouched (stockpiles : List building_stockpilest) (heap : Heap) (q : Nat)
    (h : ¬ thread_eligible (heap q)) :
    ∃ r, df_combinethread stockpiles heap = some r ∧ r.heap q = heap q ∧
      df_combinethread (stockpiles.map (stockpile_without q)) heap = some r :=
  process_stockpiles_ineligible q stockpiles ⟨heap, 0, 0⟩ h

theorem ineligible_untouched_witness :
    ¬ thread_eligible (heap_of_fills [3000, 15000, 4000] 1) ∧
    ∃ r, df_combinethread
        [⟨1, [1], [], [], [], [df_item.thread 0, df_item.other [some 1, none], df_item.thread 2]⟩]
        (heap_of_fills [3000, 15000, 4000]) = some r ∧
      r.heap 1 = heap_of_fills [3000, 15000, 4000] 1 ∧
      df_combinethread
        ([⟨1, [1], [], [], [], [df_item.thread 0, df_item.other [some 1, none],
            df_item.thread 2]⟩].map (stockpile_without 1))
        (heap_of_fills [3000, 15000, 4000]) = some r :=
  ⟨by decide,
    ineligible_untouched
      [⟨1, [1], [], [], [], [df_item.thread 0, df_item.other [some 1, none], df_item.thread 2]⟩]
      (heap_of_fills [3000, 15000, 4000]) 1 (by decide)⟩

/-! ## Totals over a fixed list of units -/

theorem donor_loop_total_on (cap : Int) (S : List Nat) (hS : S.Nodup) :
    ∀ (itr front done : List Nat) (heap : Heap) (filled : Int),
      front ≠ [] → (done ++ front ++ itr).Nodup → (∀ p ∈ front ++ itr, p ∈ S) →
      ∃ (itl1 : List Nat) (heap1 : Heap) (f1 : Int),
        donor_loop cap itr (front ++ itr) heap filled = some (itl1, heap1, f1) ∧
        total_fill heap1 S = total_fill heap S := by
  intro itr
  induction itr with
  | nil =>
    intro front done heap filled _ _ _
    exact ⟨front ++ [], heap, filled, by simp [donor_loop], rfl⟩
  | cons pr rest ih =>
    intro front done heap filled hne hnd hsub
    obtain ⟨pl, f, rfl⟩ := List.exists_cons_of_ne_nil hne
    obtain ⟨hplpr, _, _, _, _, _, _⟩ := nodup_split_facts hnd
    have htot := donor_body_total cap heap pl pr S hS (hsub pl (by simp)) (hsub pr (by simp)) hplpr
    by_cases hb : (donor_body cap heap pl pr).2 = true
    · obtain ⟨itl1, heap1, f1, hrun, htot1⟩ :=
        ih (f ++ [pr]) (done ++ [pl]) (donor_body cap heap pl pr).1 (filled + 1) (by simp)
          (by simpa using hnd)
          (fun p hp => hsub p (by simp at hp ⊢; tauto))
      refine ⟨itl1, heap1, f1, ?_, by rw [htot1, htot]⟩
      simpa [donor_loop, hb] using hrun
    · have hb2 : (donor_body cap heap pl pr).2 = false := by simpa using hb
      obtain ⟨itl1, heap1, f1, hrun, htot1⟩ :=
        ih (pl :: f ++ [pr]) done (donor_body cap heap pl pr).1 filled (by simp)
          (by simpa using hnd)
          (fun p hp => hsub p (by simp at hp ⊢; tauto))
      refine ⟨itl1, heap1, f1, ?_, by rw [htot1, htot]⟩
      simpa [donor_loop, hb2] using hrun

theorem combine_total_on (cap : Int) (S : List Nat) (hS : S.Nodup) (vec : List Nat)
    (heap : Heap) (f e : Int) (hnd : vec.Nodup) (hsub : ∀ p ∈ vec, p ∈ S) :
    ∃ r, combine_threads_in_vector cap vec heap f e = some r ∧
      total_fill r.heap S = total_fill heap S := by
  by_cases hlen : vec.length < 2
  · exact ⟨⟨heap, f, e⟩, by simp [combine_threads_in_vector, hlen], rfl⟩
  · obtain ⟨p0, rest, rfl⟩ : ∃ p0 rest, vec = p0 :: rest := by
      cases vec with
      | nil => simp at hlen
      | cons a l => exact ⟨a, l, rfl⟩
    obtain ⟨itl1, heap1, f1, hrun, htot⟩ :=
      donor_loop_total_on cap S hS rest [p0] [] heap f (by simp) (by simpa using hnd)
        (by simpa using hsub)
    have hrun2 : donor_loop cap rest (p0 :: rest) heap f = some (itl1, heap1, f1) := by
      simpa using hrun
    refine ⟨⟨(mark_loop itl1 heap1 e).1, f1, (mark_loop itl1 heap1 e).2⟩, ?_, ?_⟩
    · simp only [combine_threads_in_vector, hlen, if_false, List.tail_cons, hrun2]
    · show total_fill (mark_loop itl1 heap1 e).1 S = total_fill heap S
      rw [← htot]
      exact total_fill_congr _ _ _ (fun p _ => mark_loop_dimension itl1 heap1 e p)

theorem combine_groups_total_on (S : List Nat) (hS : S.Nodup) :
    ∀ (m : ThreadMap) (heap : Heap) (f e : Int),
      (∀ entry ∈ m, (entry.2.Nodup ∧ ∀ p ∈ entry.2, p ∈ S) ∨ (∀ p ∈ entry.2, p ∉ S)) →
      ∃ r, combine_groups m heap f e = some r ∧
        total_fill r.heap S = total_fill heap S ∧
        (∀ q, key_of r.heap q = key_of heap q) := by
  intro m
  induction m with
  | nil =>
    intro heap f e _
    exact ⟨⟨heap, f, e⟩, rfl, rfl, fun _ => rfl⟩
  | cons kv m ih =>
    intro heap f e hm
    obtain ⟨k, vec⟩ := kv
    have hrest : ∀ entry ∈ m,
        (entry.2.Nodup ∧ ∀ p ∈ entry.2, p ∈ S) ∨ (∀ p ∈ entry.2, p ∉ S) :=
      fun entry he => hm entry (by simp [he])
    obtain ⟨r0, hr0, hfr0, hk0⟩ := combine_frame thread_full_dim vec heap f e
    have h1 : total_fill r0.heap S = total_fill heap S := by
      rcases hm (k, vec) (by simp) with ⟨hnd, hsub⟩ | hdis
      · obtain ⟨r1, hr1, ht1⟩ := combine_total_on thread_full_dim S hS vec heap f e hnd hsub
        rw [hr0] at hr1
        rw [Option.some.inj hr1]
        exact ht1
      · exact total_fill_congr _ _ _ (fun p hp => by
          rw [hfr0 p (fun h => hdis p h hp)])
    obtain ⟨r, hr, ht, hk⟩ := ih r0.heap r0.out_stat_filled r0.out_stat_emptied hrest
    exact ⟨r, by simp only [combine_groups, hr0, hr], by rw [ht, h1],
      fun q => by rw [hk, hk0]⟩

theorem entry_same_key (heap : Heap) (contents : List df_item) (entry : MatKey × List Nat)
    (he : entry ∈ insert_contents heap contents []) (p : Nat) (hp : p ∈ entry.2) :
    p ∈ stockpile_threads contents ∧ thread_eligible (heap p) ∧ key_of heap p = entry.1 := by
  have hvec := entry_of_insert_contents heap contents entry.1 entry.2 he
  rw [hvec] at hp
  have h1 := List.mem_filter.mp hp
  have h2 := h1.2
  simp only [decide_eq_true_eq] at h2
  exact ⟨h1.1, h2.1, h2.2⟩

theorem process_stockpile_total_on (S : List Nat) (hS : S.Nodup) (heap0 : Heap)
    (sp : building_stockpilest) (st : CombineResult)
    (hkeys : ∀ q, key_of st.heap q = key_of heap0 q)
    (hgood : (∀ p ∈ stockpile_threads sp.contents, p ∉ S) ∨
      ((stockpile_threads sp.contents).Nodup ∧
        ∀ p ∈ stockpile_threads sp.contents, ∀ q ∈ stockpile_threads sp.contents,
          key_of heap0 p = key_of heap0 q → p ∈ S → q ∈ S)) :
    ∃ r, process_stockpile sp st = some r ∧
      total_fill r.heap S = total_fill st.heap S ∧
      (∀ q, key_of r.heap q = key_of heap0 q) := by
  by_cases hg : (!has_allowed sp.thread_plant && !has_allowed sp.thread_silk &&
      !has_allowed sp.thread_yarn && !has_allowed sp.thread_metal) = true
  · exact ⟨st, by simp only [process_stockpile, hg, if_true], rfl, hkeys⟩
  · obtain ⟨r, hr, ht, hk⟩ := combine_groups_total_on S hS
      (insert_contents st.heap sp.contents []) st.heap st.out_stat_filled st.out_stat_emptied
      (by
        intro entry he
        have hmem := entry_same_key st.heap sp.contents entry he
        rcases hgood with hdis | ⟨hnd, hcl⟩
        · exact Or.inr (fun p hp => hdis p (hmem p hp).1)
        · by_cases hex : ∃ p ∈ entry.2, p ∈ S
          · obtain ⟨p, hp, hpS⟩ := hex
            left
            refine ⟨?_, ?_⟩
            · rw [entry_of_insert_contents st.heap sp.contents entry.1 entry.2 he]
              exact hnd.filter _
            · intro q hq
              apply hcl p (hmem p hp).1 q (hmem q hq).1 _ hpS
              rw [← hkeys p, ← hkeys q, (hmem p hp).2.2, (hmem q hq).2.2]
          · right
            intro p hp hpS
            exact hex ⟨p, hp, hpS⟩)
    exact ⟨r, by simp only [process_stockpile, hg, if_false]; exact hr, ht,
      fun q => by rw [hk, hkeys]⟩

theorem process_stockpiles_total_on (S : List Nat) (hS : S.Nodup) (heap0 : Heap) :
    ∀ (stockpiles : List building_stockpilest) (st : CombineResult),
      (∀ q, key_of st.heap q = key_of heap0 q) →
      (∀ sp ∈ stockpiles, (∀ p ∈ stockpile_threads sp.contents, p ∉ S) ∨
        ((stockpile_threads sp.contents).Nodup ∧
          ∀ p ∈ stockpile_threads sp.contents, ∀ q ∈ stockpile_threads sp.contents,
            key_of heap0 p = key_of heap0 q → p ∈ S → q ∈ S)) →
      ∃ r, process_stockpiles stockpiles st = some r ∧
        total_fill r.heap S = total_fill st.heap S ∧
        (∀ q, key_of r.heap q = key_of heap0 q) := by
  intro stockpiles
  induction stockpiles with
  | nil => intro st hk _; exact ⟨st, rfl, rfl, hk⟩
  | cons sp rest ih =>
    intro st hk hgood
    obtain ⟨r1, hr1, ht1, hk1⟩ :=
      process_stockpile_total_on S hS heap0 sp st hk (hgood sp (by simp))
    obtain ⟨r, hr, ht, hk2⟩ := ih r1 hk1 (fun sp2 h2 => hgood sp2 (by simp [h2]))
    exact ⟨r, by simp only [process_stockpiles, hr1, hr], by rw [ht, ht1], hk2⟩

/-- In exact arithmetic the command keeps, for every key, the total fill of
the units of a stockpile with that key, when the stockpile holds distinct
thread units that no other stockpile holds; every group holds units of one
key. -/
theorem cross_key_isolation_exact (before after : List building_stockpilest)
    (sp : building_stockpilest) (heap : Heap)
    (hnd : (stockpile_threads sp.contents).Nodup)
    (hdis : ∀ sp2 ∈ before ++ after, ∀ p ∈ stockpile_threads sp2.contents,
      p ∉ stockpile_threads sp.contents) :
    (∀ (st : CombineResult) (entry : MatKey × List Nat),
      entry ∈ insert_contents st.heap sp.contents [] →
      ∀ p ∈ entry.2, key_of st.heap p = entry.1) ∧
    ∃ r, df_combinethread (before ++ sp :: after) heap = some r ∧
      (∀ q, key_of r.heap q = key_of heap q) ∧
      ∀ key : MatKey,
        total_fill r.heap
            ((stockpile_threads sp.contents).filter (fun p => decide (key_of heap p = key)))
          = total_fill heap
            ((stockpile_threads sp.contents).filter (fun p => decide (key_of heap p = key))) := by
  refine ⟨fun st entry he p hp => (entry_same_key st.heap sp.contents entry he p hp).2.2, ?_⟩
  obtain ⟨r, hr, _, hk⟩ := process_stockpiles_total_on [] List.nodup_nil heap
    (before ++ sp :: after) ⟨heap, 0, 0⟩ (fun _ => rfl) (fun _ _ => Or.inl (fun _ _ h => by simp at h))
  refine ⟨r, hr, hk, ?_⟩
  intro key
  obtain ⟨r2, hr2, ht2, _⟩ := process_stockpiles_total_on
    ((stockpile_threads sp.contents).filter (fun p => decide (key_of heap p = key)))
    (hnd.filter _) heap (before ++ sp :: after) ⟨heap, 0, 0⟩ (fun _ => rfl)
    (by
      intro sp2 h2
      have h3 : sp2 ∈ before ++ after ∨ sp2 = sp := by
        simp only [List.mem_append, List.mem_cons] at h2 ⊢
        tauto
      rcases h3 with h3 | h3
      · left
        intro p hp hpS
        exact hdis sp2 h3 p hp (List.mem_filter.mp hpS).1
      · right
        subst h3
        refine ⟨hnd, ?_⟩
        intro p _ q hq hpq hpS
        have hkp := (List.mem_filter.mp hpS).2
        simp only [decide_eq_true_eq] at hkp
        exact List.mem_filter.mpr ⟨hq, by simp only [decide_eq_true_eq]; rw [← hpq, hkp]⟩)
  have hrr : r2 = r := by
    have : process_stockpiles (before ++ sp :: after) ⟨heap, 0, 0⟩ = some r := hr
    rw [hr2] at this
    exact Option.some.inj this
  rw [← hrr]
  exact ht2

/-! ## Stockpile gating, the capacity test of the grouper, and cloth -/

theorem has_allowed_iff (vec : List Int) : has_allowed vec = true ↔ ∃ c ∈ vec, c ≠ 0 := by
  simp [has_allowed]

theorem process_stockpiles_append :
    ∀ (l1 l2 : List building_stockpilest) (st : CombineResult),
      process_stockpiles (l1 ++ l2) st
        = match process_stockpiles l1 st with
          | none => none
          | some st1 => process_stockpiles l2 st1 := by
  intro l1
  induction l1 with
  | nil => intro l2 st; rfl
  | cons sp l1 ih =>
    intro l2 st
    simp only [List.cons_append, process_stockpiles]
    cases process_stockpile sp st with
    | none => rfl
    | some st1 => exact ih l2 st1

/-- C20 (stockpile gating): a stockpile in which every entry of the four thread
vectors (plant, silk, yarn, metal) is `0` is skipped: its loop body leaves the
heap and both counts as they are, and the command gives the same result as
with that stockpile taken out of the world.  A stockpile with a non-zero entry
in one of the four vectors is processed: its contents are grouped and every
group is combined. -/
theorem stockpile_gating (sp : building_stockpilest) (before after : List building_stockpilest)
    (heap : Heap) (st : CombineResult) :
    ((∀ c ∈ sp.thread_plant ++ sp.thread_silk ++ sp.thread_yarn ++ sp.thread_metal, c = 0) →
      process_stockpile sp st = some st ∧
      df_combinethread (before ++ sp :: after) heap = df_combinethread (before ++ after) heap) ∧
    ((∃ c ∈ sp.thread_plant ++ sp.thread_silk ++ sp.thread_yarn ++ sp.thread_metal, c ≠ 0) →
      process_stockpile sp st
        = combine_groups (insert_contents st.heap sp.contents []) st.heap st.out_stat_filled
            st.out_stat_emptied) := by
  constructor
  · intro hnone
    have hp : has_allowed sp.thread_plant = false := by
      rw [← Bool.not_eq_true, has_allowed_iff]
      rintro ⟨c, hc, hne⟩
      exact hne (hnone c (by simp [hc]))
    have hs : has_allowed sp.thread_silk = false := by
      rw [← Bool.not_eq_true, has_allowed_iff]
      rintro ⟨c, hc, hne⟩
      exact hne (hnone c (by simp [hc]))
    have hy : has_allowed sp.thread_yarn = false := by
      rw [← Bool.not_eq_true, has_allowed_iff]
      rintro ⟨c, hc, hne⟩
      exact hne (hnone c (by simp [hc]))
    have hm : has_allowed sp.thread_metal = false := by
      rw [← Bool.not_eq_true, has_allowed_iff]
      rintro ⟨c, hc, hne⟩
      exact hne (hnone c (by simp [hc]))
    have hskip : ∀ st2, process_stockpile sp st2 = some st2 := by
      intro st2
      simp [process_stockpile, hp, hs, hy, hm]
    refine ⟨hskip st, ?_⟩
    unfold df_combinethread
    rw [process_stockpiles_append, process_stockpiles_append]
    cases process_stockpiles before ⟨heap, 0, 0⟩ with
    | none => rfl
    | some st1 => simp only [process_stockpiles, hskip st1]
  · rintro ⟨c, hc, hne⟩
    have hany : has_allowed sp.thread_plant = true ∨ has_allowed sp.thread_silk = true ∨
        has_allowed sp.thread_yarn = true ∨ has_allowed sp.thread_metal = true := by
      simp only [has_allowed_iff]
      simp only [List.mem_append] at hc
      rcases hc with ((h | h) | h) | h
      · exact Or.inl ⟨c, h, hne⟩
      · exact Or.inr (Or.inl ⟨c, h, hne⟩)
      · exact Or.inr (Or.inr (Or.inl ⟨c, h, hne⟩))
      · exact Or.inr (Or.inr (Or.inr ⟨c, h, hne⟩))
    unfold process_stockpile
    rw [if_neg]
    intro hall
    simp only [Bool.and_eq_true, Bool.not_eq_true'] at hall
    rcases hany with h | h | h | h
    · rw [hall.1.1.1] at h; exact absurd h (by simp)
    · rw [hall.1.1.2] at h; exact absurd h (by simp)
    · rw [hall.1.2] at h; exact absurd h (by simp)
    · rw [hall.2] at h; exact absurd h (by simp)

theorem stockpile_gating_witness :
    (∀ c ∈ ([0, 0] : List Int) ++ [] ++ [0] ++ [], c = 0) ∧
    (∃ c ∈ ([0, 0] : List Int) ++ [] ++ [0, 1] ++ [], c ≠ 0) ∧
    run_pass [⟨1, [0, 0], [], [0], [], [df_item.thread 0, df_item.thread 1]⟩]
        (heap_of_fills [9000, 8000]) [0, 1]
      = some ([9000, 8000], [false, false], 0, 0) ∧
    run_pass [⟨1, [0, 0], [], [0, 1], [], [df_item.thread 0, df_item.thread 1]⟩]
        (heap_of_fills [9000, 8000]) [0, 1]
      = some ([15000, 2000], [false, false], 1, 0) ∧
    df_combinethread ([] ++ ⟨1, [0, 0], [], [0], [], [df_item.thread 0, df_item.thread 1]⟩ :: [])
        (heap_of_fills [9000, 8000])
      = df_combinethread ([] ++ []) (heap_of_fills [9000, 8000]) ∧
    process_stockpile ⟨1, [0, 0], [], [0, 1], [], [df_item.thread 0, df_item.thread 1]⟩
        ⟨heap_of_fills [9000, 8000], 0, 0⟩
      = combine_groups
          (insert_contents (heap_of_fills [9000, 8000]) [df_item.thread 0, df_item.thread 1] [])
          (heap_of_fills [9000, 8000]) 0 0 :=
  ⟨by decide, by decide, by decide, by decide,
    ((stockpile_gating ⟨1, [0, 0], [], [0], [], [df_item.thread 0, df_item.thread 1]⟩ [] []
      (heap_of_fills [9000, 8000]) ⟨heap_of_fills [9000, 8000], 0, 0⟩).1 (by decide)).2,
    (stockpile_gating ⟨1, [0, 0], [], [0, 1], [], [df_item.thread 0, df_item.thread 1]⟩ [] []
      (heap_of_fills [9000, 8000]) ⟨heap_of_fills [9000, 8000], 0, 0⟩).2 (by decide)⟩

/-- C11 (over-capacity guard), as the code behaves: the grouper has no test for
a fill amount above the capacity.  A unit whose dimension exceeds
`thread_full_dim`, that is not dyed and carries none of the exclusion flags, is
appended to the group of its key; the map does not stay as it was. -/
theorem over_capacity_is_grouped (heap : Heap) (item : Nat) (m : ThreadMap)
    (hover : thread_full_dim < (heap item).dimension)
    (hdyed : (heap item).isDyed = false)
    (hflags : (heap item).flags
      = ⟨false, false, false, false, false, false, false, false, false, false, false⟩) :
    group_of (insert_in_map heap item m) (key_of heap item)
        = group_of m (key_of heap item) ++ [item] ∧
    insert_in_map heap item m ≠ m := by
  have hel : thread_eligible (heap item) := by
    unfold thread_eligible
    rw [hflags]
    exact ⟨hdyed, fun h => by rw [h] at hover; exact lt_irrefl _ hover,
      rfl, rfl, rfl, rfl, rfl, rfl, rfl, rfl, rfl, rfl, rfl⟩
  have hg := group_of_insert_eligible heap item m hel
  refine ⟨hg, ?_⟩
  intro hm
  rw [hm] at hg
  have := congrArg List.length hg
  simp at this

theorem over_capacity_is_grouped_witness :
    thread_full_dim < (heap_of_fills [20000, 1000] 0).dimension ∧
    (heap_of_fills [20000, 1000] 0).isDyed = false ∧
    (heap_of_fills [20000, 1000] 0).flags
      = ⟨false, false, false, false, false, false, false, false, false, false, false⟩ ∧
    group_of (insert_in_map (heap_of_fills [20000, 1000]) 0 [])
        (key_of (heap_of_fills [20000, 1000]) 0)
      = group_of [] (key_of (heap_of_fills [20000, 1000]) 0) ++ [0] ∧
    insert_in_map (heap_of_fills [20000, 1000]) 0 [] ≠ [] :=
  ⟨by decide, by decide, by decide,
    over_capacity_is_grouped (heap_of_fills [20000, 1000]) 0 [] (by decide) (by decide)
      (by decide)⟩

/-- C11 refuted as stated: a spool holding 20000, above the capacity 15000, is
placed in the group of its key, and the command then changes it: with a second
spool holding 1000 in the same stockpile the two end at 15000 and 6000. -/
theorem over_capacity_unit_is_mutated :
    insert_contents (heap_of_fills [20000, 1000]) [df_item.thread 0, df_item.thread 1] []
      = [((0, 0), [0, 1])] ∧
    run_pass [⟨1, [1], [], [], [], [df_item.thread 0, df_item.thread 1]⟩]
        (heap_of_fills [20000, 1000]) [0, 1]
      = some ([15000, 6000], [false, false], 1, 0) := by
  decide

/-- C16 (cloth), evaluated: a cloth item is not a `df::item_threadst`, so the
cast on line 138 fails for it and only its contained items are looked at.  For
a stockpile with a thread category enabled that holds two cloth items (with
nothing inside them) the command leaves the heap as it is and counts
nothing. -/
theorem cloth_is_left_alone (heap : Heap) :
    insert_contents heap [df_item.other [], df_item.other []] [] = [] ∧
    ∃ r, df_combinethread [⟨1, [1], [1], [1], [1], [df_item.other [], df_item.other []]⟩] heap
        = some r ∧
      r.heap = heap ∧ r.out_stat_filled = 0 ∧ r.out_stat_emptied = 0 :=
  ⟨rfl, ⟨heap, 0, 0⟩, rfl, rfl, rfl, rfl⟩

/-! ## The states at the head of the donor loop -/

theorem donor_loop_trace_frame (cap : Int) :
    ∀ (itr itl : List Nat) (heap : Heap),
      ∀ t ∈ donor_loop_trace cap itr itl heap,
        (∀ p ∈ t.itl, p ∈ itl) ∧ (∀ q, q ∉ itl → q ∉ itr → t.heap q = heap q) := by
  intro itr
  induction itr with
  | nil =>
    intro itl heap t ht
    simp only [donor_loop_trace, List.mem_singleton] at ht
    subst ht
    exact ⟨fun _ h => h, fun _ _ _ => rfl⟩
  | cons pr rest ih =>
    intro itl heap t ht
    cases itl with
    | nil =>
      simp only [donor_loop_trace, List.mem_singleton] at ht
      subst ht
      exact ⟨fun _ h => h, fun _ _ _ => rfl⟩
    | cons pl tl =>
      simp only [donor_loop_trace, List.mem_cons] at ht
      rcases ht with ht | ht
      · subst ht
        exact ⟨fun _ h => h, fun _ _ _ => rfl⟩
      · have hother : ∀ q, q ∉ pl :: tl → q ∉ pr :: rest →
            (donor_body cap heap pl pr).1 q = heap q := fun q h1 h2 =>
          donor_body_other cap heap pl pr q (fun e => h1 (by simp [e])) (fun e => h2 (by simp [e]))
        split at ht
        · obtain ⟨hsub, hfr⟩ := ih tl _ t ht
          refine ⟨fun p hp => by simp [hsub p hp], fun q h1 h2 => ?_⟩
          rw [hfr q (fun e => h1 (by simp [e])) (fun e => h2 (by simp [e])), hother q h1 h2]
        · obtain ⟨hsub, hfr⟩ := ih (pl :: tl) _ t ht
          refine ⟨hsub, fun q h1 h2 => ?_⟩
          rw [hfr q h1 (fun e => h2 (by simp [e])), hother q h1 h2]

theorem donor_loop_trace_pairwise (cap : Int) :
    ∀ (itr front : List Nat) (heap : Heap),
      (donor_loop_trace cap itr (front ++ itr) heap).Pairwise
        (fun s t => (∀ p ∈ t.itl, p ∈ s.itl) ∧ ∀ q, q ∉ s.itl → t.heap q = s.heap q) := by
  intro itr
  induction itr with
  | nil =>
    intro front heap
    simp [donor_loop_trace]
  | cons pr rest ih =>
    intro front heap
    cases front with
    | nil =>
      simp only [List.nil_append, donor_loop_trace, List.pairwise_cons]
      refine ⟨?_, ?_⟩
      · intro t ht
        have hb : ∀ q, q ∉ pr :: rest → (donor_body cap heap pr pr).1 q = heap q := fun q hq =>
          donor_body_other cap heap pr pr q (fun e => hq (by simp [e])) (fun e => hq (by simp [e]))
        split at ht
        · obtain ⟨hsub, hfr⟩ := donor_loop_trace_frame cap rest rest _ t ht
          refine ⟨fun p hp => by simp [hsub p hp], fun q hq => ?_⟩
          have hq2 : q ∉ rest := fun e => hq (by simp [e])
          show t.heap q = heap q
          rw [hfr q hq2 hq2, hb q hq]
        · obtain ⟨hsub, hfr⟩ := donor_loop_trace_frame cap rest (pr :: rest) _ t ht
          refine ⟨hsub, fun q hq => ?_⟩
          have hq2 : q ∉ rest := fun e => hq (by simp [e])
          show t.heap q = heap q
          rw [hfr q hq hq2, hb q hq]
      · split
        · exact ih [] _
        · exact ih [pr] _
    | cons pl f =>
      simp only [List.cons_append, donor_loop_trace, List.pairwise_cons]
      refine ⟨?_, ?_⟩
      · intro t ht
        have hb : ∀ q, q ∉ pl :: (f ++ pr :: rest) →
            (donor_body cap heap pl pr).1 q = heap q := fun q hq =>
          donor_body_other cap heap pl pr q (fun e => hq (by simp [e])) (fun e => hq (by simp [e]))
        split at ht
        · obtain ⟨hsub, hfr⟩ := donor_loop_trace_frame cap rest (f ++ pr :: rest) _ t ht
          refine ⟨fun p hp => List.mem_cons_of_mem _ (hsub p hp), fun q hq => ?_⟩
          have hq2 : q ∉ f ++ pr :: rest := fun e => hq (List.mem_cons_of_mem _ e)
          have hq4 : q ∉ rest := fun e => hq (by simp [e])
          show t.heap q = heap q
          rw [hfr q hq2 hq4, hb q hq]
        · obtain ⟨hsub, hfr⟩ := donor_loop_trace_frame cap rest (pl :: (f ++ pr :: rest)) _ t ht
          refine ⟨hsub, fun q hq => ?_⟩
          have hq4 : q ∉ rest := fun e => hq (by simp [e])
          show t.heap q = heap q
          rw [hfr q hq hq4, hb q hq]
      · split
        · have := ih (f ++ [pr]) (donor_body cap heap pl pr).1
          simpa using this
        · have := ih (pl :: f ++ [pr]) (donor_body cap heap pl pr).1
          simpa using this

theorem donor_loop_trace_split (cap : Int) (vec : List Nat) :
    ∀ (itr front done : List Nat) (heap : Heap),
      front ≠ [] → done ++ front ++ itr = vec →
      ∀ s ∈ donor_loop_trace cap itr (front ++ itr) heap,
        ∃ (done1 front1 : List Nat), front1 ≠ [] ∧ done1 ++ front1 ++ s.itr = vec ∧
          s.itl = front1 ++ s.itr := by
  intro itr
  induction itr with
  | nil =>
    intro front done heap hne hv s hs
    simp only [donor_loop_trace, List.mem_singleton] at hs
    subst hs
    exact ⟨done, front, hne, hv, rfl⟩
  | cons pr rest ih =>
    intro front done heap hne hv s hs
    obtain ⟨pl, f, rfl⟩ := List.exists_cons_of_ne_nil hne
    simp only [List.cons_append, donor_loop_trace, List.mem_cons] at hs
    rcases hs with hs | hs
    · subst hs
      exact ⟨done, pl :: f, hne, hv, rfl⟩
    · split at hs
      · have h2 : f.append (pr :: rest) = (f ++ [pr]) ++ rest := by
          show f ++ pr :: rest = (f ++ [pr]) ++ rest
          simp
        rw [h2] at hs
        exact ih (f ++ [pr]) (done ++ [pl]) _ (by simp) (by rw [← hv]; simp) s hs
      · have h2 : pl :: f.append (pr :: rest) = (pl :: f ++ [pr]) ++ rest := by
          show pl :: (f ++ pr :: rest) = (pl :: f ++ [pr]) ++ rest
          simp
        rw [h2] at hs
        exact ih (pl :: f ++ [pr]) done _ (by simp) (by rw [← hv]; simp) s hs

theorem donor_loop_trace_last (cap : Int) :
    ∀ (itr itl : List Nat) (heap : Heap) (f : Int) (itl1 : List Nat) (heap1 : Heap) (f1 : Int),
      donor_loop cap itr itl heap f = some (itl1, heap1, f1) →
      (donor_loop_trace cap itr itl heap).getLast? = some ⟨itl1, [], heap1⟩ := by
  intro itr
  induction itr with
  | nil =>
    intro itl heap f itl1 heap1 f1 h
    simp only [donor_loop, Option.some.injEq, Prod.mk.injEq] at h
    obtain ⟨h1, h2, _⟩ := h
    subst h1 h2
    simp [donor_loop_trace]
  | cons pr rest ih =>
    intro itl heap f itl1 heap1 f1 h
    cases itl with
    | nil => simp [donor_loop] at h
    | cons pl tl =>
      simp only [donor_loop] at h
      simp only [donor_loop_trace]
      split at h
      · rename_i hb
        have := ih tl _ _ itl1 heap1 f1 h
        simp only [hb, if_true]
        rw [List.getLast?_cons, this]
        rfl
      · rename_i hb
        have := ih (pl :: tl) _ _ itl1 heap1 f1 h
        have hb2 : (donor_body cap heap pl pr).2 = false := by simpa using hb
        simp only [hb2, Bool.false_eq_true, if_false]
        rw [List.getLast?_cons, this]
        rfl

theorem donor_loop_trace_final (cap : Int) (itr front : List Nat) (heap : Heap) (f : Int)
    (itl1 : List Nat) (heap1 : Heap) (f1 : Int)
    (hrun : donor_loop cap itr (front ++ itr) heap f = some (itl1, heap1, f1)) :
    ∀ s ∈ donor_loop_trace cap itr (front ++ itr) heap,
      (∀ p ∈ itl1, p ∈ s.itl) ∧ ∀ q, q ∉ s.itl → heap1 q = s.heap q := by
  intro s hs
  obtain ⟨l, hl⟩ := List.getLast?_eq_some_iff.mp
    (donor_loop_trace_last cap itr (front ++ itr) heap f itl1 heap1 f1 hrun)
  have hpw := donor_loop_trace_pairwise cap itr front heap
  rw [hl] at hs hpw
  rcases List.mem_append.mp hs with h | h
  · exact (List.pairwise_append.mp hpw).2.2 s h ⟨itl1, [], heap1⟩ (List.mem_singleton.mpr rfl)
  · simp only [List.mem_singleton] at h
    subst h
    exact ⟨fun _ hp => hp, fun _ _ => rfl⟩

/-- C18 (filled count): for a group of at least two distinct eligible units
(fill amount at least `0` and below the capacity), the first loop ends with a
receiver iterator `itl`, and after `combine_threads_in_vector` the units of the
group that hold exactly the capacity are exactly the units `done` before
`itl`; `out_stat_filled` has grown by their number.  A unit that stands before
the receiver at the head of some pass of the loop has the same record at the
head of every later pass, at the end of the loop, and in the final heap. -/
theorem filled_count (cap : Int) (vec : List Nat) (heap : Heap) (f e : Int)
    (hnd : vec.Nodup) (hlen : 2 ≤ vec.length)
    (hel : ∀ p ∈ vec, 0 ≤ (heap p).dimension ∧ (heap p).dimension < cap) :
    ∃ (done itl : List Nat) (heap1 : Heap) (r : CombineResult),
      donor_loop cap vec.tail vec heap f = some (itl, heap1, r.out_stat_filled) ∧
      combine_threads_in_vector cap vec heap f e = some r ∧
      done ++ itl = vec ∧
      (∀ p ∈ vec, (r.heap p).dimension = cap ↔ p ∈ done) ∧
      r.out_stat_filled = f + (done.length : Int) ∧
      (donor_loop_trace cap vec.tail vec heap).Pairwise
        (fun s t => ∀ q, q ∉ s.itl → t.heap q = s.heap q) ∧
      (∀ s ∈ donor_loop_trace cap vec.tail vec heap, ∀ q, q ∉ s.itl → r.heap q = s.heap q) := by
  obtain ⟨p0, rest, rfl⟩ : ∃ p0 rest, vec = p0 :: rest := by
    cases vec with
    | nil => simp at hlen
    | cons a l => exact ⟨a, l, rfl⟩
  have hb : ∀ p ∈ [p0] ++ rest, 0 ≤ (heap p).dimension ∧ (heap p).dimension ≤ cap :=
    fun p hp => ⟨(hel p (by simpa using hp)).1, le_of_lt (hel p (by simpa using hp)).2⟩
  have hst : ∀ p ∈ [p0] ++ rest, (heap p).dimension < cap :=
    fun p hp => (hel p (by simpa using hp)).2
  obtain ⟨done1, itl1, heap1, hrun, hsplit, _, _, hfull1, _, hs1, _, _, _⟩ :=
    donor_loop_inv cap (p0 :: rest) hnd rest [p0] [] heap f (by simp) (by simp)
      (by simp) hb
  have hrun2 : donor_loop cap rest (p0 :: rest) heap f
      = some (itl1, heap1, f + (done1.length : Int)) := by
    simpa using hrun
  have hlt : ∀ p ∈ itl1, (heap1 p).dimension < cap := hs1 hst
  have hl : ¬ (p0 :: rest).length < 2 := by omega
  refine ⟨done1, itl1, heap1, ⟨(mark_loop itl1 heap1 e).1, f + (done1.length : Int),
    (mark_loop itl1 heap1 e).2⟩, ?_, ?_, hsplit, ?_, rfl, ?_, ?_⟩
  · exact hrun2
  · simp only [combine_threads_in_vector, hl, if_false, List.tail_cons, hrun2]
  · intro p hp
    show ((mark_loop itl1 heap1 e).1 p).dimension = cap ↔ p ∈ done1
    rw [mark_loop_dimension]
    constructor
    · intro hc
      rw [← hsplit] at hp
      rcases List.mem_append.mp hp with h | h
      · exact h
      · have := hlt p h; omega
    · exact hfull1 p
  · have hpw := donor_loop_trace_pairwise cap rest [p0] heap
    exact hpw.imp (fun h => h.2)
  · intro s hs q hq
    obtain ⟨hsub, hfr⟩ := donor_loop_trace_final cap rest [p0] heap f itl1 heap1 _ hrun2 s hs
    show (mark_loop itl1 heap1 e).1 q = s.heap q
    rw [mark_loop_frame itl1 heap1 e q (fun h => hq (hsub q h)), hfr q hq]

theorem filled_count_witness :
    [0, 1, 2, 3].Nodup ∧ 2 ≤ [0, 1, 2, 3].length ∧
    (∀ p ∈ [0, 1, 2, 3], 0 ≤ (heap_of_fills [9000, 8000, 14000, 1000] p).dimension ∧
      (heap_of_fills [9000, 8000, 14000, 1000] p).dimension < thread_full_dim) ∧
    ∃ (done itl : List Nat) (heap1 : Heap) (r : CombineResult),
      donor_loop thread_full_dim [0, 1, 2, 3].tail [0, 1, 2, 3]
          (heap_of_fills [9000, 8000, 14000, 1000]) 0 = some (itl, heap1, r.out_stat_filled) ∧
      combine_threads_in_vector thread_full_dim [0, 1, 2, 3]
          (heap_of_fills [9000, 8000, 14000, 1000]) 0 0 = some r ∧
      done ++ itl = [0, 1, 2, 3] ∧
      (∀ p ∈ [0, 1, 2, 3], (r.heap p).dimension = thread_full_dim ↔ p ∈ done) ∧
      r.out_stat_filled = 0 + (done.length : Int) ∧
      (donor_loop_trace thread_full_dim [0, 1, 2, 3].tail [0, 1, 2, 3]
          (heap_of_fills [9000, 8000, 14000, 1000])).Pairwise
        (fun s t => ∀ q, q ∉ s.itl → t.heap q = s.heap q) ∧
      (∀ s ∈ donor_loop_trace thread_full_dim [0, 1, 2, 3].tail [0, 1, 2, 3]
          (heap_of_fills [9000, 8000, 14000, 1000]),
        ∀ q, q ∉ s.itl → r.heap q = s.heap q) :=
  ⟨by decide, by decide, by decide,
    filled_count thread_full_dim [0, 1, 2, 3] (heap_of_fills [9000, 8000, 14000, 1000]) 0 0
      (by decide) (by decide) (by decide)⟩

/-- C19 (cursor safety): for a group of at least two units, every state at the
head of the first loop has the receiver iterator at a position `i` inside the
group; while the loop runs on (the donor iterator is not at the end) the donor
iterator is at a position `j` with `i < j` inside the group, so `*itl` and
`*itr` are the units at positions `i` and `j`, and they are different units
when the units of the group are distinct.  The loop returns, and its final
receiver iterator is again at a position inside the group. -/
theorem cursor_safety (cap : Int) (vec : List Nat) (heap : Heap) (f : Int)
    (hlen : 2 ≤ vec.length) :
    (∀ s ∈ donor_loop_trace cap vec.tail vec heap,
      ∃ i, i < vec.length ∧ s.itl = vec.drop i ∧
        (s.itr = [] ∨
          ∃ (j pl pr : Nat), i < j ∧ j < vec.length ∧ s.itr = vec.drop j ∧
            vec[i]? = some pl ∧ vec[j]? = some pr ∧
            s.itl.head? = some pl ∧ s.itr.head? = some pr ∧ (vec.Nodup → pl ≠ pr))) ∧
    ∃ (itl1 : List Nat) (heap1 : Heap) (f1 : Int),
      donor_loop cap vec.tail vec heap f = some (itl1, heap1, f1) ∧
      (donor_loop_trace cap vec.tail vec heap).getLast? = some ⟨itl1, [], heap1⟩ ∧
      ∃ i, i < vec.length ∧ itl1 = vec.drop i := by
  obtain ⟨p0, rest, rfl⟩ : ∃ p0 rest, vec = p0 :: rest := by
    cases vec with
    | nil => simp at hlen
    | cons a l => exact ⟨a, l, rfl⟩
  have hstates : ∀ s ∈ donor_loop_trace cap rest (p0 :: rest) heap,
      ∃ i, i < (p0 :: rest).length ∧ s.itl = (p0 :: rest).drop i ∧
        (s.itr = [] ∨
          ∃ (j pl pr : Nat), i < j ∧ j < (p0 :: rest).length ∧ s.itr = (p0 :: rest).drop j ∧
            (p0 :: rest)[i]? = some pl ∧ (p0 :: rest)[j]? = some pr ∧
            s.itl.head? = some pl ∧ s.itr.head? = some pr ∧
            ((p0 :: rest).Nodup → pl ≠ pr)) := by
    intro s hs
    obtain ⟨done1, front1, hne, hv, hitl⟩ :=
      donor_loop_trace_split cap (p0 :: rest) rest [p0] [] heap (by simp) (by simp) s
        (by simpa using hs)
    obtain ⟨pl, f1, rfl⟩ := List.exists_cons_of_ne_nil hne
    have hlenv : (p0 :: rest).length = done1.length + ((f1.length + 1) + s.itr.length) := by
      rw [← hv]
      simp only [List.length_append, List.length_cons]
      omega
    refine ⟨done1.length, by omega, ?_, ?_⟩
    · rw [hitl, ← hv, List.append_assoc]
      exact (List.drop_left' rfl).symm
    · cases hitr : s.itr with
      | nil => exact Or.inl rfl
      | cons pr rest2 =>
        right
        rw [hitr] at hv hitl hlenv
        refine ⟨done1.length + (f1.length + 1), pl, pr, by omega, ?_, ?_, ?_, ?_, ?_, rfl, ?_⟩
        · simp only [List.length_cons] at hlenv ⊢; omega
        · rw [← hv]
          exact (List.drop_left' (by simp)).symm
        · rw [← hv]
          have : done1 ++ pl :: f1 ++ pr :: rest2 = done1 ++ pl :: (f1 ++ pr :: rest2) := by simp
          rw [this]
          exact getElem?_at_split _ _ _
        · rw [← hv]
          have : (done1 ++ pl :: f1).length = done1.length + (f1.length + 1) := by simp
          rw [← this]
          exact getElem?_at_split _ _ _
        · rw [hitl]; rfl
        · intro hnd
          rw [← hv] at hnd
          exact (nodup_split_facts hnd).1
  refine ⟨by simpa using hstates, ?_⟩
  obtain ⟨itl1, heap1, f1, hrun, _, _, _⟩ :=
    donor_loop_frame cap rest (p0 :: rest) heap f (by simp)
  have hlast := donor_loop_trace_last cap rest (p0 :: rest) heap f itl1 heap1 f1 hrun
  refine ⟨itl1, heap1, f1, by simpa using hrun, by simpa using hlast, ?_⟩
  obtain ⟨l, hl⟩ := List.getLast?_eq_some_iff.mp hlast
  obtain ⟨i, hi, hitl, _⟩ := hstates ⟨itl1, [], heap1⟩ (by rw [hl]; simp)
  exact ⟨i, hi, hitl⟩

theorem cursor_safety_witness :
    2 ≤ [0, 1, 2, 3].length ∧
    ((∀ s ∈ donor_loop_trace thread_full_dim [0, 1, 2, 3].tail [0, 1, 2, 3]
        (heap_of_fills [3000, 4000, 13000, 1000]),
      ∃ i, i < [0, 1, 2, 3].length ∧ s.itl = [0, 1, 2, 3].drop i ∧
        (s.itr = [] ∨
          ∃ (j pl pr : Nat), i < j ∧ j < [0, 1, 2, 3].length ∧ s.itr = [0, 1, 2, 3].drop j ∧
            [0, 1, 2, 3][i]? = some pl ∧ [0, 1, 2, 3][j]? = some pr ∧
            s.itl.head? = some pl ∧ s.itr.head? = some pr ∧
            ([0, 1, 2, 3].Nodup → pl ≠ pr))) ∧
    ∃ (itl1 : List Nat) (heap1 : Heap) (f1 : Int),
      donor_loop thread_full_dim [0, 1, 2, 3].tail [0, 1, 2, 3]
        (heap_of_fills [3000, 4000, 13000, 1000]) 0 = some (itl1, heap1, f1) ∧
      (donor_loop_trace thread_full_dim [0, 1, 2, 3].tail [0, 1, 2, 3]
        (heap_of_fills [3000, 4000, 13000, 1000])).getLast? = some ⟨itl1, [], heap1⟩ ∧
      ∃ i, i < [0, 1, 2, 3].length ∧ itl1 = [0, 1, 2, 3].drop i) :=
  ⟨by decide,
    cursor_safety thread_full_dim [0, 1, 2, 3] (heap_of_fills [3000, 4000, 13000, 1000]) 0
      (by decide)⟩


/-! ## Exact arithmetic against `int32_t` arithmetic -/

theorem wrap_int32_eq (x : Int) (h1 : -2147483648 ≤ x) (h2 : x ≤ 2147483647) :
    wrap_int32 x = x := by
  unfold wrap_int32
  omega

theorem donor_body_int32_eq_of_fit (cap : Int) (heap : Heap) (pl pr : Nat)
    (hl0 : 0 ≤ (heap pl).dimension) (hr0 : 0 ≤ (heap pr).dimension)
    (hsum : (heap pr).dimension + (heap pl).dimension ≤ 2147483647)
    (hcap : 0 ≤ cap) :
    donor_body_int32 cap heap pl pr = donor_body cap heap pl pr ∧
    amount_to_combine_int32 cap heap pl pr = amount_to_combine cap heap pl pr := by
  have hw1 : wrap_int32 ((heap pr).dimension + (heap pl).dimension)
      = (heap pr).dimension + (heap pl).dimension := wrap_int32_eq _ (by omega) hsum
  by_cases hf : cap ≤ (heap pr).dimension + (heap pl).dimension
  · have hw2 : wrap_int32 (cap - (heap pl).dimension) = cap - (heap pl).dimension :=
      wrap_int32_eq _ (by omega) (by omega)
    have hw3 : wrap_int32 ((heap pl).dimension + (cap - (heap pl).dimension))
        = (heap pl).dimension + (cap - (heap pl).dimension) :=
      wrap_int32_eq _ (by omega) (by omega)
    have hw4 : wrap_int32 ((heap pr).dimension - (cap - (heap pl).dimension))
        = (heap pr).dimension - (cap - (heap pl).dimension) :=
      wrap_int32_eq _ (by omega) (by omega)
    simp only [donor_body_int32, donor_body, amount_to_combine_int32, amount_to_combine, hw1,
      ge_iff_le, hf, decide_True, if_true, hw2, hw3, hw4, and_self]
  · have hw3 : wrap_int32 ((heap pl).dimension + (heap pr).dimension)
        = (heap pl).dimension + (heap pr).dimension :=
      wrap_int32_eq _ (by omega) (by omega)
    have hw4 : wrap_int32 ((heap pr).dimension - (heap pr).dimension)
        = (heap pr).dimension - (heap pr).dimension :=
      wrap_int32_eq _ (by omega) (by omega)
    simp only [donor_body_int32, donor_body, amount_to_combine_int32, amount_to_combine, hw1,
      ge_iff_le, hf, decide_False, Bool.false_eq_true, if_false, hw3, hw4, and_self]

theorem donor_body_int32_eq (cap : Int) (heap : Heap) (pl pr : Nat) (hcap : cap ≤ 1073741823)
    (hl : 0 ≤ (heap pl).dimension ∧ (heap pl).dimension ≤ cap)
    (hr : 0 ≤ (heap pr).dimension ∧ (heap pr).dimension ≤ cap) :
    donor_body_int32 cap heap pl pr = donor_body cap heap pl pr :=
  (donor_body_int32_eq_of_fit cap heap pl pr hl.1 hr.1 (by omega) (by omega)).1

theorem donor_body_bounded (cap : Int) (S : Nat → Prop) (heap : Heap) (pl pr : Nat)
    (hSl : S pl) (hSr : S pr)
    (hb : ∀ q, S q → 0 ≤ (heap q).dimension ∧ (heap q).dimension ≤ cap) :
    ∀ q, S q → 0 ≤ ((donor_body cap heap pl pr).1 q).dimension ∧
      ((donor_body cap heap pl pr).1 q).dimension ≤ cap := by
  have hbl := hb pl hSl
  have hbr := hb pr hSr
  have hR := donor_body_right cap heap pl pr
  intro q hq
  by_cases e : q = pr
  · rw [e, hR]; split <;> constructor <;> omega
  · by_cases e2 : q = pl
    · have hL := donor_body_left cap heap pl pr (fun h => e (e2.trans h))
      rw [e2, hL]; split <;> constructor <;> omega
    · rw [donor_body_other cap heap pl pr q e2 e]; exact hb q hq

theorem donor_loop_int32_eq (cap : Int) (hcap : cap ≤ 1073741823) (S : Nat → Prop) :
    ∀ (itr itl : List Nat) (heap : Heap) (filled : Int),
      (∀ p ∈ itr, S p) → (∀ p ∈ itl, S p) →
      (∀ q, S q → 0 ≤ (heap q).dimension ∧ (heap q).dimension ≤ cap) →
      donor_loop_int32 cap itr itl heap filled = donor_loop cap itr itl heap filled := by
  intro itr
  induction itr with
  | nil => intro itl heap filled _ _ _; rfl
  | cons pr rest ih =>
    intro itl heap filled hr hl hb
    cases itl with
    | nil => rfl
    | cons pl tl =>
      have hSl : S pl := hl pl (by simp)
      have hSr : S pr := hr pr (by simp)
      have hbody := donor_body_int32_eq cap heap pl pr hcap (hb pl hSl) (hb pr hSr)
      have hb2 := donor_body_bounded cap S heap pl pr hSl hSr hb
      simp only [donor_loop_int32, donor_loop, hbody]
      split
      · exact ih tl _ _ (fun p hp => hr p (by simp [hp])) (fun p hp => hl p (by simp [hp])) hb2
      · exact ih (pl :: tl) _ _ (fun p hp => hr p (by simp [hp])) hl hb2

theorem combine_int32_eq (cap : Int) (hcap : cap ≤ 1073741823) (vec : List Nat) (heap : Heap)
    (f e : Int) (hb : ∀ p ∈ vec, 0 ≤ (heap p).dimension ∧ (heap p).dimension ≤ cap) :
    combine_threads_in_vector_int32 cap vec heap f e = combine_threads_in_vector cap vec heap f e := by
  unfold combine_threads_in_vector_int32 combine_threads_in_vector
  rw [donor_loop_int32_eq cap hcap (fun p => p ∈ vec) vec.tail vec heap f
    (fun p hp => List.mem_of_mem_tail hp) (fun p hp => hp) hb]

theorem combine_bounded_on (cap : Int) (S : Nat → Prop) (vec : List Nat) (heap : Heap)
    (f e : Int) (hvec : ∀ p ∈ vec, S p)
    (hb : ∀ q, S q → 0 ≤ (heap q).dimension ∧ (heap q).dimension ≤ cap) :
    ∃ r, combine_threads_in_vector cap vec heap f e = some r ∧
      ∀ q, S q → 0 ≤ (r.heap q).dimension ∧ (r.heap q).dimension ≤ cap := by
  by_cases hlen : vec.length < 2
  · exact ⟨⟨heap, f, e⟩, by simp [combine_threads_in_vector, hlen], hb⟩
  · obtain ⟨itl1, heap1, f1, hrun, hb1⟩ :=
      donor_loop_bounded cap S vec.tail vec heap f
        (by cases vec with
          | nil => simp at hlen
          | cons a l => simp)
        (fun p hp => hvec p (List.mem_of_mem_tail hp)) hvec hb
    refine ⟨⟨(mark_loop itl1 heap1 e).1, f1, (mark_loop itl1 heap1 e).2⟩, ?_, ?_⟩
    · simp only [combine_threads_in_vector, hlen, if_false, hrun]
    · intro q hq
      simp only [mark_loop_dimension]
      exact hb1 q hq

theorem thread_full_dim_fits : thread_full_dim ≤ 1073741823 := by
  unfold thread_full_dim
  omega

theorem combine_groups_int32_eq (S : Nat → Prop) :
    ∀ (m : ThreadMap) (heap : Heap) (f e : Int),
      (∀ entry ∈ m, ∀ p ∈ entry.2, S p) →
      (∀ q, S q → 0 ≤ (heap q).dimension ∧ (heap q).dimension ≤ thread_full_dim) →
      ∃ r, combine_groups_int32 m heap f e = some r ∧ combine_groups m heap f e = some r ∧
        ∀ q, S q → 0 ≤ (r.heap q).dimension ∧ (r.heap q).dimension ≤ thread_full_dim := by
  intro m
  induction m with
  | nil =>
    intro heap f e _ hb
    exact ⟨⟨heap, f, e⟩, rfl, rfl, hb⟩
  | cons kv m ih =>
    intro heap f e hm hb
    obtain ⟨k, vec⟩ := kv
    have hvec : ∀ p ∈ vec, S p := hm (k, vec) (by simp)
    have heq := combine_int32_eq thread_full_dim thread_full_dim_fits vec heap f e
      (fun p hp => hb p (hvec p hp))
    obtain ⟨r1, hr1, hb1⟩ := combine_bounded_on thread_full_dim S vec heap f e hvec hb
    obtain ⟨r, hr32, hr, hbr⟩ := ih r1.heap r1.out_stat_filled r1.out_stat_emptied
      (fun entry he => hm entry (by simp [he])) hb1
    exact ⟨r, by simp only [combine_groups_int32, heq, hr1, hr32],
      by simp only [combine_groups, hr1, hr], hbr⟩

theorem process_stockpile_int32_eq (S : Nat → Prop) (sp : building_stockpilest)
    (st : CombineResult) (hsp : ∀ p ∈ stockpile_threads sp.contents, S p)
    (hb : ∀ q, S q → 0 ≤ (st.heap q).dimension ∧ (st.heap q).dimension ≤ thread_full_dim) :
    ∃ r, process_stockpile_int32 sp st = some r ∧ process_stockpile sp st = some r ∧
      ∀ q, S q → 0 ≤ (r.heap q).dimension ∧ (r.heap q).dimension ≤ thread_full_dim := by
  by_cases hg : (!has_allowed sp.thread_plant && !has_allowed sp.thread_silk &&
      !has_allowed sp.thread_yarn && !has_allowed sp.thread_metal) = true
  · exact ⟨st, by simp only [process_stockpile_int32, hg, if_true],
      by simp only [process_stockpile, hg, if_true], hb⟩
  · obtain ⟨r, hr32, hr, hbr⟩ := combine_groups_int32_eq S
      (insert_contents st.heap sp.contents []) st.heap st.out_stat_filled st.out_stat_emptied
      (fun entry he p hp => hsp p (entry_same_key st.heap sp.contents entry he p hp).1) hb
    exact ⟨r, by simp only [process_stockpile_int32, hg, if_false]; exact hr32,
      by simp only [process_stockpile, hg, if_false]; exact hr, hbr⟩

theorem process_stockpiles_int32_eq (S : Nat → Prop) :
    ∀ (stockpiles : List building_stockpilest) (st : CombineResult),
      (∀ sp ∈ stockpiles, ∀ p ∈ stockpile_threads sp.contents, S p) →
      (∀ q, S q → 0 ≤ (st.heap q).dimension ∧ (st.heap q).dimension ≤ thread_full_dim) →
      ∃ r, process_stockpiles_int32 stockpiles st = some r ∧
        process_stockpiles stockpiles st = some r ∧
        ∀ q, S q → 0 ≤ (r.heap q).dimension ∧ (r.heap q).dimension ≤ thread_full_dim := by
  intro stockpiles
  induction stockpiles with
  | nil => intro st _ hb; exact ⟨st, rfl, rfl, hb⟩
  | cons sp rest ih =>
    intro st hS hb
    obtain ⟨r1, h32, h1, hb1⟩ := process_stockpile_int32_eq S sp st (hS sp (by simp)) hb
    obtain ⟨r, hr32, hr, hbr⟩ := ih r1 (fun sp2 h2 => hS sp2 (by simp [h2])) hb1
    exact ⟨r, by simp only [process_stockpiles_int32, h32, hr32],
      by simp only [process_stockpiles, h1, hr], hbr⟩

theorem df_combinethread_int32_eq (stockpiles : List building_stockpilest) (heap : Heap)
    (hb : ∀ sp ∈ stockpiles, ∀ p ∈ stockpile_threads sp.contents,
      0 ≤ (heap p).dimension ∧ (heap p).dimension ≤ thread_full_dim) :
    ∃ r, df_combinethread_int32 stockpiles heap = some r ∧
      df_combinethread stockpiles heap = some r ∧
      ∀ sp ∈ stockpiles, ∀ p ∈ stockpile_threads sp.contents,
        0 ≤ (r.heap p).dimension ∧ (r.heap p).dimension ≤ thread_full_dim := by
  obtain ⟨r, h32, h, hbr⟩ := process_stockpiles_int32_eq
    (fun q => ∃ sp ∈ stockpiles, q ∈ stockpile_threads sp.contents) stockpiles ⟨heap, 0, 0⟩
    (fun sp hsp p hp => ⟨sp, hsp, hp⟩)
    (fun q hq => by
      obtain ⟨sp, hsp, hp⟩ := hq
      exact hb sp hsp q hp)
  exact ⟨r, h32, h, fun sp hsp p hp => hbr p ⟨sp, hsp, hp⟩⟩

/-! ## Groups whose total fill fits an `int32_t` -/

theorem pair_le_total_fill (heap : Heap) (S : List Nat) (hS : S.Nodup) (pl pr : Nat)
    (hl : pl ∈ S) (hr : pr ∈ S) (h : pl ≠ pr) (hnn : ∀ p ∈ S, 0 ≤ (heap p).dimension) :
    (heap pr).dimension + (heap pl).dimension ≤ total_fill heap S := by
  have h1 := total_fill_set_mem heap pl 0 S hS hl
  have h2 := total_fill_set_mem (set_dimension heap pl 0) pr 0 S hS hr
  have h3 : ((set_dimension heap pl 0) pr).dimension = (heap pr).dimension := by
    rw [set_dimension_other heap pl pr 0 (fun e => h e.symm)]
  have h4 : 0 ≤ total_fill (set_dimension (set_dimension heap pl 0) pr 0) S := by
    apply total_fill_nonneg
    intro p hp
    by_cases e1 : p = pr
    · rw [e1, set_dimension_same]
    · rw [set_dimension_other _ pr p 0 e1]
      by_cases e2 : p = pl
      · rw [e2, set_dimension_same]
      · rw [set_dimension_other _ pl p 0 e2]
        exact hnn p hp
  omega

theorem donor_body_nonneg (cap : Int) (hcap : 0 ≤ cap) (S : List Nat) (heap : Heap)
    (pl pr : Nat) (h : pl ≠ pr) (hl : pl ∈ S) (hr : pr ∈ S)
    (hnn : ∀ p ∈ S, 0 ≤ (heap p).dimension) :
    ∀ p ∈ S, 0 ≤ ((donor_body cap heap pl pr).1 p).dimension := by
  have hl0 := hnn pl hl
  have hr0 := hnn pr hr
  intro p hp
  by_cases e : p = pr
  · rw [e, donor_body_right]; split <;> omega
  · by_cases e2 : p = pl
    · rw [e2, donor_body_left cap heap pl pr h]; split <;> omega
    · rw [donor_body_other cap heap pl pr p e2 e]; exact hnn p hp

theorem donor_loop_int32_eq_of_total (cap : Int) (hcap : 0 ≤ cap) (S : List Nat) (hS : S.Nodup) :
    ∀ (itr front done : List Nat) (heap : Heap) (filled : Int),
      front ≠ [] → (done ++ front ++ itr).Nodup → (∀ p ∈ front ++ itr, p ∈ S) →
      (∀ p ∈ S, 0 ≤ (heap p).dimension) → total_fill heap S ≤ 2147483647 →
      donor_loop_int32 cap itr (front ++ itr) heap filled
        = donor_loop cap itr (front ++ itr) heap filled := by
  intro itr
  induction itr with
  | nil =>
    intro front done heap filled _ _ _ _ _
    simp [donor_loop_int32, donor_loop]
  | cons pr rest ih =>
    intro front done heap filled hne hnd hsub hnn htot
    obtain ⟨pl, f, rfl⟩ := List.exists_cons_of_ne_nil hne
    obtain ⟨hplpr, _, _, _, _, _, _⟩ := nodup_split_facts hnd
    have hSl : pl ∈ S := hsub pl (by simp)
    have hSr : pr ∈ S := hsub pr (by simp)
    have hpair := pair_le_total_fill heap S hS pl pr hSl hSr hplpr hnn
    have hbody := (donor_body_int32_eq_of_fit cap heap pl pr (hnn pl hSl) (hnn pr hSr)
      (by omega) hcap).1
    have htot1 := donor_body_total cap heap pl pr S hS hSl hSr hplpr
    have hnn1 := donor_body_nonneg cap hcap S heap pl pr hplpr hSl hSr hnn
    by_cases hb : (donor_body cap heap pl pr).2 = true
    · have ih1 := ih (f ++ [pr]) (done ++ [pl]) (donor_body cap heap pl pr).1 (filled + 1)
        (by simp) (by simpa using hnd) (fun p hp => hsub p (by simp at hp ⊢; tauto)) hnn1
        (by rw [htot1]; exact htot)
      simpa [donor_loop_int32, donor_loop, hbody, hb] using ih1
    · have hb2 : (donor_body cap heap pl pr).2 = false := by simpa using hb
      have ih1 := ih (pl :: f ++ [pr]) done (donor_body cap heap pl pr).1 filled
        (by simp) (by simpa using hnd) (fun p hp => hsub p (by simp at hp ⊢; tauto)) hnn1
        (by rw [htot1]; exact htot)
      simpa [donor_loop_int32, donor_loop, hbody, hb2] using ih1

theorem combine_int32_eq_of_total (cap : Int) (hcap : 0 ≤ cap) (vec : List Nat)
    (hnd : vec.Nodup) (heap : Heap) (f e : Int) (hnn : ∀ p ∈ vec, 0 ≤ (heap p).dimension)
    (htot : total_fill heap vec ≤ 2147483647) :
    combine_threads_in_vector_int32 cap vec heap f e
      = combine_threads_in_vector cap vec heap f e := by
  cases vec with
  | nil => rfl
  | cons p0 rest =>
    have h := donor_loop_int32_eq_of_total cap hcap (p0 :: rest) hnd rest [p0] [] heap f
      (by simp) (by simpa using hnd) (by simp) hnn htot
    have h2 : donor_loop_int32 cap rest (p0 :: rest) heap f
        = donor_loop cap rest (p0 :: rest) heap f := by simpa using h
    simp only [combine_threads_in_vector_int32, combine_threads_in_vector, List.tail_cons, h2]

/-! ## The frame of the `int32_t` pass -/

theorem donor_body_int32_other (cap : Int) (heap : Heap) (pl pr q : Nat) (hl : q ≠ pl)
    (hr : q ≠ pr) : (donor_body_int32 cap heap pl pr).1 q = heap q := by
  simp only [donor_body_int32, set_dimension_other _ pr q _ hr, set_dimension_other _ pl q _ hl]

theorem donor_body_int32_key (cap : Int) (heap : Heap) (pl pr q : Nat) :
    key_of (donor_body_int32 cap heap pl pr).1 q = key_of heap q := by
  simp only [donor_body_int32, (set_dimension_key _ _ _ _).1]

theorem donor_loop_int32_frame (cap : Int) :
    ∀ (itr itl : List Nat) (heap : Heap) (filled : Int),
      itr.length < itl.length →
      ∃ (itl1 : List Nat) (heap1 : Heap) (f1 : Int),
        donor_loop_int32 cap itr itl heap filled = some (itl1, heap1, f1) ∧
        (∀ p ∈ itl1, p ∈ itl) ∧
        (∀ q, q ∉ itl → q ∉ itr → heap1 q = heap q) ∧
        (∀ q, key_of heap1 q = key_of heap q) := by
  intro itr
  induction itr with
  | nil =>
    intro itl heap filled _
    exact ⟨itl, heap, filled, by simp [donor_loop_int32], fun _ h => h, fun _ _ _ => rfl,
      fun _ => rfl⟩
  | cons pr rest ih =>
    intro itl heap filled hlen
    cases itl with
    | nil => simp at hlen
    | cons pl tl =>
      simp only [List.length_cons] at hlen
      simp only [donor_loop_int32]
      split
      · obtain ⟨itl1, heap1, f1, hrun, hsub, hfr, hk⟩ :=
          ih tl (donor_body_int32 cap heap pl pr).1 (filled + 1) (by omega)
        refine ⟨itl1, heap1, f1, hrun, fun p hp => by simp [hsub p hp], ?_, ?_⟩
        · intro q hq1 hq2
          have h1 : q ≠ pl := fun e => hq1 (by simp [e])
          have h2 : q ∉ tl := fun e => hq1 (by simp [e])
          have h3 : q ≠ pr := fun e => hq2 (by simp [e])
          have h4 : q ∉ rest := fun e => hq2 (by simp [e])
          rw [hfr q h2 h4, donor_body_int32_other cap heap pl pr q h1 h3]
        · intro q; rw [hk, donor_body_int32_key]
      · obtain ⟨itl1, heap1, f1, hrun, hsub, hfr, hk⟩ :=
          ih (pl :: tl) (donor_body_int32 cap heap pl pr).1 filled
            (by simp only [List.length_cons]; omega)
        refine ⟨itl1, heap1, f1, hrun, hsub, ?_, ?_⟩
        · intro q hq1 hq2
          have h1 : q ≠ pl := fun e => hq1 (by simp [e])
          have h3 : q ≠ pr := fun e => hq2 (by simp [e])
          have h4 : q ∉ rest := fun e => hq2 (by simp [e])
          rw [hfr q hq1 h4, donor_body_int32_other cap heap pl pr q h1 h3]
        · intro q; rw [hk, donor_body_int32_key]

theorem combine_int32_frame (cap : Int) (vec : List Nat) (heap : Heap) (f e : Int) :
    ∃ r, combine_threads_in_vector_int32 cap vec heap f e = some r ∧
      (∀ q, q ∉ vec → r.heap q = heap q) ∧
      (∀ q, key_of r.heap q = key_of heap q) := by
  by_cases hlen : vec.length < 2
  · exact ⟨⟨heap, f, e⟩, by simp [combine_threads_in_vector_int32, hlen], fun _ _ => rfl,
      fun _ => rfl⟩
  · obtain ⟨itl1, heap1, f1, hrun, hsub, hfr, hk⟩ :=
      donor_loop_int32_frame cap vec.tail vec heap f (by
        cases vec with
        | nil => simp at hlen
        | cons a l => simp)
    refine ⟨⟨(mark_loop itl1 heap1 e).1, f1, (mark_loop itl1 heap1 e).2⟩, ?_, ?_, ?_⟩
    · simp only [combine_threads_in_vector_int32, hlen, if_false, hrun]
    · intro q hq
      show (mark_loop itl1 heap1 e).1 q = heap q
      rw [mark_loop_frame itl1 heap1 e q (fun h => hq (hsub q h)),
        hfr q hq (fun h => hq (List.mem_of_mem_tail h))]
    · intro q
      show key_of (mark_loop itl1 heap1 e).1 q = key_of heap q
      rw [mark_loop_key, hk]

theorem combine_groups_int32_total_on (S : List Nat) (hS : S.Nodup) :
    ∀ (m : ThreadMap) (heap : Heap) (f e : Int),
      (∀ entry ∈ m, (entry.2.Nodup ∧ ∀ p ∈ entry.2, p ∈ S) ∨ (∀ p ∈ entry.2, p ∉ S)) →
      (∀ p ∈ S, 0 ≤ (heap p).dimension ∧ (heap p).dimension ≤ thread_full_dim) →
      ∃ r, combine_groups_int32 m heap f e = some r ∧
        total_fill r.heap S = total_fill heap S ∧
        (∀ q, key_of r.heap q = key_of heap q) ∧
        (∀ p ∈ S, 0 ≤ (r.heap p).dimension ∧ (r.heap p).dimension ≤ thread_full_dim) := by
  intro m
  induction m with
  | nil =>
    intro heap f e _ hb
    exact ⟨⟨heap, f, e⟩, rfl, rfl, fun _ => rfl, hb⟩
  | cons kv m ih =>
    intro heap f e hm hb
    obtain ⟨k, vec⟩ := kv
    have hrest : ∀ entry ∈ m,
        (entry.2.Nodup ∧ ∀ p ∈ entry.2, p ∈ S) ∨ (∀ p ∈ entry.2, p ∉ S) :=
      fun entry he => hm entry (by simp [he])
    obtain ⟨r0, hr0, hfr0, hk0⟩ := combine_int32_frame thread_full_dim vec heap f e
    have h1 : total_fill r0.heap S = total_fill heap S ∧
        ∀ p ∈ S, 0 ≤ (r0.heap p).dimension ∧ (r0.heap p).dimension ≤ thread_full_dim := by
      rcases hm (k, vec) (by simp) with ⟨hnd, hsub⟩ | hdis
      · have heq := combine_int32_eq thread_full_dim thread_full_dim_fits vec heap f e
          (fun p hp => hb p (hsub p hp))
        obtain ⟨r1, hr1, ht1⟩ := combine_total_on thread_full_dim S hS vec heap f e hnd hsub
        obtain ⟨r2, hr2, hb2⟩ := combine_bounded_on thread_full_dim (fun p => p ∈ S) vec heap f e
          hsub hb
        rw [heq] at hr0
        rw [hr0] at hr1 hr2
        rw [Option.some.inj hr1] at *
        rw [← Option.some.inj hr2] at hb2
        exact ⟨ht1, hb2⟩
      · have hsame : ∀ p ∈ S, r0.heap p = heap p := fun p hp => hfr0 p (fun h => hdis p h hp)
        exact ⟨total_fill_congr _ _ _ (fun p hp => by rw [hsame p hp]),
          fun p hp => by rw [hsame p hp]; exact hb p hp⟩
    obtain ⟨r, hr, ht, hk, hbr⟩ := ih r0.heap r0.out_stat_filled r0.out_stat_emptied hrest h1.2
    exact ⟨r, by simp only [combine_groups_int32, hr0, hr], by rw [ht, h1.1],
      fun q => by rw [hk, hk0], hbr⟩

theorem process_stockpile_int32_total_on (S : List Nat) (hS : S.Nodup) (heap0 : Heap)
    (sp : building_stockpilest) (st : CombineResult)
    (hkeys : ∀ q, key_of st.heap q = key_of heap0 q)
    (hgood : (∀ p ∈ stockpile_threads sp.contents, p ∉ S) ∨
      ((stockpile_threads sp.contents).Nodup ∧
        ∀ p ∈ stockpile_threads sp.contents, ∀ q ∈ stockpile_threads sp.contents,
          key_of heap0 p = key_of heap0 q → p ∈ S → q ∈ S))
    (hb : ∀ p ∈ S, 0 ≤ (st.heap p).dimension ∧ (st.heap p).dimension ≤ thread_full_dim) :
    ∃ r, process_stockpile_int32 sp st = some r ∧
      total_fill r.heap S = total_fill st.heap S ∧
      (∀ q, key_of r.heap q = key_of heap0 q) ∧
      (∀ p ∈ S, 0 ≤ (r.heap p).dimension ∧ (r.heap p).dimension ≤ thread_full_dim) := by
  by_cases hg : (!has_allowed sp.thread_plant && !has_allowed sp.thread_silk &&
      !has_allowed sp.thread_yarn && !has_allowed sp.thread_metal) = true
  · exact ⟨st, by simp only [process_stockpile_int32, hg, if_true], rfl, hkeys, hb⟩
  · obtain ⟨r, hr, ht, hk, hbr⟩ := combine_groups_int32_total_on S hS
      (insert_contents st.heap sp.contents []) st.heap st.out_stat_filled st.out_stat_emptied
      (by
        intro entry he
        have hmem := entry_same_key st.heap sp.contents entry he
        rcases hgood with hdis | ⟨hnd, hcl⟩
        · exact Or.inr (fun p hp => hdis p (hmem p hp).1)
        · by_cases hex : ∃ p ∈ entry.2, p ∈ S
          · obtain ⟨p, hp, hpS⟩ := hex
            left
            refine ⟨?_, ?_⟩
            · rw [entry_of_insert_contents st.heap sp.contents entry.1 entry.2 he]
              exact hnd.filter _
            · intro q hq
              apply hcl p (hmem p hp).1 q (hmem q hq).1 _ hpS
              rw [← hkeys p, ← hkeys q, (hmem p hp).2.2, (hmem q hq).2.2]
          · right
            intro p hp hpS
            exact hex ⟨p, hp, hpS⟩) hb
    exact ⟨r, by simp only [process_stockpile_int32, hg, if_false]; exact hr, ht,
      fun q => by rw [hk, hkeys], hbr⟩

theorem process_stockpiles_int32_total_on (S : List Nat) (hS : S.Nodup) (heap0 : Heap) :
    ∀ (stockpiles : List building_stockpilest) (st : CombineResult),
      (∀ q, key_of st.heap q = key_of heap0 q) →
      (∀ sp ∈ stockpiles, (∀ p ∈ stockpile_threads sp.contents, p ∉ S) ∨
        ((stockpile_threads sp.contents).Nodup ∧
          ∀ p ∈ stockpile_threads sp.contents, ∀ q ∈ stockpile_threads sp.contents,
            key_of heap0 p = key_of heap0 q → p ∈ S → q ∈ S)) →
      (∀ p ∈ S, 0 ≤ (st.heap p).dimension ∧ (st.heap p).dimension ≤ thread_full_dim) →
      ∃ r, process_stockpiles_int32 stockpiles st = some r ∧
        total_fill r.heap S = total_fill st.heap S ∧
        (∀ q, key_of r.heap q = key_of heap0 q) := by
  intro stockpiles
  induction stockpiles with
  | nil => intro st hk _ _; exact ⟨st, rfl, rfl, hk⟩
  | cons sp rest ih =>
    intro st hk hgood hb
    obtain ⟨r1, hr1, ht1, hk1, hb1⟩ :=
      process_stockpile_int32_total_on S hS heap0 sp st hk (hgood sp (by simp)) hb
    obtain ⟨r, hr, ht, hk2⟩ := ih r1 hk1 (fun sp2 h2 => hgood sp2 (by simp [h2])) hb1
    exact ⟨r, by simp only [process_stockpiles_int32, hr1, hr], by rw [ht, ht1], hk2⟩

/-- On the in-range groups that the scenarios above run, the combiner with
`int32_t` results and the combiner with exact results leave the same state. -/
theorem run_on_fills_int32_on_scenarios :
    run_on_fills_int32 100 [30, 40, 50] = run_on_fills 100 [30, 40, 50] ∧
    run_on_fills_int32 thread_full_dim [3000, 4000, 13000]
      = run_on_fills thread_full_dim [3000, 4000, 13000] ∧
    run_on_fills_int32 thread_full_dim [3000, 4000, 13000, 1000]
      = run_on_fills thread_full_dim [3000, 4000, 13000, 1000] ∧
    run_on_fills_int32 thread_full_dim [3000, 4000, 13000, 10000]
      = run_on_fills thread_full_dim [3000, 4000, 13000, 10000] ∧
    run_on_fills_int32 thread_full_dim [20000, 1000]
      = run_on_fills thread_full_dim [20000, 1000] ∧
    run_on_fills_int32 thread_full_dim [2147483647, 1]
      = some ([-2147483648, 0], [false, true], 0, 1) ∧
    run_on_fills thread_full_dim [2147483647, 1]
      = some ([15000, 2147468648], [false, false], 1, 0) :=
  ⟨rfl, rfl, rfl, rfl, rfl, rfl, rfl⟩

/-! ## The transfer amount of one pass -/

/-- C17 (transfer amount), with the bound that the `int32_t` addition of line 56
needs: in a pass of the loop body whose receiver holds between `0` and the
capacity, whose donor holds at least `0`, and in which receiver fill plus donor
fill is at most `2147483647`, the amount `amount_to_combine` that the body adds
to the receiver and takes from the donor is
`min (capacity - receiver fill) (donor fill)`; it is non-negative, at most the
donor's fill and at most the receiver's free space. -/
theorem transfer_amount (cap : Int) (heap : Heap) (pl pr : Nat)
    (hl0 : 0 ≤ (heap pl).dimension) (hl1 : (heap pl).dimension ≤ cap)
    (hr0 : 0 ≤ (heap pr).dimension)
    (hsum : (heap pl).dimension + (heap pr).dimension ≤ 2147483647) :
    (donor_body_int32 cap heap pl pr).1
      = set_dimension
          (set_dimension heap pl
            ((heap pl).dimension + amount_to_combine_int32 cap heap pl pr))
          pr ((heap pr).dimension - amount_to_combine_int32 cap heap pl pr) ∧
    amount_to_combine_int32 cap heap pl pr
      = min (cap - (heap pl).dimension) (heap pr).dimension ∧
    0 ≤ amount_to_combine_int32 cap heap pl pr ∧
    amount_to_combine_int32 cap heap pl pr ≤ (heap pr).dimension ∧
    amount_to_combine_int32 cap heap pl pr ≤ cap - (heap pl).dimension := by
  obtain ⟨hb, ha⟩ := donor_body_int32_eq_of_fit cap heap pl pr hl0 hr0 (by omega) (by omega)
  rw [hb, ha]
  exact transfer_amount_exact cap heap pl pr hl1 hr0

theorem transfer_amount_witness :
    0 ≤ (heap_of_fills [7000, 13000] 0).dimension ∧
    (heap_of_fills [7000, 13000] 0).dimension ≤ thread_full_dim ∧
    0 ≤ (heap_of_fills [7000, 13000] 1).dimension ∧
    (heap_of_fills [7000, 13000] 0).dimension + (heap_of_fills [7000, 13000] 1).dimension
      ≤ 2147483647 ∧
    amount_to_combine_int32 thread_full_dim (heap_of_fills [7000, 13000]) 0 1 = 8000 ∧
    amount_to_combine_int32 thread_full_dim (heap_of_fills [7000, 13000]) 0 1
      = min (thread_full_dim - (heap_of_fills [7000, 13000] 0).dimension)
          (heap_of_fills [7000, 13000] 1).dimension :=
  ⟨by decide, by decide, by decide, by decide, by decide,
    (transfer_amount thread_full_dim (heap_of_fills [7000, 13000]) 0 1
      (by decide) (by decide) (by decide) (by decide)).2.1⟩

/-- C17 refuted as stated: with the receiver at `1` (between `0` and the
capacity `15000`) and the donor at `2147483647` (at least `0`), the sum of
line 56 wraps to `-2147483648`, `filled_up` is false and the body transfers the
donor's whole `2147483647`: not the minimum `14999` of the receiver's free space
and the donor's fill, and more than the receiver's free space.  The group
`[1, 2147483647]` ends as `[-2147483648, 0]`. -/
theorem transfer_amount_overflows :
    0 ≤ (heap_of_fills [1, 2147483647] 0).dimension ∧
    (heap_of_fills [1, 2147483647] 0).dimension ≤ thread_full_dim ∧
    0 ≤ (heap_of_fills [1, 2147483647] 1).dimension ∧
    amount_to_combine_int32 thread_full_dim (heap_of_fills [1, 2147483647]) 0 1 = 2147483647 ∧
    min (thread_full_dim - (heap_of_fills [1, 2147483647] 0).dimension)
      (heap_of_fills [1, 2147483647] 1).dimension = 14999 ∧
    ¬ amount_to_combine_int32 thread_full_dim (heap_of_fills [1, 2147483647]) 0 1
      ≤ thread_full_dim - (heap_of_fills [1, 2147483647] 0).dimension ∧
    run_on_fills_int32 thread_full_dim [1, 2147483647]
      = some ([-2147483648, 0], [false, true], 0, 1) := by
  refine ⟨by decide, by decide, by decide, by decide, by decide, by decide, rfl⟩

/-! ## Scenario 1 and the receiver advance -/

/-- C7 (scenario 1), as the code behaves: for three distinct units A, B, C with
non-negative fills `a`, `b`, `c`, `a + b + c ≤ 2147483647` and
`a + b < capacity ≤ a + b + c`, the combiner returns, and afterwards A holds the
capacity with its flags unchanged, B holds `0` and carries the removal flag, C
holds the remainder `a + b + c - capacity` and carries the removal flag exactly
when it carried it before or the remainder is `0`, `out_stat_filled` has grown
by `1` and `out_stat_emptied` by `1` (by `2` when the remainder is `0`). -/
theorem scenario_three_units (cap : Int) (pa pb pc : Nat) (heap : Heap) (f e : Int)
    (hnd : [pa, pb, pc].Nodup)
    (ha : 0 ≤ (heap pa).dimension) (hb : 0 ≤ (heap pb).dimension)
    (hc : 0 ≤ (heap pc).dimension)
    (hfit : (heap pa).dimension + (heap pb).dimension + (heap pc).dimension ≤ 2147483647)
    (h1 : (heap pa).dimension + (heap pb).dimension < cap)
    (h2 : cap ≤ (heap pa).dimension + (heap pb).dimension + (heap pc).dimension) :
    ∃ r, combine_threads_in_vector_int32 cap [pa, pb, pc] heap f e = some r ∧
      (r.heap pa).dimension = cap ∧ (r.heap pa).flags = (heap pa).flags ∧
      (r.heap pb).dimension = 0 ∧ (r.heap pb).flags.garbage_collect = true ∧
      (r.heap pc).dimension
        = (heap pa).dimension + (heap pb).dimension + (heap pc).dimension - cap ∧
      ((r.heap pc).flags.garbage_collect = true ↔
        ((heap pc).flags.garbage_collect = true ∨
          (heap pa).dimension + (heap pb).dimension + (heap pc).dimension = cap)) ∧
      r.out_stat_filled = f + 1 ∧
      r.out_stat_emptied = e + 1 +
        (if (heap pa).dimension + (heap pb).dimension + (heap pc).dimension = cap
          then 1 else 0) := by
  have hnn : ∀ p ∈ [pa, pb, pc], 0 ≤ (heap p).dimension := by
    intro p hp
    simp only [List.mem_cons, List.mem_singleton, List.not_mem_nil, or_false] at hp
    rcases hp with rfl | rfl | rfl <;> assumption
  have htot : total_fill heap [pa, pb, pc] ≤ 2147483647 := by
    simp only [total_fill, fills, List.map_cons, List.map_nil, List.sum_cons, List.sum_nil]
    omega
  rw [combine_int32_eq_of_total cap (by omega) [pa, pb, pc] hnd heap f e hnn htot]
  exact three_units_exact cap pa pb pc heap f e hnd h1 h2

theorem scenario_three_units_witness :
    [0, 1, 2].Nodup ∧
    0 ≤ (heap_of_fills [30, 40, 50] 0).dimension ∧
    0 ≤ (heap_of_fills [30, 40, 50] 1).dimension ∧
    0 ≤ (heap_of_fills [30, 40, 50] 2).dimension ∧
    (heap_of_fills [30, 40, 50] 0).dimension + (heap_of_fills [30, 40, 50] 1).dimension
      + (heap_of_fills [30, 40, 50] 2).dimension ≤ 2147483647 ∧
    (heap_of_fills [30, 40, 50] 0).dimension + (heap_of_fills [30, 40, 50] 1).dimension < 100 ∧
    100 ≤ (heap_of_fills [30, 40, 50] 0).dimension + (heap_of_fills [30, 40, 50] 1).dimension
      + (heap_of_fills [30, 40, 50] 2).dimension ∧
    ∃ r, combine_threads_in_vector_int32 100 [0, 1, 2] (heap_of_fills [30, 40, 50]) 0 0
        = some r ∧
      (r.heap 0).dimension = 100 ∧ (r.heap 0).flags = (heap_of_fills [30, 40, 50] 0).flags ∧
      (r.heap 1).dimension = 0 ∧ (r.heap 1).flags.garbage_collect = true ∧
      (r.heap 2).dimension = 20 ∧
      ((r.heap 2).flags.garbage_collect = true ↔
        ((heap_of_fills [30, 40, 50] 2).flags.garbage_collect = true ∨
          (heap_of_fills [30, 40, 50] 0).dimension + (heap_of_fills [30, 40, 50] 1).dimension
            + (heap_of_fills [30, 40, 50] 2).dimension = 100)) ∧
      r.out_stat_filled = 1 ∧ r.out_stat_emptied = 1 :=
  ⟨by decide, by decide, by decide, by decide, by decide, by decide, by decide,
    scenario_three_units 100 0 1 2 (heap_of_fills [30, 40, 50]) 0 0
      (by decide) (by decide) (by decide) (by decide) (by decide) (by decide) (by decide)⟩

/-- C8 (receiver advance), restricted to the groups on which the code and the
specified algorithm move the receiver cursor alike and on which no `int32_t`
operation overflows: for a capacity of at least `0` and a group of distinct
units with non-negative fills whose total is at most `2147483647`, in whose
specified run every donor that tops off the receiver stands directly after it,
`combine_threads_in_vector` returns and leaves the same fill amounts, removal
flags and counters as the combiner of the specification, which moves the
receiver cursor to the donor's position. -/
theorem receiver_advance_when_adjacent (cap : Int) (vec : List Nat) (heap : Heap) (f e : Int)
    (hnd : vec.Nodup) (hcap : 0 ≤ cap) (hnn : ∀ p ∈ vec, 0 ≤ (heap p).dimension)
    (htot : total_fill heap vec ≤ 2147483647)
    (hadj : tops_off_adjacent cap heap vec = true) :
    ∃ r, combine_threads_in_vector_int32 cap vec heap f e = some r ∧
      read_group r.heap vec = (spec_combiner cap (read_group heap vec) f e).units ∧
      r.out_stat_filled = (spec_combiner cap (read_group heap vec) f e).filled ∧
      r.out_stat_emptied = (spec_combiner cap (read_group heap vec) f e).emptied := by
  rw [combine_int32_eq_of_total cap hcap vec hnd heap f e hnn htot]
  exact receiver_advance_exact cap vec heap f e hnd hadj

theorem receiver_advance_when_adjacent_witness :
    [0, 1, 2, 3].Nodup ∧
    0 ≤ thread_full_dim ∧
    (∀ p ∈ [0, 1, 2, 3], 0 ≤ (heap_of_fills [9000, 8000, 3000, 1000] p).dimension) ∧
    total_fill (heap_of_fills [9000, 8000, 3000, 1000]) [0, 1, 2, 3] ≤ 2147483647 ∧
    tops_off_adjacent thread_full_dim (heap_of_fills [9000, 8000, 3000, 1000]) [0, 1, 2, 3]
      = true ∧
    ∃ r, combine_threads_in_vector_int32 thread_full_dim [0, 1, 2, 3]
        (heap_of_fills [9000, 8000, 3000, 1000]) 0 0 = some r ∧
      read_group r.heap [0, 1, 2, 3]
        = (spec_combiner thread_full_dim
            (read_group (heap_of_fills [9000, 8000, 3000, 1000]) [0, 1, 2, 3]) 0 0).units ∧
      r.out_stat_filled
        = (spec_combiner thread_full_dim
            (read_group (heap_of_fills [9000, 8000, 3000, 1000]) [0, 1, 2, 3]) 0 0).filled ∧
      r.out_stat_emptied
        = (spec_combiner thread_full_dim
            (read_group (heap_of_fills [9000, 8000, 3000, 1000]) [0, 1, 2, 3]) 0 0).emptied :=
  ⟨by decide, by decide, by decide, by decide, by decide,
    receiver_advance_when_adjacent thread_full_dim [0, 1, 2, 3]
      (heap_of_fills [9000, 8000, 3000, 1000]) 0 0 (by decide) (by decide) (by decide)
      (by decide) (by decide)⟩

/-! ## Cross-key isolation of the pass -/

/-- C13 (cross-key isolation), with the bound that keeps the `int32_t`
additions of the combiner in range: in every group that the loop over
`sp_contents` builds, all units have the key of that group.  And when the
stockpile `sp` holds distinct thread units, none of which another stockpile
holds, each with a fill amount between `0` and the capacity `thread_full_dim`,
then the command `df_combinethread` returns, and for every key the total fill
amount of the units of `sp` with that key is the same after the command as
before it; no unit changes its key. -/
theorem cross_key_isolation (before after : List building_stockpilest)
    (sp : building_stockpilest) (heap : Heap)
    (hnd : (stockpile_threads sp.contents).Nodup)
    (hdis : ∀ sp2 ∈ before ++ after, ∀ p ∈ stockpile_threads sp2.contents,
      p ∉ stockpile_threads sp.contents)
    (hb : ∀ p ∈ stockpile_threads sp.contents,
      0 ≤ (heap p).dimension ∧ (heap p).dimension ≤ thread_full_dim) :
    (∀ (st : CombineResult) (entry : MatKey × List Nat),
      entry ∈ insert_contents st.heap sp.contents [] →
      ∀ p ∈ entry.2, key_of st.heap p = entry.1) ∧
    ∃ r, df_combinethread_int32 (before ++ sp :: after) heap = some r ∧
      (∀ q, key_of r.heap q = key_of heap q) ∧
      ∀ key : MatKey,
        total_fill r.heap
            ((stockpile_threads sp.contents).filter (fun p => decide (key_of heap p = key)))
          = total_fill heap
            ((stockpile_threads sp.contents).filter (fun p => decide (key_of heap p = key))) := by
  refine ⟨fun st entry he p hp => (entry_same_key st.heap sp.contents entry he p hp).2.2, ?_⟩
  obtain ⟨r, hr, _, hk⟩ := process_stockpiles_int32_total_on [] List.nodup_nil heap
    (before ++ sp :: after) ⟨heap, 0, 0⟩ (fun _ => rfl)
    (fun _ _ => Or.inl (fun _ _ h => by simp at h)) (fun _ h => by simp at h)
  refine ⟨r, hr, hk, ?_⟩
  intro key
  obtain ⟨r2, hr2, ht2, _⟩ := process_stockpiles_int32_total_on
    ((stockpile_threads sp.contents).filter (fun p => decide (key_of heap p = key)))
    (hnd.filter _) heap (before ++ sp :: after) ⟨heap, 0, 0⟩ (fun _ => rfl)
    (by
      intro sp2 h2
      have h3 : sp2 ∈ before ++ after ∨ sp2 = sp := by
        simp only [List.mem_append, List.mem_cons] at h2 ⊢
        tauto
      rcases h3 with h3 | h3
      · left
        intro p hp hpS
        exact hdis sp2 h3 p hp (List.mem_filter.mp hpS).1
      · right
        subst h3
        refine ⟨hnd, ?_⟩
        intro p _ q hq hpq hpS
        have hkp := (List.mem_filter.mp hpS).2
        simp only [decide_eq_true_eq] at hkp
        exact List.mem_filter.mpr ⟨hq, by simp only [decide_eq_true_eq]; rw [← hpq, hkp]⟩)
    (fun p hp => hb p (List.mem_filter.mp hp).1)
  have hrr : r2 = r := by
    have : process_stockpiles_int32 (before ++ sp :: after) ⟨heap, 0, 0⟩ = some r := hr
    rw [hr2] at this
    exact Option.some.inj this
  rw [← hrr]
  exact ht2

theorem cross_key_isolation_witness :
    (stockpile_threads [df_item.thread 0, df_item.other [some 1, none, some 2],
      df_item.thread 3]).Nodup ∧
    (∀ sp2 ∈ [(⟨2, [1], [], [], [], [df_item.thread 4, df_item.thread 5]⟩ :
        building_stockpilest)] ++ [],
      ∀ p ∈ stockpile_threads sp2.contents,
        p ∉ stockpile_threads [df_item.thread 0, df_item.other [some 1, none, some 2],
          df_item.thread 3]) ∧
    (∀ p ∈ stockpile_threads [df_item.thread 0, df_item.other [some 1, none, some 2],
        df_item.thread 3],
      0 ≤ (heap_of_fills_mats [3000, 4000, 13000, 1000, 7000, 9000] [0, 1, 0, 1, 0, 0]
          p).dimension ∧
      (heap_of_fills_mats [3000, 4000, 13000, 1000, 7000, 9000] [0, 1, 0, 1, 0, 0]
          p).dimension ≤ thread_full_dim) ∧
    ((∀ (st : CombineResult) (entry : MatKey × List Nat),
      entry ∈ insert_contents st.heap
        [df_item.thread 0, df_item.other [some 1, none, some 2], df_item.thread 3] [] →
      ∀ p ∈ entry.2, key_of st.heap p = entry.1) ∧
    ∃ r, df_combinethread_int32
        ([⟨2, [1], [], [], [], [df_item.thread 4, df_item.thread 5]⟩] ++
          ⟨1, [0, 1], [], [], [], [df_item.thread 0, df_item.other [some 1, none, some 2],
            df_item.thread 3]⟩ :: [])
        (heap_of_fills_mats [3000, 4000, 13000, 1000, 7000, 9000] [0, 1, 0, 1, 0, 0]) = some r ∧
      (∀ q, key_of r.heap q
        = key_of (heap_of_fills_mats [3000, 4000, 13000, 1000, 7000, 9000] [0, 1, 0, 1, 0, 0]) q) ∧
      ∀ key : MatKey,
        total_fill r.heap
            ((stockpile_threads [df_item.thread 0, df_item.other [some 1, none, some 2],
              df_item.thread 3]).filter (fun p => decide (key_of
                (heap_of_fills_mats [3000, 4000, 13000, 1000, 7000, 9000] [0, 1, 0, 1, 0, 0]) p
                  = key)))
          = total_fill
              (heap_of_fills_mats [3000, 4000, 13000, 1000, 7000, 9000] [0, 1, 0, 1, 0, 0])
            ((stockpile_threads [df_item.thread 0, df_item.other [some 1, none, some 2],
              df_item.thread 3]).filter (fun p => decide (key_of
                (heap_of_fills_mats [3000, 4000, 13000, 1000, 7000, 9000] [0, 1, 0, 1, 0, 0]) p
                  = key)))) :=
  ⟨by decide, by decide, by decide,
    cross_key_isolation [⟨2, [1], [], [], [], [df_item.thread 4, df_item.thread 5]⟩] []
      ⟨1, [0, 1], [], [], [], [df_item.thread 0, df_item.other [some 1, none, some 2],
        df_item.thread 3]⟩
      (heap_of_fills_mats [3000, 4000, 13000, 1000, 7000, 9000] [0, 1, 0, 1, 0, 0])
      (by decide) (by decide) (by decide)⟩

/-- C13 refuted as stated: a stockpile accepting plant thread holds two distinct
spools of one key with the fill amounts `2147483647` and `1`, total
`2147483648`.  In the command the sum of line 56 wraps to `-2147483648`, the
second spool is drained into the first, whose new fill wraps as well, and the
spools end at `-2147483648` and `0`: the total fill of the key after the
command is `-2147483648`, not the total before it. -/
theorem cross_key_total_overflows :
    (stockpile_threads [df_item.thread 0, df_item.thread 1]).Nodup ∧
    [0, 1].filter (fun p => decide (key_of (heap_of_fills [2147483647, 1]) p = (0, 0)))
      = [0, 1] ∧
    total_fill (heap_of_fills [2147483647, 1]) [0, 1] = 2147483648 ∧
    run_pass_int32 [⟨1, [1], [], [], [], [df_item.thread 0, df_item.thread 1]⟩]
        (heap_of_fills [2147483647, 1]) [0, 1]
      = some ([-2147483648, 0], [false, true], 0, 1) ∧
    (df_combinethread_int32 [⟨1, [1], [], [], [], [df_item.thread 0, df_item.thread 1]⟩]
        (heap_of_fills [2147483647, 1])).map (fun r => total_fill r.heap [0, 1])
      = some (-2147483648) ∧
    ¬ ∃ r, df_combinethread_int32
          [⟨1, [1], [], [], [], [df_item.thread 0, df_item.thread 1]⟩]
          (heap_of_fills [2147483647, 1]) = some r ∧
        ∀ key : MatKey,
          total_fill r.heap
              ((stockpile_threads [df_item.thread 0, df_item.thread 1]).filter
                (fun p => decide (key_of (heap_of_fills [2147483647, 1]) p = key)))
            = total_fill (heap_of_fills [2147483647, 1])
              ((stockpile_threads [df_item.thread 0, df_item.thread 1]).filter
                (fun p => decide (key_of (heap_of_fills [2147483647, 1]) p = key))) := by
  have hmap : (df_combinethread_int32
        [⟨1, [1], [], [], [], [df_item.thread 0, df_item.thread 1]⟩]
        (heap_of_fills [2147483647, 1])).map (fun r => total_fill r.heap [0, 1])
      = some (-2147483648) := rfl
  refine ⟨by decide, rfl, by decide, rfl, hmap, ?_⟩
  rintro ⟨r, hr, h⟩
  have h0 := h (0, 0)
  have hf : (stockpile_threads [df_item.thread 0, df_item.thread 1]).filter
      (fun p => decide (key_of (heap_of_fills [2147483647, 1]) p = (0, 0))) = [0, 1] := rfl
  rw [hf] at h0
  rw [hr] at hmap
  have h1 : total_fill r.heap [0, 1] = -2147483648 := Option.some.inj hmap
  rw [h1] at h0
  exact absurd h0 (by decide)

end CombineThread
